import Mathlib

/-!
Verification of icloud-go, a CloudKit Web Services client.

A shallow embedding of the package `icloud` (`client.go`, `error.go`,
`records.go`, `records_string.go`, `environment.go`, `database.go`,
`option.go`, `icloud.go`) together with theorems about request signing, the
wire adapters of the record model and the error model, the response handling
of the HTTP engine, the construction of the client and the records service.

Modelling conventions.

* Go `string` and byte buffers holding text are Lean `String`s (sequences of
  Unicode scalar values, i.e. valid UTF-8).
* `encoding/json` is modelled in two layers.  The text layer (`Json.parse`,
  `Json.render`) relates text to the JSON value `Json`; writing a value and
  reading the text gives the value back (`parse_render`).  The `MarshalJSON`
  and `UnmarshalJSON` hooks of the package exchange one JSON value with the
  library: the library only ever hands a hook the text of one complete value,
  and compacts and validates the text a hook returns, so the hooks are given
  here on `Json`.  The nesting limit of the decoder is not modelled.
* A field of type `interface{}` holds a `Value`: the nil interface, a value of
  one of the types that `encoding/json` decodes into, or a value of another
  type, given by what `json.Marshal` makes of it.  A `float64` is given by its
  bits, and `strconv` reads and writes it with exact arithmetic (`ParseFloat`,
  `floatJson`).
* A Go function that can return an error or panic returns `Outcome`.
* Names follow the source; `Client.do` is `Client.do_` and the fields `Type`
  are `Type_`, since `do` and `Type` are keywords.
* `crypto/sha256`, `crypto/ecdsa`, `encoding/base64`, `net/url`, `path`, the
  clock and one floating point product of `time.ParseDuration` are fields of
  the structure `Lib`, so every theorem holds for every implementation of
  them.
* Where the text of a URL matters, `net/url` and `path` are computed
  (`ParseRequestURI`, `Parse`, `URL.String`, `URL.ResolveReference`, `Join`),
  and a theorem assumes with `Lib.NetURL` that the fields of `Lib` are these
  functions.  A text that is not UTF-8 has no image in the model.
* A method that decodes a response takes the library decoding of its result
  type as a parameter.
-/

namespace Icloud

/-! ## Results of Go calls -/

/-- Result of a Go call: a value, a returned `error`, or a run-time panic. -/
inductive Outcome (ε α : Type) where
  | ok (a : α) : Outcome ε α
  | error (e : ε) : Outcome ε α
  | crash : Outcome ε α

/-! ## JSON values -/

/-- JSON values.  A number `num neg m e` denotes `m * 10 ^ e`, negated when
`neg`; the sign is kept apart from the digits because `-0` is a number text of
its own. -/
inductive Json where
  | null : Json
  | bool (b : Bool) : Json
  | num (neg : Bool) (mantissa : Nat) (exponent : Int) : Json
  | str (s : String) : Json
  | arr (items : List Json) : Json
  | obj (members : List (String × Json)) : Json

/-- Whether a JSON value is `null`. -/
def Json.isNull : Json → Bool
  | .null => true
  | _ => false

/-- Name `encoding/json` gives the kind of a JSON value in a type error. -/
def Json.kind : Json → String
  | .null => "null"
  | .bool _ => "bool"
  | .num _ _ _ => "number"
  | .str _ => "string"
  | .arr _ => "array"
  | .obj _ => "object"

/-! ## Enumerations -/

/-- Go `type OperationType uint8`; `val` is the numeric value. -/
structure OperationType where
  val : Nat
deriving DecidableEq, Repr

namespace OperationType

def Create : OperationType := ⟨1⟩
def Update : OperationType := ⟨2⟩
def ForceUpdate : OperationType := ⟨3⟩
def Replace : OperationType := ⟨4⟩
def ForceReplace : OperationType := ⟨5⟩
def Delete : OperationType := ⟨6⟩
def ForceDelete : OperationType := ⟨7⟩

/-- Generated constant `_OperationType_name`. -/
def _OperationType_name : String :=
  "createupdateforceUpdatereplaceforceReplacedeleteforceDelete"

/-- Generated table `_OperationType_index`. -/
def _OperationType_index : List Nat := [0, 6, 12, 23, 30, 42, 48, 59]

/-- Go slice expression `s[lo:hi]` on an ASCII string. -/
def slice (s : String) (lo hi : Nat) : String :=
  String.mk ((s.data.drop lo).take (hi - lo))

end OperationType

/-- Generated method `OperationType.String`: `i -= 1` wraps around in `uint8`. -/
def OperationType.String (ot : OperationType) : String :=
  let i := (ot.val + 255) % 256
  if i ≥ _OperationType_index.length - 1 then
    "OperationType(" ++ toString ((i + 1) % 256) ++ ")"
  else
    slice _OperationType_name (_OperationType_index.getD i 0) (_OperationType_index.getD (i + 1) 0)

/-- Go `type ErrorCode uint8`; `val` is the numeric value. -/
structure ErrorCode where
  val : Nat
deriving DecidableEq, Repr

namespace ErrorCode

def Unknown : ErrorCode := ⟨0⟩
def AccessDenied : ErrorCode := ⟨1⟩
def AtomicError : ErrorCode := ⟨2⟩
def AuthenticationFailed : ErrorCode := ⟨3⟩
def AuthenticationRequired : ErrorCode := ⟨4⟩
def BadRequest : ErrorCode := ⟨5⟩
def Conflict : ErrorCode := ⟨6⟩
def Exists : ErrorCode := ⟨7⟩
def InternalError : ErrorCode := ⟨8⟩
def NotFound : ErrorCode := ⟨9⟩
def QuotaExceeded : ErrorCode := ⟨10⟩
def Throttled : ErrorCode := ⟨11⟩
def TryAgainLater : ErrorCode := ⟨12⟩
def ValidatingReferenceError : ErrorCode := ⟨13⟩
def ZoneNotFound : ErrorCode := ⟨14⟩

/-- Modelled from the spec: the generated file `error_string.go` (stringer with
`-linecomment`) is not among the sources; these are the 15 canonical wire
strings of section 3, which are also the line comments of the constant block
in `error.go`, in the order of the constants. -/
def names : List String :=
  ["UNKNOWN", "ACCESS_DENIED", "ATOMIC_ERROR", "AUTHENTICATION_FAILED",
   "AUTHENTICATION_REQUIRED", "BAD_REQUEST", "CONFLICT", "EXISTS", "INTERNAL_ERROR",
   "NOT_FOUND", "QUOTA_EXCEEDED", "THROTTLED", "TRY_AGAIN_LATER",
   "VALIDATING_REFERENCE_ERROR", "ZONE_NOT_FOUND"]

end ErrorCode

/-- Modelled from the spec: method `ErrorCode.String` of the missing
`error_string.go`: the canonical wire string of a constant, and the stringer
fallback `ErrorCode(n)` for any other value. -/
def ErrorCode.String (ec : ErrorCode) : String :=
  if ec.val < names.length then names.getD ec.val ""
  else "ErrorCode(" ++ toString ec.val ++ ")"

/-! ## Errors -/

/-- Go `type Error struct`: the error response of the API.  `RetryAfter` is a
`time.Duration`, a signed count of nanoseconds. -/
structure Error where
  Reason : String
  RetryAfter : Int
  Code : ErrorCode
deriving DecidableEq, Repr

/-- Errors of `net/url` before they are wrapped in a `*url.Error`. -/
inductive URLErr where
  /-- `net/url: invalid control character in URL`. -/
  | controlCharacter : URLErr
  /-- `empty url`. -/
  | emptyURL : URLErr
  /-- `missing protocol scheme`. -/
  | missingScheme : URLErr
  /-- `invalid URI for request`. -/
  | invalidRequestURI : URLErr
  /-- `first path segment in URL cannot contain colon`. -/
  | colonInFirstSegment : URLErr
  /-- `url.EscapeError(s)`: `invalid URL escape` of the text `s`. -/
  | escape (s : String) : URLErr
  /-- `url.InvalidHostError(s)`: `invalid character` in a host name. -/
  | invalidHost (s : String) : URLErr
  /-- `invalid port` of the text `s` after a host. -/
  | invalidPort (s : String) : URLErr
  /-- `missing ']' in host`. -/
  | missingBracket : URLErr
  /-- `net/url: invalid userinfo`. -/
  | invalidUserinfo : URLErr
deriving DecidableEq, Repr

/-- Values of the Go interface `error` that the package returns. -/
inductive Err where
  /-- A value of the structured type `Error`. -/
  | api (e : Error) : Err
  /-- `*json.UnmarshalTypeError`: JSON `value` cannot be stored in Go type `goType`. -/
  | unmarshalType (value : String) (goType : String) : Err
  /-- `fmt.Errorf("unknown operation type %q", s)`. -/
  | unknownOperationType (s : String) : Err
  /-- `fmt.Errorf("unknown error code %q", s)`. -/
  | unknownErrorCode (s : String) : Err
  /-- `time: invalid duration` for the text `orig`. -/
  | durationInvalid (orig : String) : Err
  /-- `time: missing unit in duration` for the text `orig`. -/
  | durationMissingUnit (orig : String) : Err
  /-- `time: unknown unit` for unit `unit` in the text `orig`. -/
  | durationUnknownUnit (unit : String) (orig : String) : Err
  /-- `*json.SyntaxError`. -/
  | jsonText (msg : String) : Err
  /-- `io.EOF`. -/
  | eof : Err
  /-- `io.ErrUnexpectedEOF`. -/
  | unexpectedEOF : Err
  /-- `fmt.Errorf("error decoding %d error response: %w", statusCode, err)`. -/
  | decodingErrorResponse (statusCode : Int) (inner : Err) : Err
  /-- An error returned by a library call outside the model. -/
  | external (msg : String) : Err
  /-- `&url.Error{Op: op, URL: url, Err: err}`. -/
  | url (op : String) (url : String) (err : URLErr) : Err
  /-- `*json.UnsupportedValueError` for a value whose text is `s`. -/
  | unsupportedValue (s : String) : Err
  /-- `*json.UnsupportedTypeError` for a value of the Go type `goType`. -/
  | unsupportedType (goType : String) : Err
  /-- `*json.MarshalerError`: the method `MarshalJSON` of `goType` returned `inner`. -/
  | marshaler (goType : String) (inner : Err) : Err
deriving DecidableEq, Repr

/-- Whether an `error` value has the dynamic type `Error`. -/
def Err.isApi : Err → Bool
  | .api _ => true
  | _ => false

/-! ## Enum wire adapters (`records.go`, `error.go`) -/

/-- Library call `json.Unmarshal(b, &s)` for `var s string`: `null` leaves `s`
alone, a JSON string is stored, anything else is a type error. -/
def unmarshalString (b : Json) (s : String) : String × Option Err :=
  match b with
  | .null => (s, none)
  | .str t => (t, none)
  | v => (s, some (.unmarshalType v.kind "string"))

/-- Method `OperationType.MarshalJSON`: `json.Marshal(ot.String())`. -/
def OperationType.MarshalJSON (ot : OperationType) : Except Err Json :=
  .ok (.str ot.String)

open OperationType in
/-- Method `(*OperationType).UnmarshalJSON`; the receiver goes in as `ot` and
comes out as the first component. -/
def OperationType.UnmarshalJSON (b : Json) (ot : OperationType) : OperationType × Option Err :=
  match unmarshalString b "" with
  | (_, some err) => (ot, some err)
  | (s, none) =>
    if s = Create.String then (Create, none)
    else if s = Update.String then (Update, none)
    else if s = ForceUpdate.String then (ForceUpdate, none)
    else if s = Replace.String then (Replace, none)
    else if s = ForceReplace.String then (ForceReplace, none)
    else if s = Delete.String then (Delete, none)
    else if s = ForceDelete.String then (ForceDelete, none)
    else (ot, some (.unknownOperationType s))

open ErrorCode in
/-- Method `(*ErrorCode).UnmarshalJSON`; the receiver goes in as `ec` and comes
out as the first component.  The `switch` has no case for `Unknown`. -/
def ErrorCode.UnmarshalJSON (b : Json) (ec : ErrorCode) : ErrorCode × Option Err :=
  match unmarshalString b "" with
  | (_, some err) => (ec, some err)
  | (s, none) =>
    if s = AccessDenied.String then (AccessDenied, none)
    else if s = AtomicError.String then (AtomicError, none)
    else if s = AuthenticationFailed.String then (AuthenticationFailed, none)
    else if s = AuthenticationRequired.String then (AuthenticationRequired, none)
    else if s = BadRequest.String then (BadRequest, none)
    else if s = Conflict.String then (Conflict, none)
    else if s = Exists.String then (Exists, none)
    else if s = InternalError.String then (InternalError, none)
    else if s = NotFound.String then (NotFound, none)
    else if s = QuotaExceeded.String then (QuotaExceeded, none)
    else if s = Throttled.String then (Throttled, none)
    else if s = TryAgainLater.String then (TryAgainLater, none)
    else if s = ValidatingReferenceError.String then (ValidatingReferenceError, none)
    else if s = ZoneNotFound.String then (ZoneNotFound, none)
    else (ec, some (.unknownErrorCode s))

/-- The seven constants of `OperationType`, in declaration order. -/
def OperationType.all : List OperationType :=
  [OperationType.Create, OperationType.Update, OperationType.ForceUpdate, OperationType.Replace,
   OperationType.ForceReplace, OperationType.Delete, OperationType.ForceDelete]

/-- The fifteen constants of `ErrorCode`, in declaration order. -/
def ErrorCode.all : List ErrorCode :=
  [ErrorCode.Unknown, ErrorCode.AccessDenied, ErrorCode.AtomicError,
   ErrorCode.AuthenticationFailed, ErrorCode.AuthenticationRequired, ErrorCode.BadRequest,
   ErrorCode.Conflict, ErrorCode.Exists, ErrorCode.InternalError, ErrorCode.NotFound,
   ErrorCode.QuotaExceeded, ErrorCode.Throttled, ErrorCode.TryAgainLater,
   ErrorCode.ValidatingReferenceError, ErrorCode.ZoneNotFound]

/-! ## JSON text (`encoding/json`, text layer) -/

/-- White space of the JSON grammar. -/
def isSpace (c : Char) : Bool :=
  c.toNat = 32 || c.toNat = 9 || c.toNat = 13 || c.toNat = 10

/-- Drop leading white space. -/
def skipSpace : List Char → List Char
  | [] => []
  | c :: cs => if isSpace c then skipSpace cs else c :: cs

/-- Value of a hexadecimal digit. -/
def hexVal (c : Char) : Option Nat :=
  let n := c.toNat
  if 48 ≤ n ∧ n ≤ 57 then some (n - 48)
  else if 97 ≤ n ∧ n ≤ 102 then some (n - 87)
  else if 65 ≤ n ∧ n ≤ 70 then some (n - 55)
  else none

/-- Library helper `getu4` on the four characters after a backslash and `u`. -/
def getu4 (a b c d : Char) : Option Nat :=
  match hexVal a, hexVal b, hexVal c, hexVal d with
  | some x, some y, some z, some w => some (((x * 16 + y) * 16 + z) * 16 + w)
  | _, _, _, _ => none

/-- Character named by a one-letter escape. -/
def escapeChar (c : Char) : Option Char :=
  if c = '"' then some '"'
  else if c = '\\' then some '\\'
  else if c = '/' then some '/'
  else if c = 'b' then some (Char.ofNat 8)
  else if c = 'f' then some (Char.ofNat 12)
  else if c = 'n' then some '\n'
  else if c = 'r' then some '\r'
  else if c = 't' then some '\t'
  else none

/-- Rune `U+FFFD`, which replaces an unpaired surrogate escape. -/
def replacementChar : Char := Char.ofNat 0xFFFD

/-- Rest of a string literal after its opening quote: the decoded text and the
input after the closing quote.  `acc` holds the decoded characters, last
first. -/
def parseStringBody : Nat → List Char → List Char → Except Err (String × List Char)
  | 0, _, _ => .error (.jsonText "exceeded max depth")
  | _ + 1, [], _ => .error .unexpectedEOF
  | fuel + 1, c :: rest, acc =>
    if c = '"' then .ok (String.mk acc.reverse, rest)
    else if c = '\\' then
      match rest with
      | [] => .error .unexpectedEOF
      | e :: rest1 =>
        if e = 'u' then
          match rest1 with
          | a :: b :: c1 :: d :: rest2 =>
            match getu4 a b c1 d with
            | none => .error (.jsonText "invalid character in \\u hexadecimal character escape")
            | some r =>
              if 0xD800 ≤ r ∧ r < 0xE000 then
                match rest2 with
                | b1 :: u1 :: a2 :: b2 :: c2 :: d2 :: rest3 =>
                  match (if b1 = '\\' ∧ u1 = 'u' then getu4 a2 b2 c2 d2 else none) with
                  | some r2 =>
                    if r < 0xDC00 ∧ 0xDC00 ≤ r2 ∧ r2 < 0xE000 then
                      parseStringBody fuel rest3
                        (Char.ofNat ((r - 0xD800) * 0x400 + (r2 - 0xDC00) + 0x10000) :: acc)
                    else parseStringBody fuel rest2 (replacementChar :: acc)
                  | none => parseStringBody fuel rest2 (replacementChar :: acc)
                | _ => parseStringBody fuel rest2 (replacementChar :: acc)
              else parseStringBody fuel rest2 (Char.ofNat r :: acc)
          | _ =>
            if rest1.all (fun x => (hexVal x).isSome) then .error .unexpectedEOF
            else .error (.jsonText "invalid character in \\u hexadecimal character escape")
        else
          match escapeChar e with
          | some ch => parseStringBody fuel rest1 (ch :: acc)
          | none => .error (.jsonText "invalid character in string escape code")
    else if c.toNat < 0x20 then .error (.jsonText "invalid character in string literal")
    else parseStringBody fuel rest (c :: acc)

/-- Read a run of decimal digits: the number they add to `acc`, how many there
were, and the rest of the input. -/
def takeDigits : List Char → Nat → Nat → Nat × Nat × List Char
  | [], acc, n => (acc, n, [])
  | c :: cs, acc, n =>
    if c.isDigit then takeDigits cs (acc * 10 + (c.toNat - 48)) (n + 1) else (acc, n, c :: cs)

/-- Number that a run of decimal digits denotes when read after the number
`acc`. -/
def digitsValue (acc : Nat) (ds : List Char) : Nat :=
  ds.foldl (fun a c => a * 10 + (c.toNat - 48)) acc

/-- Error for a character that cannot continue a token; at the end of input
the error is `io.ErrUnexpectedEOF`. -/
def badChar (cs : List Char) (msg : String) : Err :=
  match cs with
  | [] => .unexpectedEOF
  | _ :: _ => .jsonText msg

/-- Exponent part of a number, after the integer and fraction parts. -/
def parseExponent (neg : Bool) (int : Nat) (frac : Nat) (nfrac : Nat) (cs : List Char) :
    Except Err (Json × List Char) :=
  let mant : Nat := int * 10 ^ nfrac + frac
  match cs with
  | c :: rest =>
    if c = 'e' ∨ c = 'E' then
      let (eneg, rest1) :=
        match rest with
        | s :: r => if s = '+' then (false, r) else if s = '-' then (true, r) else (false, rest)
        | [] => (false, rest)
      match takeDigits rest1 0 0 with
      | (_, 0, r) => .error (badChar r "invalid character in exponent of numeric literal")
      | (e, _ + 1, r) =>
        .ok (.num neg mant ((if eneg then -(e : Int) else (e : Int)) - (nfrac : Int)), r)
    else .ok (.num neg mant (-(nfrac : Int)), cs)
  | [] => .ok (.num neg mant (-(nfrac : Int)), cs)

/-- Fraction part of a number, after the integer part. -/
def parseFraction (neg : Bool) (int : Nat) (cs : List Char) : Except Err (Json × List Char) :=
  match cs with
  | c :: rest =>
    if c = '.' then
      match takeDigits rest 0 0 with
      | (_, 0, r) => .error (badChar r "invalid character after decimal point in numeric literal")
      | (f, n + 1, r) => parseExponent neg int f (n + 1) r
    else parseExponent neg int 0 0 cs
  | [] => parseExponent neg int 0 0 cs

/-- Number literal; the input starts at its first character. -/
def parseNumber (cs : List Char) : Except Err (Json × List Char) :=
  let (neg, cs1) :=
    match cs with
    | c :: r => if c = '-' then (true, r) else (false, cs)
    | [] => (false, cs)
  match cs1 with
  | [] => .error .unexpectedEOF
  | c :: rest =>
    if c = '0' then parseFraction neg 0 rest
    else if c.isDigit then
      match takeDigits cs1 0 0 with
      | (i, _, r) => parseFraction neg i r
    else .error (.jsonText "invalid character in numeric literal")

/-- One of the literals `true`, `false`, `null`, spelled `word`. -/
def parseLiteral (word : List Char) (v : Json) (cs : List Char) : Except Err (Json × List Char) :=
  if word.isPrefixOf cs then .ok (v, cs.drop word.length)
  else if cs.isPrefixOf word then .error .unexpectedEOF
  else .error (.jsonText "invalid character in literal")

mutual
/-- One JSON value at the start of the input (no leading white space), and the
input after it. -/
def parseValue : Nat → List Char → Except Err (Json × List Char)
  | 0, _ => .error (.jsonText "exceeded max depth")
  | _ + 1, [] => .error .unexpectedEOF
  | fuel + 1, c :: rest =>
    if c = '{' then
      match skipSpace rest with
      | [] => .error .unexpectedEOF
      | d :: rest1 =>
        if d = '}' then .ok (.obj [], rest1)
        else
          match parseMembers fuel (d :: rest1) with
          | .ok (ms, r) => .ok (.obj ms, r)
          | .error e => .error e
    else if c = '[' then
      match skipSpace rest with
      | [] => .error .unexpectedEOF
      | d :: rest1 =>
        if d = ']' then .ok (.arr [], rest1)
        else
          match parseElems fuel (d :: rest1) with
          | .ok (xs, r) => .ok (.arr xs, r)
          | .error e => .error e
    else if c = '"' then
      match parseStringBody (rest.length + 1) rest [] with
      | .ok (s, r) => .ok (.str s, r)
      | .error e => .error e
    else if c = 't' then parseLiteral ['t', 'r', 'u', 'e'] (.bool true) (c :: rest)
    else if c = 'f' then parseLiteral ['f', 'a', 'l', 's', 'e'] (.bool false) (c :: rest)
    else if c = 'n' then parseLiteral ['n', 'u', 'l', 'l'] .null (c :: rest)
    else if c = '-' ∨ c.isDigit then parseNumber (c :: rest)
    else .error (.jsonText "invalid character looking for beginning of value")
/-- Elements of an array after `[`: the input starts at an element. -/
def parseElems : Nat → List Char → Except Err (List Json × List Char)
  | 0, _ => .error (.jsonText "exceeded max depth")
  | fuel + 1, cs =>
    match parseValue fuel cs with
    | .error e => .error e
    | .ok (v, r) =>
      match skipSpace r with
      | [] => .error .unexpectedEOF
      | d :: rest =>
        if d = ']' then .ok ([v], rest)
        else if d = ',' then
          match parseElems fuel (skipSpace rest) with
          | .ok (vs, r1) => .ok (v :: vs, r1)
          | .error e => .error e
        else .error (.jsonText "invalid character after array element")
/-- Members of an object after `{`: the input starts at a key. -/
def parseMembers : Nat → List Char → Except Err (List (String × Json) × List Char)
  | 0, _ => .error (.jsonText "exceeded max depth")
  | _ + 1, [] => .error .unexpectedEOF
  | fuel + 1, q :: rest =>
    if q = '"' then
      match parseStringBody (rest.length + 1) rest [] with
      | .error e => .error e
      | .ok (k, r) =>
        match skipSpace r with
        | [] => .error .unexpectedEOF
        | col :: r1 =>
          if col = ':' then
            match parseValue fuel (skipSpace r1) with
            | .error e => .error e
            | .ok (v, r2) =>
              match skipSpace r2 with
              | [] => .error .unexpectedEOF
              | d :: r3 =>
                if d = '}' then .ok ([(k, v)], r3)
                else if d = ',' then
                  match parseMembers fuel (skipSpace r3) with
                  | .ok (ms, r4) => .ok ((k, v) :: ms, r4)
                  | .error e => .error e
                else .error (.jsonText "invalid character after object key:value pair")
          else .error (.jsonText "invalid character after object key")
    else .error (.jsonText "invalid character looking for beginning of object key string")
end

/-- Method `(*json.Decoder).Decode`, text layer: the first JSON value of the
stream `s` and the text after it.  Empty or blank input is `io.EOF`. -/
def Json.parse (s : String) : Except Err (Json × String) :=
  match skipSpace s.data with
  | [] => .error .eof
  | c :: cs =>
    match parseValue (2 * s.length + 4) (c :: cs) with
    | .ok (v, r) => .ok (v, String.mk r)
    | .error e => .error e

/-! ## Library interface -/

/-- Go `url.Userinfo`. -/
structure Userinfo where
  username : String
  password : String
  passwordSet : Bool
deriving DecidableEq, Repr

/-- Go `url.URL`.  The package reads `Scheme`, `Host`, `Path` and `RawQuery`;
the other fields are empty unless the parser of `net/url` sets them.  `User`
is a pointer and may be nil. -/
structure URL where
  Scheme : String
  Opaque : String := ""
  User : Option Userinfo := none
  Host : String
  Path : String
  RawPath : String := ""
  OmitHost : Bool := false
  ForceQuery : Bool := false
  RawQuery : String
  Fragment : String := ""
  RawFragment : String := ""
deriving DecidableEq, Repr

/-- Operations of the Go runtime and standard library that the package calls.
Digests and signatures are byte strings, given as lists of numbers. -/
structure Lib where
  /-- Type `*ecdsa.PrivateKey` (a non-nil key). -/
  PrivateKey : Type
  /-- Type `*ecdsa.PublicKey`. -/
  PublicKey : Type
  /-- State of the entropy source `rand.Reader`. -/
  Entropy : Type
  /-- Type `time.Time`. -/
  Time : Type
  /-- Digest `sha256.Sum256` of the bytes of a text. -/
  sha256 : String → List Nat
  /-- Encoding `base64.StdEncoding.EncodeToString`. -/
  base64 : List Nat → String
  /-- Public half of a private key. -/
  publicKey : PrivateKey → PublicKey
  /-- Method `(*ecdsa.PrivateKey).Sign(rand.Reader, digest, crypto.SHA256)`. -/
  sign : PrivateKey → Entropy → List Nat → Except Err (List Nat)
  /-- Function `ecdsa.VerifyASN1(pub, digest, sig)`. -/
  verify : PublicKey → List Nat → List Nat → Bool
  /-- Expression `t.UTC().Format(time.RFC3339)`. -/
  formatRFC3339 : Time → String
  /-- Function `path.Join` on two elements. -/
  pathJoin : String → String → String
  /-- Function `url.ParseRequestURI`. -/
  parseRequestURI : String → Except Err URL
  /-- Method `(*url.URL).ResolveReference`. -/
  resolveReference : URL → URL → URL
  /-- Method `(*url.URL).String`. -/
  urlString : URL → String
  /-- Function `url.Parse`. -/
  urlParse : String → Except Err URL
  /-- Expression `uint64(float64(f) * (float64(unit) / scale))` of
  `time.ParseDuration`, computed in floating point. -/
  durationFraction : (f : Nat) → (unit : Nat) → (scale : Nat) → Nat

/-- Correctness of the signature scheme: a signature made with a private key
verifies under its public key. -/
def Lib.SignatureCorrect (L : Lib) : Prop :=
  ∀ (k : L.PrivateKey) (r : L.Entropy) (digest sig : List Nat),
    L.sign k r digest = .ok sig → L.verify (L.publicKey k) digest sig = true

/-! ## `time.ParseDuration` -/

/-- Library helper `leadingInt`: a run of digits as a `uint64`; `none` is the
overflow error. -/
def leadingInt : List Char → Nat → Option (Nat × List Char)
  | [], x => some (x, [])
  | c :: cs, x =>
    if c.isDigit then
      if x > 9223372036854775808 / 10 then none
      else
        let x1 := x * 10 + (c.toNat - 48)
        if x1 > 9223372036854775808 then none else leadingInt cs x1
    else some (x, c :: cs)

/-- Library helper `leadingFraction`: digits after the decimal point as
`(x, scale, rest)`; digits past the overflow point are skipped. -/
def leadingFraction : List Char → Nat → Nat → Bool → Nat × Nat × List Char
  | [], x, scale, _ => (x, scale, [])
  | c :: cs, x, scale, overflow =>
    if c.isDigit then
      if overflow then leadingFraction cs x scale true
      else if x > (9223372036854775808 - 1) / 10 then leadingFraction cs x scale true
      else
        let y := x * 10 + (c.toNat - 48)
        if y > 9223372036854775808 then leadingFraction cs x scale true
        else leadingFraction cs y (scale * 10) false
    else (x, scale, c :: cs)

/-- Library table `unitMap`: nanoseconds per unit. -/
def unitMap (u : String) : Option Nat :=
  if u = "ns" then some 1
  else if u = "us" then some 1000
  else if u = "µs" then some 1000
  else if u = "μs" then some 1000
  else if u = "ms" then some 1000000
  else if u = "s" then some 1000000000
  else if u = "m" then some 60000000000
  else if u = "h" then some 3600000000000
  else none

/-- Whether a character can start or continue the numeric part of a term. -/
def isNumberChar (c : Char) : Bool := c = '.' || c.isDigit

/-- Statement `if f > 0 { v += uint64(float64(f) * (float64(unit) / scale)) ...}`
of `time.ParseDuration` when `f > 0`: the new `v`, or `none` when it overflows
`1 << 63`. -/
def addFraction (L : Lib) (v f unit scale : Nat) : Option Nat :=
  let v2 := (v + L.durationFraction f unit scale) % 2 ^ 64
  if v2 > 9223372036854775808 then none else some v2

/-- Main loop of `time.ParseDuration` over the terms of the duration; `d` is
the `uint64` total so far. -/
def parseDurationLoop (L : Lib) (orig : String) : Nat → List Char → Nat → Except Err Nat
  | 0, _, _ => .error (.durationInvalid orig)
  | _ + 1, [], d => .ok d
  | fuel + 1, c :: cs, d =>
    if !isNumberChar c then .error (.durationInvalid orig)
    else
      match leadingInt (c :: cs) 0 with
      | none => .error (.durationInvalid orig)
      | some (v, s1) =>
        let pre := s1.length != (c :: cs).length
        let (f, scale, s2, post) :=
          match s1 with
          | p :: r =>
            if p = '.' then
              match leadingFraction r 0 1 false with
              | (f, scale, r1) => (f, scale, r1, r1.length != r.length)
            else (0, 1, s1, false)
          | [] => (0, 1, s1, false)
        if !pre && !post then .error (.durationInvalid orig)
        else
          let u := s2.takeWhile (fun x => !isNumberChar x)
          let s3 := s2.dropWhile (fun x => !isNumberChar x)
          if u.isEmpty then .error (.durationMissingUnit orig)
          else
            match unitMap (String.mk u) with
            | none => .error (.durationUnknownUnit (String.mk u) orig)
            | some unit =>
              if v > 9223372036854775808 / unit then .error (.durationInvalid orig)
              else
                match (if f > 0 then addFraction L (v * unit) f unit scale else some (v * unit)) with
                | none => .error (.durationInvalid orig)
                | some v2 =>
                  let d1 := (d + v2) % 2 ^ 64
                  if d1 > 9223372036854775808 then .error (.durationInvalid orig)
                  else parseDurationLoop L orig fuel s3 d1

/-- Function `time.ParseDuration`: a duration in nanoseconds. -/
def ParseDuration (L : Lib) (s : String) : Except Err Int :=
  let (neg, cs) :=
    match s.data with
    | c :: r => if c = '-' then (true, r) else if c = '+' then (false, r) else (false, s.data)
    | [] => (false, [])
  if cs = ['0'] then .ok 0
  else if cs.isEmpty then .error (.durationInvalid s)
  else
    match parseDurationLoop L s (cs.length + 1) cs 0 with
    | .error e => .error e
    | .ok d =>
      if neg then .ok (-(d : Int))
      else if d > 9223372036854775808 - 1 then .error (.durationInvalid s)
      else .ok (d : Int)

/-! ## Error wire adapter (`error.go`) -/

/-- Case folding of `encoding/json` when it matches an object key with a
struct field: ASCII letters to upper case, and the two runes that fold to an
ASCII letter. -/
def foldRune (c : Char) : Char :=
  if 97 ≤ c.toNat ∧ c.toNat ≤ 122 then Char.ofNat (c.toNat - 32)
  else if c.toNat = 0x17F then 'S'
  else if c.toNat = 0x212A then 'K'
  else c

/-- Whether object key `key` selects the struct field with JSON name `name`
(an ASCII name): equal up to case folding. -/
def keyMatches (key name : String) : Bool :=
  key.data.map foldRune == name.data.map foldRune

/-- The anonymous struct `localError` of `Error.UnmarshalJSON`: the embedded
`*LocalError` points at the receiver, and the outer `RetryAfter string` shadows
the embedded `RetryAfter`. -/
structure LocalErrorDecoding where
  LocalError : Error
  RetryAfter : String

/-- Library decoding of a JSON value into a struct field of type `string`;
`saved` is the decoder's first saved type error. -/
def decodeStringField (v : Json) (cur : String) (saved : Option Err) : String × Option Err :=
  match unmarshalString v cur with
  | (s, none) => (s, saved)
  | (s, some e) => (s, saved.orElse (fun _ => some e))

/-- Library decoding of the members of a JSON object into `localError`, in the
order of the text.  A type error is saved and decoding goes on; an error of the
`ErrorCode.UnmarshalJSON` hook ends decoding at once.  Keys that select no
field are skipped. -/
def decodeLocalErrorMembers :
    List (String × Json) → LocalErrorDecoding → Option Err → LocalErrorDecoding × Option Err
  | [], st, saved => (st, saved)
  | (k, v) :: ms, st, saved =>
    if keyMatches k "reason" then
      match decodeStringField v st.LocalError.Reason saved with
      | (r, saved1) =>
        decodeLocalErrorMembers ms { st with LocalError := { st.LocalError with Reason := r } } saved1
    else if keyMatches k "retryAfter" then
      match decodeStringField v st.RetryAfter saved with
      | (r, saved1) => decodeLocalErrorMembers ms { st with RetryAfter := r } saved1
    else if keyMatches k "serverErrorCode" then
      match ErrorCode.UnmarshalJSON v st.LocalError.Code with
      | (code, some e) => ({ st with LocalError := { st.LocalError with Code := code } }, some e)
      | (code, none) =>
        decodeLocalErrorMembers ms { st with LocalError := { st.LocalError with Code := code } } saved
    else decodeLocalErrorMembers ms st saved

/-- Library call `json.Unmarshal(b, &localError)`. -/
def unmarshalLocalError (b : Json) (st : LocalErrorDecoding) : LocalErrorDecoding × Option Err :=
  match b with
  | .null => (st, none)
  | .obj ms => decodeLocalErrorMembers ms st none
  | v => (st, some (.unmarshalType v.kind "struct"))

/-- Method `(*Error).UnmarshalJSON`; the receiver goes in as `e` and comes out
as the first component. -/
def Error.UnmarshalJSON (L : Lib) (b : Json) (e : Error) : Error × Option Err :=
  match unmarshalLocalError b { LocalError := e, RetryAfter := "" } with
  | (st, some err) => (st.LocalError, some err)
  | (st, none) =>
    if st.RetryAfter ≠ "" then
      match ParseDuration L st.RetryAfter with
      | .ok d => ({ st.LocalError with RetryAfter := d }, none)
      | .error err => ({ st.LocalError with RetryAfter := 0 }, some err)
    else (st.LocalError, none)

/-! ## Go maps with string keys -/

/-- Go `map[string]α`: an association list without repeated keys.  The order
of the list carries no meaning: marshalling sorts the keys and `range` visits
the entries in an order of its own (`RangeOrder`). -/
abbrev GoMap (α : Type) := List (String × α)

/-- Assignment `m[k] = v`. -/
def GoMap.set {α : Type} : GoMap α → String → α → GoMap α
  | [], k, v => [(k, v)]
  | (k1, v1) :: rest, k, v =>
    if k1 = k then (k, v) :: rest else (k1, v1) :: GoMap.set rest k v

/-- Lookup `m[k]` with its presence flag. -/
def GoMap.get? {α : Type} : GoMap α → String → Option α
  | [], _ => none
  | (k1, v1) :: rest, k => if k1 = k then some v1 else GoMap.get? rest k

/-- Byte-wise order of two strings, as `encoding/json` sorts map keys. -/
def keyLE : List Char → List Char → Bool
  | [], _ => true
  | _ :: _, [] => false
  | a :: as, b :: bs =>
    if a.toNat < b.toNat then true
    else if b.toNat < a.toNat then false
    else keyLE as bs

/-- Entries of a map in the order in which `encoding/json` writes them. -/
def GoMap.sorted {α : Type} (m : GoMap α) : List (String × α) :=
  m.insertionSort (fun a b => keyLE a.1.data b.1.data = true)

/-! ## Numbers (`strconv`, `float64`) -/

/-- Exponent part of a number in the format `e` of `strconv`, as
`encoding/json` writes it: the letter, a sign, and the digits of the exponent
without padding (`e+21`, `e-7`). -/
def renderExp (x : Int) : List Char :=
  'e' :: (if x < 0 then '-' else '+') :: Nat.toDigits 10 x.natAbs

/-- Digits of a number in the format `f` of `strconv`: the digits `ds` with a
decimal point before the last `k` of them, after `0.` and zeros when there are
not more than `k` digits. -/
def renderFixed (ds : List Char) (k : Nat) : List Char :=
  if k < ds.length then ds.take (ds.length - k) ++ '.' :: ds.drop (ds.length - k)
  else '0' :: '.' :: (List.replicate (k - ds.length) '0' ++ ds)

/-- Digits of a number in the format `e` of `strconv`: a point after the first
digit when more digits follow, then the exponent `e` counted from the first
digit. -/
def renderSci (ds : List Char) (e : Int) : List Char :=
  match ds with
  | [] => []
  | d :: rest => (d :: (if rest.isEmpty then [] else '.' :: rest)) ++ renderExp (e + rest.length)

/-- Text of a number, in the formats in which `encoding/json` writes integers
and floating point numbers: all digits when the exponent is zero; with a
negative exponent the format `f` (`1.5`, `0.001`) from `1e-6` on and the format
`e` (`1e-7`) below; with a positive exponent the format `e` (`1e+21`). -/
def renderNum (neg : Bool) (m : Nat) (e : Int) : List Char :=
  let ds := Nat.toDigits 10 m
  let body :=
    if e = 0 then ds
    else if e < 0 ∧ 10 ^ e.natAbs ≤ m * 1000000 then renderFixed ds e.natAbs
    else renderSci ds e
  if neg then '-' :: body else body

/-- Go `float64`, by the fields of the IEEE 754 double format: sign, biased
exponent and fraction.  With the exponent 2047 the value is an infinity
(fraction zero) or a NaN. -/
structure Float64 where
  sign : Bool
  exp : Fin 2048
  frac : Fin 4503599627370496
deriving DecidableEq, Repr

/-- Whether a float is neither an infinity nor a NaN. -/
def Float64.isFinite (x : Float64) : Bool := x.exp.val != 2047

/-- Significand of a finite float, with the implicit leading bit of a normal
number. -/
def Float64.mant (x : Float64) : Nat :=
  if x.exp.val = 0 then x.frac.val else 4503599627370496 + x.frac.val

/-- Binary exponent of a finite float, counted from that of the smallest
positive float: the magnitude of `x` is `x.mant * 2 ^ x.shift / floatUnit`. -/
def Float64.shift (x : Float64) : Nat := x.exp.val - 1

/-- How often `Q` is to be halved to come below `2 ^ 53`; `fuel` bounds the
count. -/
def shiftCount : Nat → Nat → Nat
  | 0, _ => 0
  | fuel + 1, Q => if Q < 9007199254740992 then 0 else shiftCount fuel (Q / 2) + 1

/-- Nearest float to the positive number `N / (D * floatUnit)`, ties going to
the even significand: the significand and the binary exponent, counted as in
`Float64.shift`.  The exponent comes out above 2045 when the number is too
large for a float64. -/
def roundFloat (N D : Nat) : Nat × Nat :=
  let i := shiftCount (N / D) (N / D)
  let den := D * 2 ^ i
  let q := N / den
  let r := N % den
  let M := if den < 2 * r ∨ (den = 2 * r ∧ q % 2 = 1) then q + 1 else q
  if M = 9007199254740992 then (4503599627370496, i + 1) else (M, i)

/-- The number of smallest positive floats in one: `2 ^ 1074`. -/
@[irreducible]
def floatUnit : Nat := 2 ^ 1074

/-- Function `strconv.ParseFloat(s, 64)` for a text `s` that denotes the number
`m * 10 ^ e`, negated when `neg`: the nearest float64, or `none` for the error
`strconv.ErrRange` of a number too large for a float64.  A number too small
reads as zero. -/
def ParseFloat (neg : Bool) (m : Nat) (e : Int) : Option Float64 :=
  match roundFloat (m * 10 ^ e.toNat * floatUnit) (10 ^ (-e).toNat) with
  | (M, i) =>
    if 2045 < i then none
    else if M < 4503599627370496 then some ⟨neg, 0, Fin.ofNat M⟩
    else some ⟨neg, Fin.ofNat (i + 1), Fin.ofNat (M - 4503599627370496)⟩

/-- Exact decimal of a finite float: `(m, k)` with the magnitude of `x` equal
to `m / 10 ^ k`. -/
def Float64.decimal (x : Float64) : Nat × Nat :=
  if 1074 ≤ x.shift then (x.mant * 2 ^ (x.shift - 1074), 0)
  else (x.mant * 5 ^ (1074 - x.shift), 1074 - x.shift)

/-- Shortest decimal that reads back as `x`, as `strconv` finds it for the
precision `-1`: with `m / 10 ^ k` the exact decimal of `x`, the digits of `m`
are cut after as few digits as possible such that the number rounded down or
rounded up there reads back as `x`; when both do, the nearer one is taken, the
even one in a tie.  `j + 1` is the number of digits cut off; the result is the
numerator `c` of the decimal `c / 10 ^ k`. -/
def shortest (x : Float64) (m k : Nat) : Nat → Nat
  | 0 => m
  | j + 1 =>
    let p := 10 ^ (j + 1)
    let lo := m / p * p
    let hi := lo + p
    let okdown := decide (ParseFloat x.sign lo (-(k : Int)) = some x)
    let okup := decide (ParseFloat x.sign hi (-(k : Int)) = some x)
    if okdown && okup then
      if 2 * (m % p) < p ∨ (2 * (m % p) = p ∧ m / p % 2 = 0) then lo else hi
    else if okdown then lo
    else if okup then hi
    else shortest x m k j

/-- Remove up to `fuel` trailing zeros from the digits of `c`: what is left of
`c` and the count `z` of zeros removed, added to the count so far. -/
def stripZeros : Nat → Nat → Nat → Nat × Nat
  | 0, c, z => (c, z)
  | fuel + 1, c, z =>
    if c % 10 = 0 ∧ c ≠ 0 then stripZeros fuel (c / 10) (z + 1) else (c, z)

/-- The number that `encoding/json` writes for a finite float64: its shortest
decimal, as the digits of an integer when it is one below `1e21`, with its
digits and a decimal exponent otherwise. -/
def floatJson (x : Float64) : Json :=
  match x.decimal with
  | (m, k) =>
    let c := shortest x m k ((Nat.toDigits 10 m).length - 1)
    if c % 10 ^ k = 0 ∧ c / 10 ^ k < 10 ^ 21 then .num x.sign (c / 10 ^ k) 0
    else
      match stripZeros (Nat.toDigits 10 c).length c 0 with
      | (d, z) => .num x.sign d ((z : Int) - (k : Int))

/-- Encoder of `encoding/json` for a float64: an infinity or a NaN is an
`UnsupportedValueError` that names the value as `strconv` writes it. -/
def floatEncoder (x : Float64) : Except Err Json :=
  if x.isFinite then .ok (floatJson x)
  else .error (.unsupportedValue
    (if x.frac.val ≠ 0 then "NaN" else if x.sign then "-Inf" else "+Inf"))

/-! ## Dynamic values (`interface{}`) -/

/-- A Go value held in an `interface{}`: the nil interface, a value of one of
the five types that `encoding/json` stores into an `interface{}` (`bool`,
`float64`, `string`, `[]interface{}`, `map[string]interface{}`), or a value of
any other type, given by the name of its type and by what `json.Marshal` makes
of it.  A map is given by its entries in increasing order of the keys; a nil
slice or nil map is a value of the last kind, encoded as `null`. -/
inductive Value where
  | nil : Value
  | bool (b : Bool) : Value
  | float64 (x : Float64) : Value
  | string (s : String) : Value
  | slice (items : List Value) : Value
  | map (members : List (String × Value)) : Value
  | other (goType : String) (encoding : Except Err Json) : Value

/-- Whether a dynamic value is the nil interface, which is what `omitempty`
tests on a field of type `interface{}`. -/
def Value.isNil : Value → Bool
  | .nil => true
  | _ => false

/-- A Go `int` held in an `interface{}`; `json.Marshal` writes its digits. -/
def Value.int (n : Int) : Value := .other "int" (.ok (.num (decide (n < 0)) n.natAbs 0))

/-- The encodings in a list, or the first error in it. -/
def collect : List (Except Err Json) → Except Err (List Json)
  | [] => .ok []
  | .error e :: _ => .error e
  | .ok j :: rest =>
    match collect rest with
    | .error e => .error e
    | .ok js => .ok (j :: js)

/-- The encoded members in a list, or the first error in it. -/
def collectMembers : List (String × Except Err Json) → Except Err (List (String × Json))
  | [] => .ok []
  | (_, .error e) :: _ => .error e
  | (k, .ok j) :: rest =>
    match collectMembers rest with
    | .error e => .error e
    | .ok ms => .ok ((k, j) :: ms)

mutual
/-- Library call `json.Marshal(v)` for a dynamic value: the elements of a slice
are encoded in order, the entries of a map in the order of their keys, and the
first error ends the call. -/
def Value.marshal : Value → Except Err Json
  | .nil => .ok .null
  | .bool b => .ok (.bool b)
  | .float64 x => floatEncoder x
  | .string s => .ok (.str s)
  | .slice xs =>
    match collect (marshalElems xs) with
    | .error e => .error e
    | .ok js => .ok (.arr js)
  | .map ms =>
    match collectMembers (GoMap.sorted (marshalMembers ms)) with
    | .error e => .error e
    | .ok jms => .ok (.obj jms)
  | .other _ enc => enc
/-- Encoding of each element of a slice. -/
def marshalElems : List Value → List (Except Err Json)
  | [] => []
  | x :: xs => x.marshal :: marshalElems xs
/-- Encoding of the value of each entry of a map. -/
def marshalMembers : List (String × Value) → List (String × Except Err Json)
  | [] => []
  | (k, v) :: ms => (k, v.marshal) :: marshalMembers ms
end

/-- The `UnmarshalTypeError` of a number that does not fit a float64; the
number is named by the text that the model writes for it. -/
def numberRangeError (neg : Bool) (m : Nat) (e : Int) : Err :=
  .unmarshalType ("number " ++ String.mk (renderNum neg m e)) "float64"

mutual
/-- Library decoding of a JSON value into a new `interface{}` (the method
`valueInterface` of the decoder): a number becomes a float64, an array a
`[]interface{}`, an object a `map[string]interface{}` in which a later member
replaces an earlier one of the same key.  A number that does not fit a float64
becomes nil and the error is saved; `saved` is the decoder's first saved
error. -/
def valueInterface : Json → Option Err → Value × Option Err
  | .null, saved => (.nil, saved)
  | .bool b, saved => (.bool b, saved)
  | .num neg m e, saved =>
    match ParseFloat neg m e with
    | some x => (.float64 x, saved)
    | none => (.nil, saved.orElse (fun _ => some (numberRangeError neg m e)))
  | .str s, saved => (.string s, saved)
  | .arr xs, saved =>
    match arrayInterface xs saved with
    | (vs, saved1) => (.slice vs, saved1)
  | .obj ms, saved =>
    match objectInterface ms saved with
    | (es, saved1) =>
      (.map (GoMap.sorted (es.foldl (fun m kv => GoMap.set m kv.1 kv.2) [])), saved1)
/-- Decoding of the elements of an array, in order. -/
def arrayInterface : List Json → Option Err → List Value × Option Err
  | [], saved => ([], saved)
  | x :: xs, saved =>
    match valueInterface x saved with
    | (v, saved1) =>
      match arrayInterface xs saved1 with
      | (vs, saved2) => (v :: vs, saved2)
/-- Decoding of the members of an object, in order. -/
def objectInterface : List (String × Json) → Option Err → List (String × Value) × Option Err
  | [], saved => ([], saved)
  | (k, x) :: ms, saved =>
    match valueInterface x saved with
    | (v, saved1) =>
      match objectInterface ms saved1 with
      | (es, saved2) => ((k, v) :: es, saved2)
end

/-- Library decoding of a JSON value into a struct field of type `interface{}`
that holds `cur`: as into a new `interface{}`, except that a number that does
not fit a float64 leaves the field as it is. -/
def decodeInterfaceField (v : Json) (cur : Value) (saved : Option Err) : Value × Option Err :=
  match v with
  | .num neg m e =>
    match ParseFloat neg m e with
    | some x => (.float64 x, saved)
    | none => (cur, saved.orElse (fun _ => some (numberRangeError neg m e)))
  | other => valueInterface other saved

/-- Whether the keys of the entries of a map come in strictly increasing
order. -/
def keysIncreasing : List String → Bool
  | [] => true
  | k :: ks => ks.all (fun k2 => keyLE k.data k2.data && k != k2) && keysIncreasing ks

mutual
/-- Whether a dynamic value is one that `encoding/json` stores into an
`interface{}`: nil, a bool, a finite float64, a string, or a `[]interface{}` or
`map[string]interface{}` of such values. -/
def Value.isJSON : Value → Bool
  | .nil => true
  | .bool _ => true
  | .float64 x => x.isFinite
  | .string _ => true
  | .slice xs => allJSON xs
  | .map ms => keysIncreasing (ms.map Prod.fst) && membersJSON ms
  | .other _ _ => false
/-- Whether the elements of a slice are such values. -/
def allJSON : List Value → Bool
  | [] => true
  | x :: xs => x.isJSON && allJSON xs
/-- Whether the values of the entries of a map are such values. -/
def membersJSON : List (String × Value) → Bool
  | [] => true
  | (_, v) :: ms => v.isJSON && membersJSON ms
end

/-! ## Record model and its wire adapters (`records.go`) -/

/-- Go `type Field struct`.  `Name` has the tag `json:"-"`, `Type_` (Go `Type`) the tag
`json:"type,omitempty"`, `Value` (an `interface{}`) the tag
`json:"value,omitempty"`. -/
structure Field where
  Name : String
  Type_ : String
  Value : Value

/-- Go `type Fields []Field`. -/
abbrev Fields := List Field

/-- Go `type Record struct`. -/
structure Record where
  Name : String
  Type_ : String
  Fields : Fields

/-- Go `type RecordOperation struct`. -/
structure RecordOperation where
  Type_ : OperationType
  Record : Record

/-- Go `type RecordsRequest struct`. -/
structure RecordsRequest where
  Operations : List RecordOperation

/-- Library encoding of a `Field` struct: `Name` is never written, `Type` is
left out when it is the empty string, `Value` when it is the nil interface;
the error of encoding the value is the error of the struct. -/
def Field.toJson (f : Field) : Except Err Json :=
  match (if f.Value.isNil then Except.ok [] else
          match f.Value.marshal with
          | .error e => .error e
          | .ok j => .ok [("value", j)]) with
  | .error e => .error e
  | .ok vs => .ok (.obj ((if f.Type_ = "" then [] else [("type", .str f.Type_)]) ++ vs))

/-- Library encoding of a `*Field`: a nil pointer is `null`. -/
def fieldPtrToJson : Option Field → Except Err Json
  | none => .ok .null
  | some f => f.toJson

/-- Library call `json.Marshal(fields)` for `fields map[string]*Field`: an
object with the keys in sorted order, or the first error of an entry in that
order. -/
def marshalFieldMap (fields : GoMap (Option Field)) : Except Err Json :=
  match collectMembers (fields.sorted.map (fun kv => (kv.1, fieldPtrToJson kv.2))) with
  | .error e => .error e
  | .ok ms => .ok (.obj ms)

/-- Method `Fields.MarshalJSON`: a map from each name to a pointer to the entry
of that name, later entries replacing earlier ones, marshalled as an object. -/
def Fields.MarshalJSON (f : Fields) : Except Err Json :=
  let fields : GoMap (Option Field) :=
    f.foldl (fun m field => GoMap.set m field.Name (some field)) []
  marshalFieldMap fields

/-- Library decoding of the members of a JSON object into a `Field` struct;
`saved` is the decoder's first saved type error. -/
def decodeFieldMembers : List (String × Json) → Field → Option Err → Field × Option Err
  | [], f, saved => (f, saved)
  | (k, v) :: ms, f, saved =>
    if keyMatches k "type" then
      match decodeStringField v f.Type_ saved with
      | (t, saved1) => decodeFieldMembers ms { f with Type_ := t } saved1
    else if keyMatches k "value" then
      match decodeInterfaceField v f.Value saved with
      | (x, saved1) => decodeFieldMembers ms { f with Value := x } saved1
    else decodeFieldMembers ms f saved

/-- The zero `Field`. -/
def Field.zero : Field := { Name := "", Type_ := "", Value := .nil }

/-- Library decoding of the members of a JSON object into a
`map[string]*Field`: `null` stores a nil pointer, an object a pointer to a new
`Field`, any other value a pointer to a zero `Field` and a type error. -/
def decodeFieldMapMembers :
    List (String × Json) → GoMap (Option Field) → Option Err → GoMap (Option Field) × Option Err
  | [], m, saved => (m, saved)
  | (k, v) :: ms, m, saved =>
    match v with
    | .null => decodeFieldMapMembers ms (GoMap.set m k none) saved
    | .obj fs =>
      match decodeFieldMembers fs Field.zero saved with
      | (fld, saved1) => decodeFieldMapMembers ms (GoMap.set m k (some fld)) saved1
    | other =>
      decodeFieldMapMembers ms (GoMap.set m k (some Field.zero))
        (saved.orElse (fun _ => some (.unmarshalType other.kind "icloud.Field")))

/-- Library call `json.Unmarshal(b, &fields)` for an empty
`fields map[string]*Field`. -/
def unmarshalFieldMap (b : Json) : GoMap (Option Field) × Option Err :=
  match b with
  | .null => ([], none)
  | .obj ms => decodeFieldMapMembers ms [] none
  | v => ([], some (.unmarshalType v.kind "map[string]*icloud.Field"))

/-- Order in which a `range` loop visits the entries of a map: some
rearrangement of the entries. -/
structure RangeOrder where
  pick : GoMap (Option Field) → List (String × Option Field)
  perm : ∀ m, (pick m).Perm m

/-- Body of the loop of `Fields.UnmarshalJSON` over the visited entries:
`field.Name = fieldName` dereferences the pointer, then the entry is appended. -/
def appendFields : List (String × Option Field) → Fields → Outcome Err Fields
  | [], f => .ok f
  | (_, none) :: _, _ => .crash
  | (fieldName, some field) :: rest, f =>
    appendFields rest (f ++ [{ field with Name := fieldName }])

/-- Method `(*Fields).UnmarshalJSON`; the receiver goes in as `f` and, when the
call returns `nil`, comes out as the result.  On an error the receiver is as
before. -/
def Fields.UnmarshalJSON (ord : RangeOrder) (b : Json) (f : Fields) : Outcome Err Fields :=
  match unmarshalFieldMap b with
  | (_, some err) => .error err
  | (fields, none) => appendFields (ord.pick fields) f

/-- Library encoding of a `Record` struct; all three members are `omitempty`.
An error of the method `MarshalJSON` of the fields comes back as a
`MarshalerError`. -/
def Record.toJson (r : Record) : Except Err Json :=
  match (if r.Fields.isEmpty then Except.ok [] else
          match Fields.MarshalJSON r.Fields with
          | .error e => .error (.marshaler "icloud.Fields" e)
          | .ok j => .ok [("fields", j)]) with
  | .error e => .error e
  | .ok fs =>
    .ok (.obj ((if r.Name = "" then [] else [("recordName", .str r.Name)]) ++
               (if r.Type_ = "" then [] else [("recordType", .str r.Type_)]) ++ fs))

/-- Library encoding of a `RecordOperation` struct: `operationType` is left out
when zero; `record`, a struct, is always written. -/
def RecordOperation.toJson (op : RecordOperation) : Except Err Json :=
  match (if op.Type_.val = 0 then Except.ok [] else
          match OperationType.MarshalJSON op.Type_ with
          | .error e => .error (.marshaler "icloud.OperationType" e)
          | .ok j => .ok [("operationType", j)]) with
  | .error e => .error e
  | .ok ts =>
    match op.Record.toJson with
    | .error e => .error e
    | .ok r => .ok (.obj (ts ++ [("record", r)]))

/-- Library encoding of a `RecordsRequest` struct: `operations` is left out
when the list is empty. -/
def RecordsRequest.toJson (req : RecordsRequest) : Except Err Json :=
  match req.Operations.mapM RecordOperation.toJson with
  | .error e => .error e
  | .ok ops => .ok (.obj (if ops.isEmpty then [] else [("operations", .arr ops)]))

/-! ## JSON text, writing -/

/-- Lower-case hexadecimal digit. -/
def hexDigit (n : Nat) : Char := "0123456789abcdef".data.getD n '0'

/-- Text of one character inside a JSON string, with the escapes of
`encoding/json` (HTML-safe). -/
def renderChar (c : Char) : List Char :=
  if c = '"' then ['\\', '"']
  else if c = '\\' then ['\\', '\\']
  else if c = '\n' then ['\\', 'n']
  else if c = '\r' then ['\\', 'r']
  else if c = '\t' then ['\\', 't']
  else if c.toNat < 0x20 ∨ c = '<' ∨ c = '>' ∨ c = '&' then
    ['\\', 'u', '0', '0', hexDigit (c.toNat / 16), hexDigit (c.toNat % 16)]
  else if c.toNat = 0x2028 then ['\\', 'u', '2', '0', '2', '8']
  else if c.toNat = 0x2029 then ['\\', 'u', '2', '0', '2', '9']
  else [c]

/-- Text of a JSON string. -/
def renderString (s : String) : List Char :=
  '"' :: (s.data.flatMap renderChar ++ ['"'])

mutual
/-- Compact text of a JSON value. -/
def renderValue : Json → List Char
  | .null => "null".data
  | .bool true => "true".data
  | .bool false => "false".data
  | .num neg m e => renderNum neg m e
  | .str s => renderString s
  | .arr [] => ['[', ']']
  | .arr (x :: xs) => '[' :: (renderValue x ++ renderElems xs)
  | .obj [] => ['{', '}']
  | .obj ((k, v) :: ms) => '{' :: (renderString k ++ ':' :: (renderValue v ++ renderMembers ms))
/-- Remaining elements of an array and its closing bracket. -/
def renderElems : List Json → List Char
  | [] => [']']
  | x :: xs => ',' :: (renderValue x ++ renderElems xs)
/-- Remaining members of an object and its closing brace. -/
def renderMembers : List (String × Json) → List Char
  | [] => ['}']
  | (k, v) :: ms => ',' :: (renderString k ++ ':' :: (renderValue v ++ renderMembers ms))
end

/-- Library call `json.Marshal`, text layer. -/
def Json.render (j : Json) : String := String.mk (renderValue j)

/-- Text of the elements of a non-empty array after the opening bracket. -/
def renderElemsFrom : List Json → List Char
  | [] => []
  | x :: xs => renderValue x ++ renderElems xs

/-- Text of the members of a non-empty object after the opening brace. -/
def renderMembersFrom : List (String × Json) → List Char
  | [] => []
  | (k, v) :: ms => renderString k ++ ':' :: (renderValue v ++ renderMembers ms)

/-- The text after a token: it does not start with a character that could
continue a number. -/
def EndsToken (rest : List Char) : Prop :=
  ∀ c ∈ rest.head?, c.isDigit = false ∧ c ≠ '.' ∧ c ≠ 'e' ∧ c ≠ 'E'

/-! ## HTTP messages (`net/http`) -/

/-- Characters of an HTTP token: letters, digits and some punctuation. -/
def isTokenChar (c : Char) : Bool :=
  c.isAlphanum || "!#$%&*+-.^_|~".data.contains c || c.toNat = 39 || c.toNat = 96

/-- Inner loop of `textproto.CanonicalMIMEHeaderKey`: upper case at the start
and after a dash, lower case elsewhere. -/
def canonicalize : Bool → List Char → List Char
  | _, [] => []
  | upper, c :: cs =>
    let c1 := if upper then c.toUpper else c.toLower
    c1 :: canonicalize (c1 = '-') cs

/-- Function `textproto.CanonicalMIMEHeaderKey`: a key with a character that is
not a token character is left as it is. -/
def CanonicalMIMEHeaderKey (s : String) : String :=
  if s.data.all isTokenChar then String.mk (canonicalize true s.data) else s

/-- Go `http.Header`, a `map[string][]string`. -/
abbrev Header := GoMap (List String)

/-- Method `Header.Set`. -/
def Header.Set (h : Header) (key value : String) : Header :=
  GoMap.set h (CanonicalMIMEHeaderKey key) [value]

/-- Method `Header.Get`: the first value of the key, or the empty string. -/
def Header.Get (h : Header) (key : String) : String :=
  match GoMap.get? h (CanonicalMIMEHeaderKey key) with
  | some (v :: _) => v
  | _ => ""

/-- Go `http.Request`, the fields the package sets: `Body` is the content of
the body buffer. -/
structure Request where
  Method : String
  URL : URL
  Header : Header
  Body : String

/-- Go `http.Response`, the fields the package reads: `Body` is the whole
content of the body stream. -/
structure Response where
  StatusCode : Int
  Header : Header
  Body : String

/-- Function `http.StatusText`: the text of a registered status code, the
empty string for any other code. -/
def StatusText (code : Int) : String :=
  match code with
  | 100 => "Continue"
  | 101 => "Switching Protocols"
  | 102 => "Processing"
  | 103 => "Early Hints"
  | 200 => "OK"
  | 201 => "Created"
  | 202 => "Accepted"
  | 203 => "Non-Authoritative Information"
  | 204 => "No Content"
  | 205 => "Reset Content"
  | 206 => "Partial Content"
  | 207 => "Multi-Status"
  | 208 => "Already Reported"
  | 226 => "IM Used"
  | 300 => "Multiple Choices"
  | 301 => "Moved Permanently"
  | 302 => "Found"
  | 303 => "See Other"
  | 304 => "Not Modified"
  | 305 => "Use Proxy"
  | 307 => "Temporary Redirect"
  | 308 => "Permanent Redirect"
  | 400 => "Bad Request"
  | 401 => "Unauthorized"
  | 402 => "Payment Required"
  | 403 => "Forbidden"
  | 404 => "Not Found"
  | 405 => "Method Not Allowed"
  | 406 => "Not Acceptable"
  | 407 => "Proxy Authentication Required"
  | 408 => "Request Timeout"
  | 409 => "Conflict"
  | 410 => "Gone"
  | 411 => "Length Required"
  | 412 => "Precondition Failed"
  | 413 => "Request Entity Too Large"
  | 414 => "Request URI Too Long"
  | 415 => "Unsupported Media Type"
  | 416 => "Requested Range Not Satisfiable"
  | 417 => "Expectation Failed"
  | 418 => "I'm a teapot"
  | 421 => "Misdirected Request"
  | 422 => "Unprocessable Entity"
  | 423 => "Locked"
  | 424 => "Failed Dependency"
  | 425 => "Too Early"
  | 426 => "Upgrade Required"
  | 428 => "Precondition Required"
  | 429 => "Too Many Requests"
  | 431 => "Request Header Fields Too Large"
  | 451 => "Unavailable For Legal Reasons"
  | 500 => "Internal Server Error"
  | 501 => "Not Implemented"
  | 502 => "Bad Gateway"
  | 503 => "Service Unavailable"
  | 504 => "Gateway Timeout"
  | 505 => "HTTP Version Not Supported"
  | 506 => "Variant Also Negotiates"
  | 507 => "Insufficient Storage"
  | 508 => "Loop Detected"
  | 510 => "Not Extended"
  | 511 => "Network Authentication Required"
  | _ => ""

/-- Function `http.NewRequestWithContext` with a non-nil context: an empty
method is `GET`, the method has to be a token, the URL has to parse, and an
empty port is removed from the host. -/
def NewRequestWithContext (L : Lib) (method url body : String) : Except Err Request :=
  let method1 := if method = "" then "GET" else method
  if !method1.data.all isTokenChar then .error (.external "net/http: invalid method")
  else
    match L.urlParse url with
    | .error e => .error e
    | .ok u =>
      let host :=
        if u.Host.data.getLast? = some ':' then String.mk u.Host.data.dropLast else u.Host
      .ok { Method := method1, URL := { u with Host := host }, Header := [], Body := body }

/-! ## The client (`client.go`) -/

/-- Go `type RecordsService service`; the back pointer to the client is left
to the caller. -/
structure RecordsService where
  basePath : String

/-- Go `type Client struct`.  `privateKey` is a pointer and may be nil;
`httpClient` is the transport, which answers a request with a response or an
error. -/
structure Client (L : Lib) where
  baseURL : URL
  userAgent : String
  keyID : String
  privateKey : Option L.PrivateKey
  strictDecoding : Bool
  httpClient : Request → Except Err Response
  Records : Option RecordsService

/-- A `hash.Hash` made by `sha256.New()`: the bytes written to it so far. -/
structure Hash where
  written : String

/-- Function `sha256.New`. -/
def sha256New : Hash := { written := "" }

/-- Method `Write` of a hash. -/
def Hash.Write (h : Hash) (p : String) : Hash := { written := h.written ++ p }

/-- Method `Sum(nil)` of a SHA-256 hash: the digest of what was written. -/
def Hash.Sum (L : Lib) (h : Hash) : List Nat := L.sha256 h.written

/-- Method `Write` of `io.MultiWriter(&buf, h)`: the same bytes go to the
buffer and to the hash. -/
def multiWrite (w : String × Hash) (p : String) : String × Hash :=
  (w.1 ++ p, w.2.Write p)

/-- Call `json.NewEncoder(w).Encode(body)`: the marshalled value and a newline
in one write, or the marshalling error and no write.  `marshal` is the library
encoding of the Go type of `body`. -/
def encoderEncode {β : Type} (marshal : β → Except Err Json) (w : String × Hash) (body : β) :
    Except Err (String × Hash) :=
  match marshal body with
  | .error e => .error e
  | .ok j => .ok (multiWrite w (j.render ++ "\n"))

/-- Body buffer and body hash of `Client.newRequest` (the `var` block and the
`if body != nil` statement). -/
def newRequestBody {β : Type} (marshal : β → Except Err Json) (body : Option β) :
    Except Err (String × Hash) :=
  match body with
  | none => .ok ("", sha256New)
  | some b => encoderEncode marshal ("", sha256New) b

/-- Method `Client.signRequest`: the request with the three signature headers.
`now` is the reading of the clock and `rnd` the state of the entropy source.
Signing with a nil key panics. -/
def Client.signRequest (L : Lib) (c : Client L) (now : L.Time) (rnd : L.Entropy)
    (req : Request) (bodyHash : Hash) : Outcome Err Request :=
  let dateStr := L.formatRFC3339 now
  let buf := dateStr ++ ":"
  let encodedBody := L.base64 (bodyHash.Sum L)
  let buf := buf ++ encodedBody ++ ":"
  let buf := buf ++ req.URL.Path
  let h := sha256New.Write buf
  match c.privateKey with
  | none => .crash
  | some key =>
    match L.sign key rnd (h.Sum L) with
    | .error err => .error err
    | .ok signature =>
      let hd := req.Header.Set "x-apple-cloudkit-request-keyid" c.keyID
      let hd := hd.Set "x-apple-cloudkit-request-iso8601date" dateStr
      let hd := hd.Set "x-apple-cloudkit-request-signaturev1" (L.base64 signature)
      .ok { req with Header := hd }

/-- Method `Client.newRequest` up to the call of `signRequest`: the request
with its body and the three fixed headers, and the body hash. -/
def Client.newRequestUnsigned {β : Type} (L : Lib) (c : Client L)
    (marshal : β → Except Err Json) (method endpoint : String) (body : Option β) :
    Except Err (Request × Hash) :=
  let endpoint := L.pathJoin c.baseURL.Path endpoint
  match L.parseRequestURI endpoint with
  | .error err => .error err
  | .ok rel =>
    let u := L.resolveReference c.baseURL rel
    match newRequestBody marshal body with
    | .error err => .error err
    | .ok (buf, h) =>
      match NewRequestWithContext L method (L.urlString u) buf with
      | .error err => .error err
      | .ok req =>
        let hd := req.Header.Set "content-type" "application/json"
        let hd := hd.Set "accept" "application/json"
        let hd := hd.Set "user-agent" c.userAgent
        .ok ({ req with Header := hd }, h)

/-- Method `Client.newRequest`. -/
def Client.newRequest {β : Type} (L : Lib) (c : Client L) (now : L.Time) (rnd : L.Entropy)
    (marshal : β → Except Err Json) (method endpoint : String) (body : Option β) :
    Outcome Err Request :=
  match c.newRequestUnsigned L marshal method endpoint body with
  | .error err => .error err
  | .ok (req, h) => c.signRequest L now rnd req h

/-- The argument `v` of `Client.do`: nil, an `io.Writer` (with what has been
written to it), or a value to decode the response into. -/
inductive Out (τ : Type) where
  | nil : Out τ
  | writer (written : String) : Out τ
  | value (x : τ) : Out τ

/-- Function `strings.ReplaceAll(s, "\n", " ")`. -/
def replaceNewlines (s : String) : String :=
  String.mk (s.data.map (fun c => if c = '\n' then ' ' else c))

/-- Function `strings.HasPrefix`. -/
def HasPrefix (s pre : String) : Bool := pre.data.isPrefixOf s.data

/-- Call `dec.Decode(&errResp)` for a zero `errResp Error` on the body of an
error response: the decoded value and the text after the JSON value it was
decoded from. -/
def decodeErrorResponse (L : Lib) (body : String) : Except Err (Error × String) :=
  match Json.parse body with
  | .error err => .error err
  | .ok (j, rest) =>
    match Error.UnmarshalJSON L j { Reason := "", RetryAfter := 0, Code := ErrorCode.Unknown } with
    | (_, some err) => .error err
    | (errResp, none) => .ok (errResp, rest)

/-- Content of the tee buffer after `dec.Decode`: what the decoder has read
from the body, which is the text up to the end of the decoded value and `ahead`
more characters, as many as the reads from the stream happened to deliver
(`rest` is the text after the decoded value). -/
def teeBuffer (body rest : String) (ahead : Nat) : String :=
  String.mk (body.data.take (body.data.length - rest.data.length + ahead))

/-- Method `Client.do`: the returned `error` and the state of `v` afterwards.
`decode strict j x` is the library decoding of the JSON value `j` into `x`,
with `DisallowUnknownFields` when `strict`; `ahead` is how far past the decoded
value the decoder of an error response has read the body. -/
def Client.do_ {τ : Type} (L : Lib) (c : Client L)
    (decode : Bool → Json → τ → τ × Option Err) (ahead : Nat) (req : Request) (v : Out τ) :
    Out τ × Option Err :=
  match c.httpClient req with
  | .error err => (v, some err)
  | .ok resp =>
    let statusCode := resp.StatusCode
    if statusCode ≥ 400 then
      if !HasPrefix (resp.Header.Get "content-type") "application/json" then
        (v, some (.api { Reason := StatusText statusCode, RetryAfter := 0,
                         Code := ErrorCode.Unknown }))
      else
        match decodeErrorResponse L resp.Body with
        | .error err => (v, some (.decodingErrorResponse statusCode err))
        | .ok (errResp, rest) =>
          if errResp.Reason = "" ∧ errResp.Code = ErrorCode.Unknown then
            let s := replaceNewlines (teeBuffer resp.Body rest ahead)
            (v, some (.api { errResp with Reason := s }))
          else (v, some (.api errResp))
    else
      match v with
      | .nil => (v, none)
      | .writer w => (.writer (w ++ resp.Body), none)
      | .value x =>
        match Json.parse resp.Body with
        | .error err => (v, some err)
        | .ok (j, _) =>
          match decode c.strictDecoding j x with
          | (x1, err) => (.value x1, err)

/-- Method `Client.call`: the returned `error` and the state of `v`
afterwards, or a panic. -/
def Client.call {β τ : Type} (L : Lib) (c : Client L) (now : L.Time) (rnd : L.Entropy)
    (marshal : β → Except Err Json) (decode : Bool → Json → τ → τ × Option Err)
    (ahead : Nat) (method endpoint : String) (body : Option β) (v : Out τ) :
    Outcome Err (Out τ × Option Err) :=
  match c.newRequest L now rnd marshal method endpoint body with
  | .error err => .ok (v, some err)
  | .crash => .crash
  | .ok req => .ok (c.do_ L decode ahead req v)

/-! ## A small library implementation, for running the model -/

/-- Function `url.Parse` for texts of the shape `scheme://host/path`. -/
def testUrlParse (s : String) : Except Err URL :=
  let scheme := s.data.takeWhile (fun c => c != ':')
  let rest := (s.data.dropWhile (fun c => c != ':')).drop 3
  .ok { Scheme := String.mk scheme, Host := String.mk (rest.takeWhile (fun c => c != '/')),
        Path := String.mk (rest.dropWhile (fun c => c != '/')), RawQuery := "" }

/-- An implementation of `Lib` small enough to evaluate: keys are numbers, the
digest of a text is the list of its character codes, a signature is the key
followed by the digest, base64 is replaced by a decimal rendering, paths are
joined by concatenation and durations use exact arithmetic.  It stands in for
the real library where a theorem is run on a concrete input. -/
def testLib : Lib where
  PrivateKey := Nat
  PublicKey := Nat
  Entropy := Unit
  Time := String
  sha256 := fun s => s.data.map Char.toNat
  base64 := fun bs => String.intercalate "." (bs.map toString)
  publicKey := fun k => k
  sign := fun k _ digest => .ok (k :: digest)
  verify := fun k digest sig => sig == k :: digest
  formatRFC3339 := fun t => t
  pathJoin := fun a b => a ++ b
  parseRequestURI := fun s => .ok { Scheme := "", Host := "", Path := s, RawQuery := "" }
  resolveReference := fun base rel => { base with Path := rel.Path }
  urlString := fun u => u.Scheme ++ "://" ++ u.Host ++ u.Path
  urlParse := testUrlParse
  durationFraction := fun f unit scale => f * unit / scale

/-- A client for `testLib` whose transport answers every request with `resp`. -/
def testClient (resp : Response) : Client testLib where
  baseURL := { Scheme := "https", Host := "api.apple-cloudkit.com",
               Path := "/database/1/iCloud.com.lukasmalkmus.Example-App/development",
               RawQuery := "" }
  userAgent := "icloud-go"
  keyID := "6459b5a4"
  privateKey := some (7 : Nat)
  strictDecoding := false
  httpClient := fun _ => .ok resp
  Records := some { basePath := "/records/modify" }

/-- A request to hand to the transport of `testClient`. -/
def testRequest : Request where
  Method := "GET"
  URL := { Scheme := "https", Host := "api.apple-cloudkit.com", Path := "/", RawQuery := "" }
  Header := []
  Body := ""

/-- Decoding into a value that ignores its input. -/
def decodeUnit (_ : Bool) (_ : Json) (x : Unit) : Unit × Option Err := (x, none)

/-- The request of the package example: one `create` operation on a record of
type `MyRecord` with the two fields `MyField` and `MyOtherField`. -/
def exampleRequest : RecordsRequest where
  Operations :=
    [{ Type_ := OperationType.Create,
       Record :=
         { Name := "", Type_ := "MyRecord",
           Fields := [{ Name := "MyField", Type_ := "", Value := .string "Hello, World!" },
                      { Name := "MyOtherField", Type_ := "", Value := .int 1000 }] } }]

/-- A response that is never read, for clients that only build requests. -/
def noResponse : Response := { StatusCode := 200, Header := [], Body := "" }

/-- The member of a JSON object that `encoding/json` stores last into the
struct field with JSON name `name`: the last member whose key matches. -/
def lastMember (name : String) : List (String × Json) → Option Json
  | [] => none
  | (k, v) :: ms =>
    match lastMember name ms with
    | some x => some x
    | none => if keyMatches k name then some v else none

/-- Map entry of a field in `Fields.MarshalJSON`. -/
def fieldEntry (x : Field) : String × Option Field := (x.Name, some x)

/-- Map entry after the round trip through JSON: the pointer is to a `Field`
without its name. -/
def stripName (kv : String × Option Field) : String × Option Field :=
  (kv.1, kv.2.map (fun f => { f with Name := "" }))

/-- Field that the loop of `Fields.UnmarshalJSON` appends for a map entry with
a non-nil pointer. -/
def restoreName (kv : String × Option Field) : Option Field :=
  kv.2.map (fun f => { f with Name := kv.1 })

/-! ## `net/url` and `path`

The functions of `net/url` and `path` that the package calls, on texts as lists
of characters.  The library works on bytes: a character outside ASCII stands
for the bytes of its UTF-8 encoding, and the bytes that percent-escapes decode
to are read back as characters the way Go reads runes from a string (a byte
that is not part of a UTF-8 sequence reads as `U+FFFD`). -/

/-- UTF-8 encoding of a character. -/
def utf8Bytes (c : Char) : List Nat :=
  let n := c.toNat
  if n < 0x80 then [n]
  else if n < 0x800 then [0xC0 + n / 64, 0x80 + n % 64]
  else if n < 0x10000 then [0xE0 + n / 4096, 0x80 + n / 64 % 64, 0x80 + n % 64]
  else [0xF0 + n / 262144, 0x80 + n / 4096 % 64, 0x80 + n / 64 % 64, 0x80 + n % 64]

/-- Whether `b` is a UTF-8 continuation byte. -/
def isCont (b : Nat) : Bool := 0x80 ≤ b && b ≤ 0xBF

/-- Function `utf8.DecodeRuneInString` on a non-empty byte string that starts
with `b0`: the rune and its width.  An invalid or cut-off sequence gives
`U+FFFD` and width 1. -/
def decodeRune (b0 : Nat) (rest : List Nat) : Char × Nat :=
  if b0 < 0x80 then (Char.ofNat b0, 1)
  else if b0 < 0xC2 ∨ 0xF4 < b0 then (replacementChar, 1)
  else
    let lo := if b0 = 0xE0 then 0xA0 else if b0 = 0xF0 then 0x90 else 0x80
    let hi := if b0 = 0xED then 0x9F else if b0 = 0xF4 then 0x8F else 0xBF
    let sz := if b0 < 0xE0 then 2 else if b0 < 0xF0 then 3 else 4
    if rest.length + 1 < sz then (replacementChar, 1)
    else
      let b1 := rest.getD 0 0
      let b2 := rest.getD 1 0
      let b3 := rest.getD 2 0
      if b1 < lo ∨ hi < b1 then (replacementChar, 1)
      else if sz = 2 then (Char.ofNat ((b0 - 0xC0) * 64 + (b1 - 0x80)), 2)
      else if !isCont b2 then (replacementChar, 1)
      else if sz = 3 then
        (Char.ofNat ((b0 - 0xE0) * 4096 + (b1 - 0x80) * 64 + (b2 - 0x80)), 3)
      else if !isCont b3 then (replacementChar, 1)
      else
        (Char.ofNat ((b0 - 0xF0) * 262144 + (b1 - 0x80) * 4096 + (b2 - 0x80) * 64 + (b3 - 0x80)),
         4)

/-- Runes of a byte string, read one after the other as a `range` loop over
the string reads them; `fuel` bounds the number of runes. -/
def decodeRunesLoop : Nat → List Nat → List Char
  | 0, _ => []
  | _ + 1, [] => []
  | fuel + 1, b0 :: rest =>
    (decodeRune b0 rest).1 :: decodeRunesLoop fuel (rest.drop ((decodeRune b0 rest).2 - 1))

/-- Runes of a byte string. -/
def decodeRunes (bs : List Nat) : List Char := decodeRunesLoop bs.length bs

/-- Library type `encoding` of `net/url`: the part of a URL a text belongs to. -/
inductive encoding where
  | encodePath : encoding
  | encodePathSegment : encoding
  | encodeHost : encoding
  | encodeZone : encoding
  | encodeUserPassword : encoding
  | encodeQueryComponent : encoding
  | encodeFragment : encoding
deriving DecidableEq, Repr

/-- Whether a byte is an ASCII letter or digit:
`'a' <= c && c <= 'z' || 'A' <= c && c <= 'Z' || '0' <= c && c <= '9'`. -/
def isAlnum (c : Char) : Bool :=
  (97 ≤ c.toNat && c.toNat ≤ 122) || (65 ≤ c.toNat && c.toNat ≤ 90) ||
    (48 ≤ c.toNat && c.toNat ≤ 57)

/-- Library helper `ishex`. -/
def ishex (c : Char) : Bool := (hexVal c).isSome

/-- Library helper `unhex`. -/
def unhex (c : Char) : Nat := (hexVal c).getD 0

/-- Library helper `shouldEscape`: whether a byte has to be escaped in the
part `mode` of a URL.  Every byte outside ASCII has to be. -/
def shouldEscape (c : Char) (mode : encoding) : Bool :=
  if isAlnum c then false
  else if (mode = .encodeHost ∨ mode = .encodeZone) ∧
      ("!$&()*+,;=:[]<>\"".data.contains c ∨ c.toNat = 39) then false
  else if "-_.~".data.contains c then false
  else if "$&+,/:;=?@".data.contains c then
    match mode with
    | .encodePath => c = '?'
    | .encodePathSegment => c = '/' || c = ';' || c = ',' || c = '?'
    | .encodeUserPassword => c = '@' || c = '/' || c = '?' || c = ':'
    | .encodeQueryComponent => true
    | .encodeFragment => false
    | _ => true
  else if mode = .encodeFragment ∧ "!()*".data.contains c then false
  else true

/-- First three bytes of a text, as the text of an `EscapeError`. -/
def firstThreeBytes (s : List Char) : String :=
  String.mk (decodeRunes (((s.take 3).flatMap utf8Bytes).take 3))

/-- First loop of the library helper `unescape`: the escapes are well formed
and, in a host, only allowed bytes occur. -/
def unescapeCheck (mode : encoding) : List Char → Except URLErr Unit
  | [] => .ok ()
  | c :: rest =>
    if c = '%' then
      match rest with
      | a :: b :: rest2 =>
        if !(ishex a && ishex b) then .error (.escape (firstThreeBytes (c :: rest)))
        else if mode = .encodeHost ∧ unhex a < 8 ∧ [a, b] ≠ ['2', '5'] then
          .error (.escape (String.mk [c, a, b]))
        else if mode = .encodeZone ∧ [a, b] ≠ ['2', '5'] ∧ unhex a * 16 + unhex b ≠ 32 ∧
            shouldEscape (Char.ofNat (unhex a * 16 + unhex b)) .encodeHost then
          .error (.escape (String.mk [c, a, b]))
        else unescapeCheck mode rest2
      | _ => .error (.escape (firstThreeBytes (c :: rest)))
    else if (mode = .encodeHost ∨ mode = .encodeZone) ∧ c.toNat < 0x80 ∧
        shouldEscape c .encodeHost then
      .error (.invalidHost (String.mk [c]))
    else unescapeCheck mode rest

/-- Second loop of the library helper `unescape`: the text with its escapes
replaced.  `pending` holds the bytes of the escapes just read.  A `%` without
two characters after it does not get past the first loop. -/
def unescapeLoop (mode : encoding) : List Char → List Nat → List Char
  | [], pending => decodeRunes pending
  | c :: rest, pending =>
    if c = '%' then
      match rest with
      | a :: b :: rest2 => unescapeLoop mode rest2 (pending ++ [unhex a * 16 + unhex b])
      | _ => decodeRunes pending ++ c :: rest
    else if c = '+' ∧ mode = .encodeQueryComponent then
      decodeRunes pending ++ ' ' :: unescapeLoop mode rest []
    else decodeRunes pending ++ c :: unescapeLoop mode rest []

/-- Library helper `unescape`. -/
def unescape (s : List Char) (mode : encoding) : Except URLErr (List Char) :=
  match unescapeCheck mode s with
  | .error e => .error e
  | .ok _ => .ok (unescapeLoop mode s [])

/-- Whether `unescape` succeeds on `s` with the result `t`. -/
def unescapesTo (s : List Char) (mode : encoding) (t : List Char) : Bool :=
  match unescape s mode with
  | .ok p => p = t
  | .error _ => false

/-- Upper-case hexadecimal digit. -/
def upperhex (n : Nat) : Char := "0123456789ABCDEF".data.getD n '0'

/-- Escape of one byte. -/
def escapeByte (b : Nat) : List Char := ['%', upperhex (b / 16), upperhex (b % 16)]

/-- Library helper `escape`. -/
def escape (s : List Char) (mode : encoding) : List Char :=
  s.flatMap (fun c =>
    if shouldEscape c mode then
      if c = ' ' ∧ mode = .encodeQueryComponent then ['+'] else (utf8Bytes c).flatMap escapeByte
    else [c])

/-- Library helper `validEncoded`. -/
def validEncoded (s : List Char) (mode : encoding) : Bool :=
  s.all (fun c =>
    "!$&()*+,;=:@[]%".data.contains c || c.toNat = 39 || !shouldEscape c mode)

/-- Library helper `stringContainsCTLByte`. -/
def stringContainsCTLByte (s : List Char) : Bool :=
  s.any (fun c => c.toNat < 32 || c.toNat = 0x7f)

/-- Loop of the library helper `getScheme`; `i` counts the characters read. -/
def getSchemeLoop (rawURL : List Char) : Nat → List Char → Except URLErr (List Char × List Char)
  | _, [] => .ok ([], rawURL)
  | i, c :: rest =>
    if (97 ≤ c.toNat ∧ c.toNat ≤ 122) ∨ (65 ≤ c.toNat ∧ c.toNat ≤ 90) then
      getSchemeLoop rawURL (i + 1) rest
    else if (48 ≤ c.toNat ∧ c.toNat ≤ 57) ∨ c = '+' ∨ c = '-' ∨ c = '.' then
      if i = 0 then .ok ([], rawURL) else getSchemeLoop rawURL (i + 1) rest
    else if c = ':' then
      if i = 0 then .error .missingScheme else .ok (rawURL.take i, rest)
    else .ok ([], rawURL)

/-- Library helper `getScheme`: the scheme and the text after its colon. -/
def getScheme (rawURL : List Char) : Except URLErr (List Char × List Char) :=
  getSchemeLoop rawURL 0 rawURL

/-- Function `strings.Cut` for a separator of one byte: the text before the
first separator and the text after it; without a separator the whole text and
the empty text. -/
def cut (s : List Char) (sep : Char) : List Char × List Char :=
  (s.takeWhile (fun c => c != sep), (s.dropWhile (fun c => c != sep)).drop 1)

/-- Text before and after the last `sep` of `s` (`strings.LastIndex`), if
there is one. -/
def cutLast (s : List Char) (sep : Char) : Option (List Char × List Char) :=
  if s.contains sep then
    some (((s.reverse.dropWhile (fun c => c != sep)).drop 1).reverse,
          (s.reverse.takeWhile (fun c => c != sep)).reverse)
  else none

/-- Function `strings.Index`. -/
def indexOf (pat : List Char) : List Char → Option Nat
  | [] => if pat.isEmpty then some 0 else none
  | c :: cs => if pat.isPrefixOf (c :: cs) then some 0 else (indexOf pat cs).map (fun i => i + 1)

/-- Library helper `validOptionalPort`. -/
def validOptionalPort (port : List Char) : Bool :=
  match port with
  | [] => true
  | c :: rest => c = ':' && rest.all (fun b => 48 ≤ b.toNat && b.toNat ≤ 57)

/-- Library helper `validUserinfo`. -/
def validUserinfo (s : List Char) : Bool :=
  s.all (fun r => isAlnum r || "-._:~!$&()*+,;=%@".data.contains r || r.toNat = 39)

/-- Library helper `parseHost`. -/
def parseHost (host : List Char) : Except URLErr (List Char) :=
  if host.head? = some '[' then
    match cutLast host ']' with
    | none => .error .missingBracket
    | some (inner, colonPort) =>
      if !validOptionalPort colonPort then .error (.invalidPort (String.mk colonPort))
      else
        match indexOf ['%', '2', '5'] inner with
        | some zone =>
          match unescape (host.take zone) .encodeHost with
          | .error e => .error e
          | .ok host1 =>
            match unescape ((host.take inner.length).drop zone) .encodeZone with
            | .error e => .error e
            | .ok host2 =>
              match unescape (host.drop inner.length) .encodeHost with
              | .error e => .error e
              | .ok host3 => .ok (host1 ++ host2 ++ host3)
        | none => unescape host .encodeHost
  else
    match cutLast host ':' with
    | some (_, port) =>
      if !validOptionalPort (':' :: port) then .error (.invalidPort (String.mk (':' :: port)))
      else unescape host .encodeHost
    | none => unescape host .encodeHost

/-- Library helper `parseAuthority`. -/
def parseAuthority (authority : List Char) : Except URLErr (Option Userinfo × List Char) :=
  match cutLast authority '@' with
  | none =>
    match parseHost authority with
    | .error e => .error e
    | .ok host => .ok (none, host)
  | some (userinfo, hostText) =>
    match parseHost hostText with
    | .error e => .error e
    | .ok host =>
      if !validUserinfo userinfo then .error .invalidUserinfo
      else if !userinfo.contains ':' then
        match unescape userinfo .encodeUserPassword with
        | .error e => .error e
        | .ok u => .ok (some { username := String.mk u, password := "", passwordSet := false }, host)
      else
        match unescape (cut userinfo ':').1 .encodeUserPassword with
        | .error e => .error e
        | .ok username =>
          match unescape (cut userinfo ':').2 .encodeUserPassword with
          | .error e => .error e
          | .ok password =>
            .ok (some { username := String.mk username, password := String.mk password,
                        passwordSet := true }, host)

/-- Method `(*URL).setPath`. -/
def URL.setPath (u : URL) (p : List Char) : Except URLErr URL :=
  match unescape p .encodePath with
  | .error e => .error e
  | .ok path =>
    .ok { u with Path := String.mk path,
                 RawPath := if p = escape path .encodePath then "" else String.mk p }

/-- Method `(*URL).EscapedPath`. -/
def URL.EscapedPath (u : URL) : List Char :=
  if u.RawPath ≠ "" ∧ validEncoded u.RawPath.data .encodePath ∧
      unescapesTo u.RawPath.data .encodePath u.Path.data then u.RawPath.data
  else if u.Path = "*" then ['*']
  else escape u.Path.data .encodePath

/-- Method `(*URL).setFragment`. -/
def URL.setFragment (u : URL) (f : List Char) : Except URLErr URL :=
  match unescape f .encodeFragment with
  | .error e => .error e
  | .ok frag =>
    .ok { u with Fragment := String.mk frag,
                 RawFragment := if f = escape frag .encodeFragment then "" else String.mk f }

/-- Method `(*URL).EscapedFragment`. -/
def URL.EscapedFragment (u : URL) : List Char :=
  if u.RawFragment ≠ "" ∧ validEncoded u.RawFragment.data .encodeFragment ∧
      unescapesTo u.RawFragment.data .encodeFragment u.Fragment.data then u.RawFragment.data
  else escape u.Fragment.data .encodeFragment

/-- The zero `url.URL`. -/
def URL.zero : URL := { Scheme := "", Host := "", Path := "", RawQuery := "" }

/-- Library helper `parse` of `net/url`; `viaRequest` says that the text is
the URI of a request, which has no fragment and is absolute or starts with a
slash. -/
def parse (rawURL : List Char) (viaRequest : Bool) : Except URLErr URL :=
  if stringContainsCTLByte rawURL then .error .controlCharacter
  else if rawURL = [] ∧ viaRequest then .error .emptyURL
  else if rawURL = ['*'] then .ok { URL.zero with Path := "*" }
  else
    match getScheme rawURL with
    | .error e => .error e
    | .ok (scheme, rest0) =>
      let scheme := scheme.map Char.toLower
      let forceQuery : Bool := rest0.getLast? = some '?' && rest0.count '?' = 1
      let rest := if forceQuery then rest0.dropLast else (cut rest0 '?').1
      let rawQuery := if forceQuery then [] else (cut rest0 '?').2
      let url : URL := { URL.zero with Scheme := String.mk scheme, ForceQuery := forceQuery,
                                       RawQuery := String.mk rawQuery }
      if rest.head? ≠ some '/' ∧ scheme ≠ [] then .ok { url with Opaque := String.mk rest }
      else if rest.head? ≠ some '/' ∧ viaRequest then .error .invalidRequestURI
      else if rest.head? ≠ some '/' ∧ (cut rest '/').1.contains ':' then
        .error .colonInFirstSegment
      else if (scheme ≠ [] ∨ (viaRequest = false ∧ ['/', '/', '/'].isPrefixOf rest = false)) ∧
          ['/', '/'].isPrefixOf rest then
        let authority := (rest.drop 2).takeWhile (fun c => c != '/')
        let rest1 := (rest.drop 2).dropWhile (fun c => c != '/')
        match parseAuthority authority with
        | .error e => .error e
        | .ok (user, host) => { url with User := user, Host := String.mk host }.setPath rest1
      else if scheme ≠ [] ∧ rest.head? = some '/' then { url with OmitHost := true }.setPath rest
      else url.setPath rest

/-- Function `url.ParseRequestURI`. -/
def ParseRequestURI (rawURL : String) : Except Err URL :=
  match parse rawURL.data true with
  | .error e => .error (.url "parse" rawURL e)
  | .ok u => .ok u

/-- Function `url.Parse`. -/
def Parse (rawURL : String) : Except Err URL :=
  let u := (cut rawURL.data '#').1
  let frag := (cut rawURL.data '#').2
  match parse u false with
  | .error e => .error (.url "parse" (String.mk u) e)
  | .ok url =>
    if frag = [] then .ok url
    else
      match url.setFragment frag with
      | .error e => .error (.url "parse" rawURL e)
      | .ok url1 => .ok url1

/-- Method `(*Userinfo).String` for a non-nil receiver. -/
def Userinfo.String (u : Userinfo) : List Char :=
  escape u.username.data .encodeUserPassword ++
    (if u.passwordSet then ':' :: escape u.password.data .encodeUserPassword else [])

/-- Method `(*URL).String`. -/
def URL.String (u : URL) : String :=
  let buf : List Char := if u.Scheme ≠ "" then u.Scheme.data ++ [':'] else []
  let buf :=
    if u.Opaque ≠ "" then buf ++ u.Opaque.data
    else
      let buf :=
        if u.Scheme ≠ "" ∨ u.Host ≠ "" ∨ u.User.isSome then
          if u.OmitHost ∧ u.Host = "" ∧ u.User.isNone then buf
          else
            let buf := if u.Host ≠ "" ∨ u.Path ≠ "" ∨ u.User.isSome then buf ++ ['/', '/'] else buf
            let buf :=
              match u.User with
              | some ui => buf ++ ui.String ++ ['@']
              | none => buf
            if u.Host ≠ "" then buf ++ escape u.Host.data .encodeHost else buf
        else buf
      let path := u.EscapedPath
      let buf := if path ≠ [] ∧ path.head? ≠ some '/' ∧ u.Host ≠ "" then buf ++ ['/'] else buf
      let buf := if buf = [] ∧ (cut path '/').1.contains ':' then buf ++ ['.', '/'] else buf
      buf ++ path
  let buf := if u.ForceQuery ∨ u.RawQuery ≠ "" then buf ++ '?' :: u.RawQuery.data else buf
  let buf := if u.Fragment ≠ "" then buf ++ '#' :: u.EscapedFragment else buf
  String.mk buf

/-- Function `strings.Split(s, "/")`. -/
def splitSlash : List Char → List (List Char)
  | [] => [[]]
  | c :: cs =>
    if c = '/' then [] :: splitSlash cs
    else
      match splitSlash cs with
      | h :: t => (c :: h) :: t
      | [] => [[c]]

/-- Library helper `resolvePath`: the path `ref` seen from the path `base`,
without `.` and `..` elements. -/
def resolvePath (base ref : List Char) : List Char :=
  let full :=
    if ref = [] then base
    else if ref.head? ≠ some '/' then (base.reverse.dropWhile (fun c => c != '/')).reverse ++ ref
    else ref
  if full = [] then []
  else
    let src := splitSlash full
    let dst := src.foldl (fun dst elem =>
      if elem = ['.'] then dst
      else if elem = ['.', '.'] then dst.dropLast
      else dst ++ [elem]) []
    let dst :=
      if src.getLast? = some ['.'] ∨ src.getLast? = some ['.', '.'] then dst ++ [[]] else dst
    let joined := List.intercalate ['/'] dst
    '/' :: (if joined.head? = some '/' then joined.drop 1 else joined)

/-- Method `(*URL).ResolveReference`; `u` is the receiver. -/
def URL.ResolveReference (u ref : URL) : URL :=
  let url : URL := if ref.Scheme = "" then { ref with Scheme := u.Scheme } else ref
  if ref.Scheme ≠ "" ∨ ref.Host ≠ "" ∨ ref.User.isSome then
    match url.setPath (resolvePath ref.EscapedPath []) with
    | .ok url1 => url1
    | .error _ => url
  else if ref.Opaque ≠ "" then { url with User := none, Host := "", Path := "" }
  else
    let url :=
      if ref.Path = "" ∧ !ref.ForceQuery ∧ ref.RawQuery = "" then
        if ref.Fragment = "" then
          { url with RawQuery := u.RawQuery, Fragment := u.Fragment, RawFragment := u.RawFragment }
        else { url with RawQuery := u.RawQuery }
      else url
    let url := { url with Host := u.Host, User := u.User }
    match url.setPath (resolvePath u.EscapedPath ref.EscapedPath) with
    | .ok url1 => url1
    | .error _ => url

/-- Backward loop of the `..` case of `path.Clean`: from write index `w + 1`
down to the index of the last slash or to `dotdot`. -/
def backtrack (buf : List Char) (dotdot : Nat) : Nat → Nat
  | 0 => 0
  | w + 1 => if w + 1 > dotdot ∧ buf.getD (w + 1) '/' ≠ '/' then backtrack buf dotdot w else w + 1

/-- Loop of `path.Clean`: `rest` is the path from the read index on, `out` the
text written so far, `dotdot` the index where `..` must stop. -/
def cleanLoop (rooted : Bool) : Nat → List Char → List Char → Nat → List Char
  | 0, _, out, _ => out
  | _ + 1, [], out, _ => out
  | fuel + 1, c :: r1, out, dotdot =>
    if c = '/' then cleanLoop rooted fuel r1 out dotdot
    else if c = '.' ∧ (r1 = [] ∨ r1.head? = some '/') then cleanLoop rooted fuel r1 out dotdot
    else if c = '.' ∧ r1.head? = some '.' ∧ (r1.drop 1 = [] ∨ (r1.drop 1).head? = some '/') then
      if out.length > dotdot then
        cleanLoop rooted fuel (r1.drop 1) (out.take (backtrack out dotdot (out.length - 1))) dotdot
      else if !rooted then
        let out1 := (if out.length > 0 then out ++ ['/'] else out) ++ ['.', '.']
        cleanLoop rooted fuel (r1.drop 1) out1 out1.length
      else cleanLoop rooted fuel (r1.drop 1) out dotdot
    else
      let out1 :=
        if (rooted ∧ out.length ≠ 1) ∨ (!rooted ∧ out.length ≠ 0) then out ++ ['/'] else out
      cleanLoop rooted fuel (r1.dropWhile (fun x => x != '/'))
        (out1 ++ c :: r1.takeWhile (fun x => x != '/')) dotdot

/-- Function `path.Clean`. -/
def Clean (path : List Char) : List Char :=
  if path = [] then ['.']
  else
    let rooted : Bool := path.head? = some '/'
    let out :=
      if rooted then cleanLoop rooted path.length (path.drop 1) ['/'] 1
      else cleanLoop rooted path.length path [] 0
    if out = [] then ['.'] else out

/-- Function `path.Join`. -/
def Join (elem : List String) : String :=
  if elem.all (fun e => e = "") then ""
  else
    String.mk (Clean (elem.foldl (fun buf e =>
      if buf ≠ [] ∨ e ≠ "" then (if buf ≠ [] then buf ++ ['/'] else buf) ++ e.data else buf) []))

/-! ## Environments and databases (`environment.go`, `database.go`) -/

/-- Go `type Environment uint8`; `val` is the numeric value. -/
structure Environment where
  val : Nat
deriving DecidableEq, Repr

namespace Environment

def Development : Environment := ⟨1⟩
def Production : Environment := ⟨2⟩

/-- Modelled from the spec: the generated file `environment_string.go`
(stringer with `-linecomment`) is not among the sources; these are the wire
names of section 2, which are also the line comments of the constant block in
`environment.go`. -/
def names : List String := ["development", "production"]

end Environment

/-- Modelled from the spec: method `Environment.String` of the missing
`environment_string.go`: the wire name of a constant, and the stringer fallback
`Environment(n)` for any other value.  The constants start at 1. -/
def Environment.String (e : Environment) : String :=
  let i := (e.val + 255) % 256
  if i < Environment.names.length then Environment.names.getD i ""
  else "Environment(" ++ toString ((i + 1) % 256) ++ ")"

/-- Go `type Database uint8`; `val` is the numeric value. -/
structure Database where
  val : Nat
deriving DecidableEq, Repr

namespace Database

def Public : Database := ⟨1⟩
def Private : Database := ⟨2⟩
def Shared : Database := ⟨3⟩

/-- Modelled from the spec: the generated file `database_string.go` (stringer
with `-linecomment`) is not among the sources; these are the wire names of
section 2, which are also the line comments of the constant block in
`database.go`. -/
def names : List String := ["public", "private", "shared"]

end Database

/-- Modelled from the spec: method `Database.String` of the missing
`database_string.go`: the wire name of a constant, and the stringer fallback
`Database(n)` for any other value.  The constants start at 1. -/
def Database.String (d : Database) : String :=
  let i := (d.val + 255) % 256
  if i < Database.names.length then Database.names.getD i ""
  else "Database(" ++ toString ((i + 1) % 256) ++ ")"

/-! ## Client construction (`client.go`, `option.go`, `icloud.go`) -/

/-- Constant `baseURL`. -/
def baseURL : String := "https://api.apple-cloudkit.com"

/-- Constant `apiVersion`. -/
def apiVersion : Nat := 1

/-- Function `IsICloudContainer`. -/
def IsICloudContainer (container : String) : Bool := HasPrefix container "iCloud."

/-- Go `type Option func(c *Client) error`: the client goes in and comes out
with the returned `error`. -/
def Option_ (L : Lib) : Type := Client L → Client L × Option Err

/-- Function `SetHTTPClient`; the argument is a pointer and may be nil. -/
def SetHTTPClient (L : Lib) (client : Option (Request → Except Err Response)) : Option_ L :=
  fun c =>
    match client with
    | none => (c, none)
    | some t => ({ c with httpClient := t }, none)

/-- Function `SetUserAgent`. -/
def SetUserAgent (L : Lib) (userAgent : String) : Option_ L :=
  fun c => ({ c with userAgent := userAgent }, none)

/-- Method `(*Client).Options`. -/
def Client.Options {L : Lib} (c : Client L) : List (Option_ L) → Client L × Option Err
  | [] => (c, none)
  | option :: rest =>
    match option c with
    | (c1, some err) => (c1, some err)
    | (c1, none) => Client.Options c1 rest

/-- Function `NewClient`.  `defaultHTTPClient` is the transport made by
`DefaultHTTPClient()`; the private key is a pointer and may be nil. -/
def NewClient (L : Lib) (defaultHTTPClient : Request → Except Err Response)
    (container keyID : String) (privateKey : Option L.PrivateKey) (environment : Environment)
    (options : List (Option_ L)) : Except Err (Client L) :=
  let urlStr := baseURL ++ "/database/" ++ toString apiVersion ++ "/" ++ container ++ "/" ++
    environment.String
  match L.parseRequestURI urlStr with
  | .error err => .error err
  | .ok u =>
    let client : Client L :=
      { baseURL := u, userAgent := "icloud-go", keyID := keyID, privateKey := privateKey,
        strictDecoding := false, httpClient := defaultHTTPClient, Records := none }
    let client := { client with Records := some { basePath := "/records/modify" } }
    match client.Options options with
    | (_, some err) => .error err
    | (client1, none) => .ok client1

/-! ## Records service (`records.go`) -/

/-- Go `type RecordsResponse struct`. -/
structure RecordsResponse where
  Records : List Record

/-- Method `(*RecordsService).Modify`: the returned response, the returned
`error`, or a panic.  `c` is the client the service points back to and `decode`
the library decoding of a response body into a `RecordsResponse`. -/
def RecordsService.Modify (L : Lib) (s : RecordsService) (c : Client L) (now : L.Time)
    (rnd : L.Entropy) (decode : Bool → Json → RecordsResponse → RecordsResponse × Option Err)
    (ahead : Nat) (database : Database) (req : RecordsRequest) : Outcome Err RecordsResponse :=
  let path := "/" ++ database.String ++ s.basePath
  let res : RecordsResponse := { Records := [] }
  match c.call L now rnd RecordsRequest.toJson decode ahead "POST" path (some req) (.value res) with
  | .crash => .crash
  | .error err => .error err
  | .ok (_, some err) => .error err
  | .ok (.value res1, none) => .ok res1
  | .ok (_, none) => .ok res

/-! ## The library functions of the model, for running it -/

/-- That the URL and path functions of a library are those of the model of
`net/url` and `path`. -/
def Lib.NetURL (L : Lib) : Prop :=
  L.pathJoin = (fun a b => Join [a, b]) ∧ L.parseRequestURI = ParseRequestURI ∧
  L.resolveReference = URL.ResolveReference ∧ L.urlString = URL.String ∧ L.urlParse = Parse

/-- The library `testLib` with the model of `net/url` and `path` in the place
of its URL and path functions. -/
def urlLib : Lib :=
  { testLib with
    pathJoin := fun a b => Join [a, b]
    parseRequestURI := ParseRequestURI
    resolveReference := URL.ResolveReference
    urlString := URL.String
    urlParse := Parse }

/-- A transport that answers every request with `resp`. -/
def answer (resp : Response) : Request → Except Err Response := fun _ => .ok resp

/-- Decoding of a response body that keeps the value it is given. -/
def decodeKeep (_ : Bool) (_ : Json) (res : RecordsResponse) : RecordsResponse × Option Err :=
  (res, none)

/-- Whether every byte of a text is one that `net/url` writes into a path as
it is: an ASCII letter or digit or one of `- _ . ~ $ & + , / : ; = @`. -/
def PathText (s : List Char) : Bool := s.all (fun c => !shouldEscape c .encodePath)

/-- Whether a text has no control byte, no question mark and no percent sign:
`net/url` reads such a text as a path without cutting or decoding it. -/
def Plain (s : List Char) : Bool :=
  s.all (fun c => !(c.toNat < 32 || c.toNat = 0x7f) && c != '?' && c != '%')

/-- Whether a text is an element of a path that `path.Clean` and `resolvePath`
keep: not empty, without a slash, and not `.` or `..`. -/
def Segment (s : List Char) : Bool :=
  !s.contains '/' && s != [] && s != ['.'] && s != ['.', '.']

/-- Whether a container identifier reaches the path of a request as it is: it
has no control byte, question mark or percent sign, and its parts between
slashes are not empty and not `.` or `..`. -/
def PathContainer (c : String) : Bool := Plain c.data && (splitSlash c.data).all Segment

/-- Whether every percent sign of a text is followed by two hexadecimal
digits, so that `unescape` accepts the text as a path. -/
def wellEscaped (s : List Char) : Bool :=
  match unescapeCheck .encodePath s with
  | .ok _ => true
  | .error _ => false

/-- Whether the base URL renders a container identifier as it is: it has no
control byte, and before its first question mark it has only bytes that
`validEncoded` accepts in a path, every percent sign followed by two
hexadecimal digits. -/
def VerbatimContainer (c : String) : Bool :=
  !stringContainsCTLByte c.data && validEncoded (cut c.data '?').1 .encodePath &&
    wellEscaped (cut c.data '?').1

/-- The text that `EscapedPath` gives for a URL whose path was set from the
text `p` without escapes: `p` itself when `validEncoded` accepts it, its escape
otherwise. -/
def wirePath (p : List Char) : List Char :=
  if validEncoded p .encodePath then p else escape p .encodePath

/-- The `RawPath` that `setPath` stores with a path that it was given as the
text `p` without escapes. -/
def rawOf (p : List Char) : String := if p = escape p .encodePath then "" else String.mk p

/-- The URL with scheme `https`, the host of `baseURL` and the path `path`. -/
def apiURL (path : String) : URL :=
  { Scheme := "https", Host := "api.apple-cloudkit.com", Path := path, RawQuery := "" }

/-- The path with the elements `elems`, each after a slash. -/
def joinElems (elems : List (List Char)) : List Char := elems.flatMap (fun e => '/' :: e)

/-- Library decoding into a value of type `interface{}`: the JSON value is
stored. -/
def decodeAny (_ : Bool) (j : Json) (_ : Json) : Json × Option Err := (j, none)

/-! ## Theorems -/


/-! ### Enum wire adapters -/

/-- C5: each of the seven `OperationType` values marshals to the JSON string of
its canonical wire name (`create`, `update`, `forceUpdate`, `replace`,
`forceReplace`, `delete`, `forceDelete`, sliced from the generated name and
index tables), and unmarshalling that output gives the value back, whatever the
receiver held. -/
theorem operationType_json_roundtrip :
    OperationType.all.map OperationType.String =
      ["create", "update", "forceUpdate", "replace", "forceReplace", "delete",
       "forceDelete"] ∧
    (∀ ot ∈ OperationType.all, OperationType.MarshalJSON ot = .ok (.str ot.String)) ∧
    (∀ ot ∈ OperationType.all, ∀ j, OperationType.MarshalJSON ot = .ok j →
      ∀ prev : OperationType, OperationType.UnmarshalJSON j prev = (ot, none)) := by
  refine ⟨rfl, fun ot _ => rfl, fun ot h j hj prev => ?_⟩
  simp only [OperationType.MarshalJSON, Except.ok.injEq] at hj
  subst hj
  simp only [OperationType.all, List.mem_cons, List.mem_singleton, List.not_mem_nil,
    or_false] at h
  rcases h with h | h | h | h | h | h | h <;> subst h <;> rfl

/-- C6, as the code has it: for each of the 14 `ErrorCode` values other than
`Unknown`, `ErrorCode.UnmarshalJSON` on the canonical wire string succeeds and
yields that value, whatever the receiver held; on the wire string `UNKNOWN` of
the fifteenth value it returns the error `unknown error code "UNKNOWN"` and
leaves the receiver as it was. -/
theorem errorCode_unmarshal_known :
    (∀ ec ∈ ErrorCode.all, ec ≠ ErrorCode.Unknown → ∀ prev : ErrorCode,
      ErrorCode.UnmarshalJSON (.str ec.String) prev = (ec, none)) ∧
    ErrorCode.all.map ErrorCode.String = ErrorCode.names ∧
    ErrorCode.all.length = 15 ∧
    ∀ prev : ErrorCode,
      ErrorCode.UnmarshalJSON (.str ErrorCode.Unknown.String) prev =
        (prev, some (.unknownErrorCode "UNKNOWN")) := by
  refine ⟨fun ec h hne prev => ?_, rfl, rfl, fun prev => rfl⟩
  simp only [ErrorCode.all, List.mem_cons, List.mem_singleton, List.not_mem_nil,
    or_false] at h
  rcases h with h | h | h | h | h | h | h | h | h | h | h | h | h | h | h <;> subst h
  · exact absurd rfl hne
  all_goals rfl

/-- C6 fails for `UNKNOWN`: decoding the canonical wire string of
`ErrorCode.Unknown` does not succeed; it returns an error, and a receiver that
held `BadRequest` still holds `BadRequest`, not `Unknown`. -/
theorem errorCode_unmarshal_unknown_fails :
    ErrorCode.Unknown.String = "UNKNOWN" ∧
    ErrorCode.UnmarshalJSON (.str ErrorCode.Unknown.String) ErrorCode.BadRequest =
      (ErrorCode.BadRequest, some (.unknownErrorCode "UNKNOWN")) ∧
    ErrorCode.UnmarshalJSON (.str ErrorCode.Unknown.String) ErrorCode.BadRequest ≠
      (ErrorCode.Unknown, none) := by
  refine ⟨by decide, by rfl, by decide⟩

/-- C7: for a string `s` that is the wire string of no constant of the enum,
`OperationType.UnmarshalJSON` and `ErrorCode.UnmarshalJSON` on the JSON string
`s` return the error `unknown operation type` / `unknown error code` carrying
`s`, and the receiver keeps its previous value. -/
theorem enum_unmarshal_rejects_unknown (s : String) :
    ((∀ ot ∈ OperationType.all, s ≠ ot.String) →
      ∀ prev : OperationType,
        OperationType.UnmarshalJSON (.str s) prev = (prev, some (.unknownOperationType s))) ∧
    ((∀ ec ∈ ErrorCode.all, s ≠ ec.String) →
      ∀ prev : ErrorCode,
        ErrorCode.UnmarshalJSON (.str s) prev = (prev, some (.unknownErrorCode s))) := by
  constructor
  · intro h prev
    simp only [OperationType.all, List.forall_mem_cons, List.not_mem_nil] at h
    obtain ⟨h1, h2, h3, h4, h5, h6, h7, -⟩ := h
    simp [OperationType.UnmarshalJSON, unmarshalString, h1, h2, h3, h4, h5, h6, h7]
  · intro h prev
    simp only [ErrorCode.all, List.forall_mem_cons, List.not_mem_nil] at h
    obtain ⟨-, h1, h2, h3, h4, h5, h6, h7, h8, h9, h10, h11, h12, h13, h14, -⟩ := h
    simp [ErrorCode.UnmarshalJSON, unmarshalString, h1, h2, h3, h4, h5, h6, h7, h8, h9, h10,
      h11, h12, h13, h14]

/-- Witness for C7 at the string `purge`. -/
theorem enum_unmarshal_rejects_unknown_witness :
    OperationType.UnmarshalJSON (.str "purge") OperationType.Update =
        (OperationType.Update, some (.unknownOperationType "purge")) ∧
    ErrorCode.UnmarshalJSON (.str "purge") ErrorCode.Conflict =
        (ErrorCode.Conflict, some (.unknownErrorCode "purge")) :=
  ⟨(enum_unmarshal_rejects_unknown "purge").1 (by decide) OperationType.Update,
   (enum_unmarshal_rejects_unknown "purge").2 (by decide) ErrorCode.Conflict⟩

/-! ### Error wire adapter -/

/-- Two different field names are never selected by the same key. -/
theorem keyMatches_exclusive (k a b : String)
    (hab : (a.data.map foldRune == b.data.map foldRune) = false)
    (ha : keyMatches k a = true) : keyMatches k b = false := by
  unfold keyMatches at *
  rw [beq_iff_eq] at ha
  rw [ha]
  exact hab

/-- The two ways an `if` can equal a value. -/
theorem ite_eq_cases {α : Type} {p : Prop} [Decidable p] {a b r : α}
    (h : (if p then a else b) = r) : (p ∧ a = r) ∨ (¬p ∧ b = r) := by
  by_cases hp : p
  · exact Or.inl ⟨hp, by rw [if_pos hp] at h; exact h⟩
  · exact Or.inr ⟨hp, by rw [if_neg hp] at h; exact h⟩

/-- The `switch` of `ErrorCode.UnmarshalJSON` with the wire strings written
out. -/
theorem errorCode_unmarshal_str (s : String) (c : ErrorCode) :
    ErrorCode.UnmarshalJSON (.str s) c =
      if s = "ACCESS_DENIED" then (ErrorCode.AccessDenied, none)
      else if s = "ATOMIC_ERROR" then (ErrorCode.AtomicError, none)
      else if s = "AUTHENTICATION_FAILED" then (ErrorCode.AuthenticationFailed, none)
      else if s = "AUTHENTICATION_REQUIRED" then (ErrorCode.AuthenticationRequired, none)
      else if s = "BAD_REQUEST" then (ErrorCode.BadRequest, none)
      else if s = "CONFLICT" then (ErrorCode.Conflict, none)
      else if s = "EXISTS" then (ErrorCode.Exists, none)
      else if s = "INTERNAL_ERROR" then (ErrorCode.InternalError, none)
      else if s = "NOT_FOUND" then (ErrorCode.NotFound, none)
      else if s = "QUOTA_EXCEEDED" then (ErrorCode.QuotaExceeded, none)
      else if s = "THROTTLED" then (ErrorCode.Throttled, none)
      else if s = "TRY_AGAIN_LATER" then (ErrorCode.TryAgainLater, none)
      else if s = "VALIDATING_REFERENCE_ERROR" then (ErrorCode.ValidatingReferenceError, none)
      else if s = "ZONE_NOT_FOUND" then (ErrorCode.ZoneNotFound, none)
      else (c, some (.unknownErrorCode s)) := rfl

/-- A successful `ErrorCode.UnmarshalJSON` on a JSON string stores the constant
with that wire string, which is not `Unknown`. -/
theorem errorCode_unmarshal_ok (s : String) (c c1 : ErrorCode)
    (h : ErrorCode.UnmarshalJSON (.str s) c = (c1, none)) :
    c1 ∈ ErrorCode.all ∧ c1.String = s ∧ c1 ≠ ErrorCode.Unknown := by
  rw [errorCode_unmarshal_str] at h
  rcases ite_eq_cases h with ⟨h1, h2⟩ | ⟨-, h⟩
  · obtain ⟨rfl, -⟩ := Prod.mk.inj h2
    subst h1
    exact ⟨by decide, rfl, by decide⟩
  rcases ite_eq_cases h with ⟨h1, h2⟩ | ⟨-, h⟩
  · obtain ⟨rfl, -⟩ := Prod.mk.inj h2
    subst h1
    exact ⟨by decide, rfl, by decide⟩
  rcases ite_eq_cases h with ⟨h1, h2⟩ | ⟨-, h⟩
  · obtain ⟨rfl, -⟩ := Prod.mk.inj h2
    subst h1
    exact ⟨by decide, rfl, by decide⟩
  rcases ite_eq_cases h with ⟨h1, h2⟩ | ⟨-, h⟩
  · obtain ⟨rfl, -⟩ := Prod.mk.inj h2
    subst h1
    exact ⟨by decide, rfl, by decide⟩
  rcases ite_eq_cases h with ⟨h1, h2⟩ | ⟨-, h⟩
  · obtain ⟨rfl, -⟩ := Prod.mk.inj h2
    subst h1
    exact ⟨by decide, rfl, by decide⟩
  rcases ite_eq_cases h with ⟨h1, h2⟩ | ⟨-, h⟩
  · obtain ⟨rfl, -⟩ := Prod.mk.inj h2
    subst h1
    exact ⟨by decide, rfl, by decide⟩
  rcases ite_eq_cases h with ⟨h1, h2⟩ | ⟨-, h⟩
  · obtain ⟨rfl, -⟩ := Prod.mk.inj h2
    subst h1
    exact ⟨by decide, rfl, by decide⟩
  rcases ite_eq_cases h with ⟨h1, h2⟩ | ⟨-, h⟩
  · obtain ⟨rfl, -⟩ := Prod.mk.inj h2
    subst h1
    exact ⟨by decide, rfl, by decide⟩
  rcases ite_eq_cases h with ⟨h1, h2⟩ | ⟨-, h⟩
  · obtain ⟨rfl, -⟩ := Prod.mk.inj h2
    subst h1
    exact ⟨by decide, rfl, by decide⟩
  rcases ite_eq_cases h with ⟨h1, h2⟩ | ⟨-, h⟩
  · obtain ⟨rfl, -⟩ := Prod.mk.inj h2
    subst h1
    exact ⟨by decide, rfl, by decide⟩
  rcases ite_eq_cases h with ⟨h1, h2⟩ | ⟨-, h⟩
  · obtain ⟨rfl, -⟩ := Prod.mk.inj h2
    subst h1
    exact ⟨by decide, rfl, by decide⟩
  rcases ite_eq_cases h with ⟨h1, h2⟩ | ⟨-, h⟩
  · obtain ⟨rfl, -⟩ := Prod.mk.inj h2
    subst h1
    exact ⟨by decide, rfl, by decide⟩
  rcases ite_eq_cases h with ⟨h1, h2⟩ | ⟨-, h⟩
  · obtain ⟨rfl, -⟩ := Prod.mk.inj h2
    subst h1
    exact ⟨by decide, rfl, by decide⟩
  rcases ite_eq_cases h with ⟨h1, h2⟩ | ⟨-, h⟩
  · obtain ⟨rfl, -⟩ := Prod.mk.inj h2
    subst h1
    exact ⟨by decide, rfl, by decide⟩
  exact absurd (Prod.mk.inj h).2 (by simp)

/-- When the last member for a field is absent from a longer object. -/
theorem lastMember_cons_none (n k : String) (v : Json) (ms : List (String × Json)) :
    lastMember n ((k, v) :: ms) = none ↔ lastMember n ms = none ∧ keyMatches k n = false := by
  rw [lastMember]
  cases lastMember n ms with
  | some x => simp
  | none => cases keyMatches k n <;> simp

/-- The last member for a field in a longer object. -/
theorem lastMember_cons_some (n k : String) (v x : Json) (ms : List (String × Json)) :
    lastMember n ((k, v) :: ms) = some x ↔
      lastMember n ms = some x ∨ (lastMember n ms = none ∧ keyMatches k n = true ∧ v = x) := by
  rw [lastMember]
  cases lastMember n ms with
  | some y => simp
  | none => cases keyMatches k n <;> simp

/-- A member whose key selects no other field leaves the last member of that
field as it is in the rest of the object. -/
theorem lastMember_cons_skip (n k : String) (v : Json) (ms : List (String × Json))
    (h : keyMatches k n = false) : lastMember n ((k, v) :: ms) = lastMember n ms := by
  rw [lastMember, h]
  cases lastMember n ms <;> rfl

/-- What a successful decoding of the members of an object leaves in
`localError`: for each field, the text of the last member that selects it when
that member is a JSON string, and the previous content when no member selects
it.  The embedded `RetryAfter` is not written. -/
theorem decodeLocalErrorMembers_ok (ms : List (String × Json)) :
    ∀ (st st1 : LocalErrorDecoding) (saved : Option Err),
      decodeLocalErrorMembers ms st saved = (st1, none) →
      (lastMember "reason" ms = none → st1.LocalError.Reason = st.LocalError.Reason) ∧
      (∀ s, lastMember "reason" ms = some (.str s) → st1.LocalError.Reason = s) ∧
      (lastMember "retryAfter" ms = none → st1.RetryAfter = st.RetryAfter) ∧
      (∀ s, lastMember "retryAfter" ms = some (.str s) → st1.RetryAfter = s) ∧
      (lastMember "serverErrorCode" ms = none → st1.LocalError.Code = st.LocalError.Code) ∧
      (∀ s, lastMember "serverErrorCode" ms = some (.str s) →
        st1.LocalError.Code ∈ ErrorCode.all ∧ st1.LocalError.Code.String = s) ∧
      st1.LocalError.RetryAfter = st.LocalError.RetryAfter := by
  induction ms with
  | nil =>
    intro st st1 saved h
    simp only [decodeLocalErrorMembers, Prod.mk.injEq] at h
    obtain ⟨rfl, -⟩ := h
    simp [lastMember]
  | cons kv ms ih =>
    obtain ⟨k, v⟩ := kv
    intro st st1 saved h
    rw [decodeLocalErrorMembers] at h
    by_cases hr : keyMatches k "reason" = true
    · have h2 := keyMatches_exclusive k "reason" "retryAfter" (by decide) hr
      have h3 := keyMatches_exclusive k "reason" "serverErrorCode" (by decide) hr
      rw [if_pos hr] at h
      obtain ⟨i1, i2, i3, i4, i5, i6, i7⟩ := ih _ _ _ h
      rw [lastMember_cons_skip _ _ _ _ h2, lastMember_cons_skip _ _ _ _ h3]
      refine ⟨fun hn => ?_, fun s hs => ?_, i3, i4, i5, i6, i7⟩
      · rw [lastMember_cons_none, hr] at hn
        exact absurd hn.2 (by simp)
      · rw [lastMember_cons_some] at hs
        rcases hs with hs | ⟨hn, -, rfl⟩
        · exact i2 s hs
        · rw [i1 hn]
          rfl
    · have hr1 : keyMatches k "reason" = false := by simpa using hr
      rw [if_neg hr] at h
      by_cases ha : keyMatches k "retryAfter" = true
      · have h3 := keyMatches_exclusive k "retryAfter" "serverErrorCode" (by decide) ha
        rw [if_pos ha] at h
        obtain ⟨i1, i2, i3, i4, i5, i6, i7⟩ := ih _ _ _ h
        rw [lastMember_cons_skip _ _ _ _ hr1, lastMember_cons_skip _ _ _ _ h3]
        refine ⟨i1, i2, fun hn => ?_, fun s hs => ?_, i5, i6, i7⟩
        · rw [lastMember_cons_none, ha] at hn
          exact absurd hn.2 (by simp)
        · rw [lastMember_cons_some] at hs
          rcases hs with hs | ⟨hn, -, rfl⟩
          · exact i4 s hs
          · rw [i3 hn]
            rfl
      · have ha1 : keyMatches k "retryAfter" = false := by simpa using ha
        rw [if_neg ha] at h
        by_cases hc : keyMatches k "serverErrorCode" = true
        · rw [if_pos hc] at h
          rw [lastMember_cons_skip _ _ _ _ hr1, lastMember_cons_skip _ _ _ _ ha1]
          cases hu : ErrorCode.UnmarshalJSON v st.LocalError.Code with
          | mk code err =>
            rw [hu] at h
            cases err with
            | some e => simp at h
            | none =>
              simp only at h
              obtain ⟨i1, i2, i3, i4, i5, i6, i7⟩ := ih _ _ _ h
              refine ⟨i1, i2, i3, i4, fun hn => ?_, fun s hs => ?_, i7⟩
              · rw [lastMember_cons_none, hc] at hn
                exact absurd hn.2 (by simp)
              · rw [lastMember_cons_some] at hs
                rcases hs with hs | ⟨hn, -, rfl⟩
                · exact i6 s hs
                · rw [i5 hn]
                  have := errorCode_unmarshal_ok s _ _ hu
                  exact ⟨this.1, this.2.1⟩
        · have hc1 : keyMatches k "serverErrorCode" = false := by simpa using hc
          rw [if_neg hc] at h
          rw [lastMember_cons_skip _ _ _ _ hr1, lastMember_cons_skip _ _ _ _ ha1,
            lastMember_cons_skip _ _ _ _ hc1]
          exact ih _ _ _ h

/-- C8: `Error.UnmarshalJSON` on a JSON object, into a zero `Error`.  The member
of a field is the last member whose key `encoding/json` matches with the field
name.  When the call succeeds: `Reason` is the text of the `reason` member and
empty when there is none; `Code` is the enum constant whose wire string is the
`serverErrorCode` member and `Unknown` when there is none; `RetryAfter` is zero
when there is no `retryAfter` member or it is the empty string, and otherwise
the duration `time.ParseDuration` reads from it.  A non-empty `retryAfter` text
that `time.ParseDuration` rejects makes the call fail.  The text `30s` parses
to 30 seconds. -/
theorem error_unmarshal_object (L : Lib) (ms : List (String × Json)) :
    (∀ e : Error,
      Error.UnmarshalJSON L (.obj ms) { Reason := "", RetryAfter := 0, Code := ErrorCode.Unknown }
        = (e, none) →
      (lastMember "reason" ms = none → e.Reason = "") ∧
      (∀ s, lastMember "reason" ms = some (.str s) → e.Reason = s) ∧
      (lastMember "serverErrorCode" ms = none → e.Code = ErrorCode.Unknown) ∧
      (∀ s, lastMember "serverErrorCode" ms = some (.str s) →
        e.Code ∈ ErrorCode.all ∧ e.Code.String = s) ∧
      (lastMember "retryAfter" ms = none → e.RetryAfter = 0) ∧
      (lastMember "retryAfter" ms = some (.str "") → e.RetryAfter = 0) ∧
      (∀ s, s ≠ "" → lastMember "retryAfter" ms = some (.str s) →
        ParseDuration L s = .ok e.RetryAfter)) ∧
    (∀ s err, s ≠ "" → lastMember "retryAfter" ms = some (.str s) →
      ParseDuration L s = .error err →
      (Error.UnmarshalJSON L (.obj ms)
        { Reason := "", RetryAfter := 0, Code := ErrorCode.Unknown }).2 ≠ none) ∧
    ParseDuration L "30s" = .ok 30000000000 := by
  refine ⟨fun e h => ?_, fun s err hs hm hp => ?_, rfl⟩
  · unfold Error.UnmarshalJSON at h
    simp only [unmarshalLocalError] at h
    cases hd : decodeLocalErrorMembers ms
        { LocalError := { Reason := "", RetryAfter := 0, Code := ErrorCode.Unknown },
          RetryAfter := "" } none with
    | mk st err =>
      rw [hd] at h
      cases err with
      | some e1 => simp at h
      | none =>
        obtain ⟨i1, i2, i3, i4, i5, i6, i7⟩ := decodeLocalErrorMembers_ok ms _ _ _ hd
        simp only at h i1 i3 i5 i7
        by_cases hra : st.RetryAfter = ""
        · rw [if_neg (by simpa using hra)] at h
          obtain ⟨rfl, -⟩ := Prod.mk.inj h
          refine ⟨i1, i2, i5, i6, fun _ => i7, fun _ => i7, fun s hs hm => ?_⟩
          exact absurd ((i4 s hm).symm.trans hra) hs
        · rw [if_pos hra] at h
          cases hp : ParseDuration L st.RetryAfter with
          | error e1 =>
            rw [hp] at h
            simp at h
          | ok d =>
            rw [hp] at h
            obtain ⟨rfl, -⟩ := Prod.mk.inj h
            refine ⟨i1, i2, i5, i6, fun hn => ?_, fun hm => ?_, fun s _ hm => ?_⟩
            · exact absurd (i3 hn) hra
            · exact absurd (i4 "" hm) hra
            · rw [← i4 s hm]
              exact hp
  · unfold Error.UnmarshalJSON
    simp only [unmarshalLocalError]
    cases hd : decodeLocalErrorMembers ms
        { LocalError := { Reason := "", RetryAfter := 0, Code := ErrorCode.Unknown },
          RetryAfter := "" } none with
    | mk st err =>
      cases err with
      | some e1 => simp
      | none =>
        obtain ⟨-, -, -, i4, -, -, -⟩ := decodeLocalErrorMembers_ok ms _ _ _ hd
        have hst : st.RetryAfter = s := i4 s hm
        simp only [hst, ne_eq, hs, not_false_eq_true, ↓reduceIte, hp]
        simp

/-- Witness for C8: the error body of the interface description decodes to its
three members; an empty object, and one whose `retryAfter` is the empty string,
decode to the zero `Error`; a key matches whatever its case; a duration that
does not parse makes the call fail. -/
theorem error_unmarshal_object_witness :
    Error.UnmarshalJSON testLib
        (.obj [("reason", .str "slow down"), ("retryAfter", .str "30s"),
               ("serverErrorCode", .str "THROTTLED")])
        { Reason := "", RetryAfter := 0, Code := ErrorCode.Unknown } =
      ({ Reason := "slow down", RetryAfter := 30000000000, Code := ErrorCode.Throttled }, none) ∧
    Error.UnmarshalJSON testLib (.obj [])
        { Reason := "", RetryAfter := 0, Code := ErrorCode.Unknown } =
      ({ Reason := "", RetryAfter := 0, Code := ErrorCode.Unknown }, none) ∧
    Error.UnmarshalJSON testLib (.obj [("retryAfter", .str "")])
        { Reason := "", RetryAfter := 0, Code := ErrorCode.Unknown } =
      ({ Reason := "", RetryAfter := 0, Code := ErrorCode.Unknown }, none) ∧
    Error.UnmarshalJSON testLib (.obj [("Reason", .str "busy"), ("retryafter", .str "1m30s")])
        { Reason := "", RetryAfter := 0, Code := ErrorCode.Unknown } =
      ({ Reason := "busy", RetryAfter := 90000000000, Code := ErrorCode.Unknown }, none) ∧
    ParseDuration testLib "30s" = .ok 30000000000 ∧
    (Error.UnmarshalJSON testLib (.obj [("retryAfter", .str "soon")])
        { Reason := "", RetryAfter := 0, Code := ErrorCode.Unknown }).2 ≠ none :=
  ⟨rfl, rfl, rfl, rfl, (error_unmarshal_object testLib []).2.2,
   (error_unmarshal_object testLib [("retryAfter", .str "soon")]).2.1 "soon"
     (.durationInvalid "soon") (by decide) rfl rfl⟩

/-! ### Response handling of `Client.do` -/

/-- C10: for a response with status code `s >= 400` whose `content-type` header
does not begin with `application/json`, `Client.do` returns exactly
`Error{Reason: http.StatusText(s), Code: Unknown, RetryAfter: 0}` and `v` is as
it was.  The result does not mention the body.  A response without a
`Content-Type` entry is such a response. -/
theorem do_non_json_error {τ : Type} (L : Lib) (c : Client L)
    (decode : Bool → Json → τ → τ × Option Err) (ahead : Nat) (req : Request) (v : Out τ)
    (resp : Response)
    (hresp : c.httpClient req = .ok resp) (hstatus : resp.StatusCode ≥ 400) :
    (HasPrefix (resp.Header.Get "content-type") "application/json" = false →
      c.do_ L decode ahead req v =
        (v, some (.api { Reason := StatusText resp.StatusCode, RetryAfter := 0,
                         Code := ErrorCode.Unknown }))) ∧
    (GoMap.get? resp.Header "Content-Type" = none →
      c.do_ L decode ahead req v =
        (v, some (.api { Reason := StatusText resp.StatusCode, RetryAfter := 0,
                         Code := ErrorCode.Unknown }))) := by
  have key : HasPrefix (resp.Header.Get "content-type") "application/json" = false →
      c.do_ L decode ahead req v =
        (v, some (.api { Reason := StatusText resp.StatusCode, RetryAfter := 0,
                         Code := ErrorCode.Unknown })) := by
    intro hct
    unfold Client.do_
    rw [hresp]
    simp only [hstatus, hct, ↓reduceIte, Bool.not_false]
  refine ⟨key, fun hnone => key ?_⟩
  have hk : CanonicalMIMEHeaderKey "content-type" = "Content-Type" := by decide
  unfold Header.Get
  rw [hk, hnone]
  decide

/-- Witness for C10: a 404 with an HTML body and a 503 without any header. -/
theorem do_non_json_error_witness :
    (testClient ⟨404, [("Content-Type", ["text/html"])], "<html>gone</html>"⟩).do_ testLib
        decodeUnit 0 testRequest (.value ()) =
      (.value (), some (.api { Reason := "Not Found", RetryAfter := 0,
                               Code := ErrorCode.Unknown })) ∧
    (testClient ⟨503, [], "\x7b\"reason\":\"busy\"\x7d"⟩).do_ testLib
        decodeUnit 0 testRequest (.writer "") =
      (.writer "", some (.api { Reason := "Service Unavailable", RetryAfter := 0,
                                Code := ErrorCode.Unknown })) :=
  ⟨(do_non_json_error testLib
      (testClient ⟨404, [("Content-Type", ["text/html"])], "<html>gone</html>"⟩)
      decodeUnit 0 testRequest (.value ()) _ rfl (by decide)).1 (by decide),
   (do_non_json_error testLib (testClient ⟨503, [], "\x7b\"reason\":\"busy\"\x7d"⟩)
      decodeUnit 0 testRequest (.writer "") _ rfl (by decide)).2 rfl⟩

/-- C9, as the code has it: for a response with status code `>= 400`,
`Client.do` returns a non-nil error and leaves `v` as it was.  The error is the
structured `Error` when the `content-type` is not JSON (reason: the status
text) and when the body decodes as an `Error` (the decoded value; when the
decoded reason is empty and the code is `Unknown`, the reason is what the
decoder has read of the raw body, newlines turned into spaces).  When the
`content-type` is JSON and the body does not decode as an `Error`, the error is
the decoding error wrapped by `error decoding <status> error response`, which
is not of type `Error`. -/
theorem do_http_error {τ : Type} (L : Lib) (c : Client L)
    (decode : Bool → Json → τ → τ × Option Err) (ahead : Nat) (req : Request) (v : Out τ)
    (resp : Response)
    (hresp : c.httpClient req = .ok resp) (hstatus : resp.StatusCode ≥ 400) :
    (c.do_ L decode ahead req v).1 = v ∧
    (c.do_ L decode ahead req v).2 ≠ none ∧
    (HasPrefix (resp.Header.Get "content-type") "application/json" = false →
      (c.do_ L decode ahead req v).2 =
        some (.api { Reason := StatusText resp.StatusCode, RetryAfter := 0,
                     Code := ErrorCode.Unknown })) ∧
    (HasPrefix (resp.Header.Get "content-type") "application/json" = true →
      (∀ e rest, decodeErrorResponse L resp.Body = .ok (e, rest) →
        ¬(e.Reason = "" ∧ e.Code = ErrorCode.Unknown) →
        (c.do_ L decode ahead req v).2 = some (.api e)) ∧
      (∀ e rest, decodeErrorResponse L resp.Body = .ok (e, rest) →
        e.Reason = "" ∧ e.Code = ErrorCode.Unknown →
        (c.do_ L decode ahead req v).2 =
          some (.api { e with Reason := replaceNewlines (teeBuffer resp.Body rest ahead) })) ∧
      (∀ err, decodeErrorResponse L resp.Body = .error err →
        (c.do_ L decode ahead req v).2 = some (.decodingErrorResponse resp.StatusCode err) ∧
        (Err.decodingErrorResponse resp.StatusCode err).isApi = false)) := by
  unfold Client.do_
  rw [hresp]
  simp only [hstatus, ↓reduceIte]
  cases hct : HasPrefix (resp.Header.Get "content-type") "application/json"
  · simp
  · cases hd : decodeErrorResponse L resp.Body with
    | error err => simp [Err.isApi]
    | ok er =>
      obtain ⟨e, rest⟩ := er
      by_cases he : e.Reason = "" ∧ e.Code = ErrorCode.Unknown
      · simp [he]
      · simp only [he, ↓reduceIte, Bool.not_true, Bool.false_eq_true, ne_eq, reduceCtorEq,
          not_false_eq_true, false_implies, Except.ok.injEq, Prod.mk.injEq, and_imp,
          implies_true, and_true, true_and, forall_const]
        refine ⟨fun e1 rest1 h1 _ _ => by rw [h1], fun e1 rest1 h1 _ h2 h3 => ?_⟩
        subst h1
        exact absurd ⟨h2, h3⟩ he

/-- Witness for C9: status 400 with the JSON body
`{"reason":"Bad Request","serverErrorCode":"BAD_REQUEST"}` yields the `Error`
with reason `Bad Request` and code `BadRequest`. -/
theorem do_http_error_witness :
    ((testClient ⟨400, [("Content-Type", ["application/json"])],
        "\x7b\"reason\":\"Bad Request\",\"serverErrorCode\":\"BAD_REQUEST\"\x7d\n"⟩).do_ testLib
        decodeUnit 0 testRequest (.value ())).2 =
      some (.api { Reason := "Bad Request", RetryAfter := 0, Code := ErrorCode.BadRequest }) :=
  ((do_http_error testLib
      (testClient ⟨400, [("Content-Type", ["application/json"])],
        "\x7b\"reason\":\"Bad Request\",\"serverErrorCode\":\"BAD_REQUEST\"\x7d\n"⟩)
      decodeUnit 0 testRequest (.value ()) _ rfl (by decide)).2.2.2 (by decide)).1
    { Reason := "Bad Request", RetryAfter := 0, Code := ErrorCode.BadRequest } "\n" rfl
    (by decide)

/-- C9 fails as stated: a 400 response with a JSON `content-type` whose body is
not JSON, or whose body names an error code outside the fifteen, makes
`Client.do` return a wrapped decoding error, which is not of type `Error`. -/
theorem do_http_error_not_structured :
    (testClient ⟨400, [("Content-Type", ["application/json"])], "Bad Request"⟩).do_ testLib
        decodeUnit 0 testRequest (.value ()) =
      (.value (), some (.decodingErrorResponse 400
        (.jsonText "invalid character looking for beginning of value"))) ∧
    (testClient ⟨400, [("Content-Type", ["application/json"])],
        "\x7b\"reason\":\"taken\",\"serverErrorCode\":\"UNIQUE_FIELD_ERROR\"\x7d"⟩).do_ testLib
        decodeUnit 0 testRequest (.value ()) =
      (.value (), some (.decodingErrorResponse 400 (.unknownErrorCode "UNIQUE_FIELD_ERROR"))) ∧
    (Err.decodingErrorResponse 400 (.unknownErrorCode "UNIQUE_FIELD_ERROR")).isApi = false := by
  refine ⟨rfl, rfl, rfl⟩

/-! ### Go maps and headers -/

/-- Reading a key just assigned gives the assigned value. -/
theorem GoMap.get?_set_self {α : Type} (m : GoMap α) (k : String) (v : α) :
    GoMap.get? (GoMap.set m k v) k = some v := by
  induction m with
  | nil => simp [GoMap.set, GoMap.get?]
  | cons kv rest ih =>
    obtain ⟨k1, v1⟩ := kv
    by_cases h : k1 = k
    · simp [GoMap.set, GoMap.get?, h]
    · simp [GoMap.set, GoMap.get?, h, ih]

/-- Assigning one key does not change what another key reads. -/
theorem GoMap.get?_set_ne {α : Type} (m : GoMap α) (k k2 : String) (v : α) (hne : k ≠ k2) :
    GoMap.get? (GoMap.set m k v) k2 = GoMap.get? m k2 := by
  induction m with
  | nil => simp [GoMap.set, GoMap.get?, hne]
  | cons kv rest ih =>
    obtain ⟨k1, v1⟩ := kv
    by_cases h : k1 = k
    · subst h
      simp [GoMap.set, GoMap.get?, hne]
    · by_cases h2 : k1 = k2
      · simp [GoMap.set, GoMap.get?, h, h2, Ne.symm hne]
      · simp [GoMap.set, GoMap.get?, h, h2, ih]

/-- `Get` after `Set` of the same header gives the value set. -/
theorem Header.get_set_self (h : Header) (key value : String) :
    (h.Set key value).Get key = value := by
  unfold Header.Get Header.Set
  rw [GoMap.get?_set_self]

/-- `Set` of one header does not change what `Get` of another one gives. -/
theorem Header.get_set_ne (h : Header) (key key2 value : String)
    (hne : CanonicalMIMEHeaderKey key ≠ CanonicalMIMEHeaderKey key2) :
    (h.Set key value).Get key2 = h.Get key2 := by
  unfold Header.Get Header.Set
  rw [GoMap.get?_set_ne _ _ _ _ hne]

/-! ### Request construction and signing -/

/-- The body hash of `newRequest` has been fed exactly the bytes of the body
buffer; a nil body leaves both empty, and any other body puts the marshalled
value and a newline in both. -/
theorem newRequestBody_spec {β : Type} (marshal : β → Except Err Json) (body : Option β)
    (buf : String) (h : Hash) (hb : newRequestBody marshal body = .ok (buf, h)) :
    h.written = buf ∧ (body = none → buf = "") ∧
    (∀ b, body = some b → ∃ j, marshal b = .ok j ∧ buf = j.render ++ "\n") := by
  cases body with
  | none =>
    simp only [newRequestBody, Except.ok.injEq, Prod.mk.injEq] at hb
    obtain ⟨rfl, rfl⟩ := hb
    exact ⟨rfl, fun _ => rfl, fun b hb => by simp at hb⟩
  | some b =>
    simp only [newRequestBody, encoderEncode] at hb
    cases hm : marshal b with
    | error e => rw [hm] at hb; simp at hb
    | ok j =>
      rw [hm] at hb
      simp only [multiWrite, Hash.Write, sha256New, Except.ok.injEq, Prod.mk.injEq] at hb
      obtain ⟨rfl, rfl⟩ := hb
      refine ⟨rfl, fun hn => by simp at hn, fun b1 hb1 => ?_⟩
      obtain rfl := Option.some.inj hb1
      exact ⟨j, hm, by simp⟩

/-- The request made by `http.NewRequestWithContext` has the given body. -/
theorem NewRequestWithContext_body (L : Lib) (method url body : String) (req : Request)
    (h : NewRequestWithContext L method url body = .ok req) : req.Body = body := by
  unfold NewRequestWithContext at h
  dsimp only at h
  rcases ite_eq_cases h with ⟨-, h1⟩ | ⟨-, h1⟩
  · exact absurd h1 (by simp)
  · cases hu : L.urlParse url with
    | error e => rw [hu] at h1; exact absurd h1 (by simp)
    | ok u =>
      rw [hu] at h1
      simp only [Except.ok.injEq] at h1
      rw [← h1]

/-- What `newRequest` hands to `signRequest`: a request whose body is the body
buffer, together with the hash of that buffer. -/
theorem newRequestUnsigned_spec {β : Type} (L : Lib) (c : Client L)
    (marshal : β → Except Err Json) (method endpoint : String) (body : Option β)
    (req : Request) (h : Hash)
    (hreq : c.newRequestUnsigned L marshal method endpoint body = .ok (req, h)) :
    newRequestBody marshal body = .ok (req.Body, h) := by
  unfold Client.newRequestUnsigned at hreq
  simp only at hreq
  cases hp : L.parseRequestURI (L.pathJoin c.baseURL.Path endpoint) with
  | error e => rw [hp] at hreq; simp at hreq
  | ok rel =>
    rw [hp] at hreq
    simp only at hreq
    cases hb : newRequestBody marshal body with
    | error e => rw [hb] at hreq; simp at hreq
    | ok bh =>
      obtain ⟨buf, h1⟩ := bh
      rw [hb] at hreq
      simp only at hreq
      cases hn : NewRequestWithContext L method (L.urlString (L.resolveReference c.baseURL rel)) buf with
      | error e => rw [hn] at hreq; simp at hreq
      | ok req0 =>
        rw [hn] at hreq
        simp only [Except.ok.injEq, Prod.mk.injEq] at hreq
        obtain ⟨rfl, rfl⟩ := hreq
        simp [NewRequestWithContext_body L _ _ _ _ hn]

/-- C2: the hash that `newRequest` hands to `signRequest` has been fed exactly
the bytes placed in the request body buffer, so its digest is the SHA-256 of
the body; for a nil body the body is empty and the digest is the SHA-256 of
zero bytes; for any other body the body is the JSON encoder's output, the
marshalled value followed by a newline.  `newRequest` is `signRequest` applied
to this request and this hash. -/
theorem newRequest_body_digest {β : Type} (L : Lib) (c : Client L)
    (marshal : β → Except Err Json) (method endpoint : String) (body : Option β)
    (req : Request) (h : Hash)
    (hreq : c.newRequestUnsigned L marshal method endpoint body = .ok (req, h)) :
    h.Sum L = L.sha256 req.Body ∧
    (body = none → req.Body = "" ∧ h.Sum L = L.sha256 "") ∧
    (∀ b, body = some b → ∃ j, marshal b = .ok j ∧ req.Body = j.render ++ "\n") ∧
    (∀ (now : L.Time) (rnd : L.Entropy),
      c.newRequest L now rnd marshal method endpoint body = c.signRequest L now rnd req h) := by
  obtain ⟨h1, h2, h3⟩ :=
    newRequestBody_spec marshal body req.Body h
      (newRequestUnsigned_spec L c marshal method endpoint body req h hreq)
  refine ⟨by rw [Hash.Sum, h1], fun hn => ⟨h2 hn, by rw [Hash.Sum, h1, h2 hn]⟩, h3, ?_⟩
  intro now rnd
  unfold Client.newRequest
  rw [hreq]

/-- C1: a request built by `newRequest` with a non-nil key carries a
`x-apple-cloudkit-request-signaturev1` header that is the base64 of a signature
which verifies, under the public half of the configured key, over
`SHA256(D ":" base64(SHA256(B)) ":" P)`, where `D` is the value of the
`x-apple-cloudkit-request-iso8601date` header of the same request, `B` its body
and `P` the path of its URL.  The signature scheme is assumed correct. -/
theorem newRequest_signature {β : Type} (L : Lib) (hL : L.SignatureCorrect) (c : Client L)
    (key : L.PrivateKey) (hkey : c.privateKey = some key) (now : L.Time) (rnd : L.Entropy)
    (marshal : β → Except Err Json) (method endpoint : String) (body : Option β)
    (req : Request)
    (hreq : c.newRequest L now rnd marshal method endpoint body = .ok req) :
    ∃ sig : List Nat,
      req.Header.Get "x-apple-cloudkit-request-signaturev1" = L.base64 sig ∧
      L.verify (L.publicKey key)
        (L.sha256 (req.Header.Get "x-apple-cloudkit-request-iso8601date" ++ ":" ++
          L.base64 (L.sha256 req.Body) ++ ":" ++ req.URL.Path)) sig = true := by
  unfold Client.newRequest at hreq
  cases hu : c.newRequestUnsigned L marshal method endpoint body with
  | error e => rw [hu] at hreq; simp at hreq
  | ok rh =>
    obtain ⟨req0, h⟩ := rh
    rw [hu] at hreq
    simp only at hreq
    have hw : h.written = req0.Body :=
      (newRequestBody_spec marshal body req0.Body h
        (newRequestUnsigned_spec L c marshal method endpoint body req0 h hu)).1
    unfold Client.signRequest at hreq
    simp only [hkey] at hreq
    cases hs : L.sign key rnd
        ((sha256New.Write (L.formatRFC3339 now ++ ":" ++ L.base64 (h.Sum L) ++ ":" ++
          req0.URL.Path)).Sum L) with
    | error e => rw [hs] at hreq; simp at hreq
    | ok sig =>
      rw [hs] at hreq
      simp only [Outcome.ok.injEq] at hreq
      subst hreq
      have hd : CanonicalMIMEHeaderKey "x-apple-cloudkit-request-signaturev1" ≠
          CanonicalMIMEHeaderKey "x-apple-cloudkit-request-iso8601date" := by decide
      refine ⟨sig, Header.get_set_self _ _ _, ?_⟩
      simp only [Header.get_set_ne _ _ _ _ hd, Header.get_set_self]
      have := hL key rnd _ sig hs
      simpa [Hash.Sum, Hash.Write, sha256New, hw] using this

/-- The signature scheme of `testLib` is correct. -/
theorem testLib_signatureCorrect : testLib.SignatureCorrect := by
  intro k r digest sig h
  have h1 : sig = k :: digest := by
    have h2 : (Except.ok (k :: digest) : Except Err (List Nat)) = .ok sig := h
    exact (Except.ok.inj h2).symm
  subst h1
  show ((k :: digest : List Nat) == k :: digest) = true
  exact beq_self_eq_true _

/-- Witness for C2: the request of the package example, posted to
`/public/records/modify`. -/
theorem newRequest_body_digest_witness :
    ∃ (req : Request) (h : Hash),
      (testClient noResponse).newRequestUnsigned testLib RecordsRequest.toJson "POST"
        "/public/records/modify" (some exampleRequest) = .ok (req, h) ∧
      req.Body = "\x7b\"operations\":[\x7b\"operationType\":\"create\",\"record\":\x7b\"recordType\":\"MyRecord\",\"fields\":\x7b\"MyField\":\x7b\"value\":\"Hello, World!\"\x7d,\"MyOtherField\":\x7b\"value\":1000\x7d\x7d\x7d\x7d]\x7d\n" ∧
      h.Sum testLib = testLib.sha256 req.Body ∧
      (∀ now rnd,
        (testClient noResponse).newRequest testLib now rnd RecordsRequest.toJson "POST"
          "/public/records/modify" (some exampleRequest) =
        (testClient noResponse).signRequest testLib now rnd req h) :=
  ⟨_, _, rfl, rfl,
    (newRequest_body_digest testLib (testClient noResponse) RecordsRequest.toJson "POST"
      "/public/records/modify" (some exampleRequest) _ _ rfl).1,
    (newRequest_body_digest testLib (testClient noResponse) RecordsRequest.toJson "POST"
      "/public/records/modify" (some exampleRequest) _ _ rfl).2.2.2⟩

/-- Witness for C1: the empty-body `GET /` of the package tests, signed with
the key of `testClient`. -/
theorem newRequest_signature_witness :
    ∃ req : Request,
      (testClient noResponse).newRequest testLib "2024-01-02T15:04:05Z" ()
        (fun j : Json => Except.ok j) "GET" "/" none = .ok req ∧
      req.Header.Get "x-apple-cloudkit-request-iso8601date" = "2024-01-02T15:04:05Z" ∧
      req.Header.Get "x-apple-cloudkit-request-keyid" = "6459b5a4" ∧
      req.Body = "" ∧
      ∃ sig : List Nat,
        req.Header.Get "x-apple-cloudkit-request-signaturev1" = testLib.base64 sig ∧
        testLib.verify (testLib.publicKey (7 : Nat))
          (testLib.sha256 (req.Header.Get "x-apple-cloudkit-request-iso8601date" ++ ":" ++
            testLib.base64 (testLib.sha256 req.Body) ++ ":" ++ req.URL.Path)) sig = true :=
  ⟨_, rfl, rfl, rfl, rfl,
    newRequest_signature testLib testLib_signatureCorrect (testClient noResponse) (7 : Nat) rfl
      "2024-01-02T15:04:05Z" () (fun j : Json => Except.ok j) "GET" "/" none _ rfl⟩

/-! ### JSON text round trip -/

/-- Decimal digit characters are digits with the right value. -/
theorem digitChar_spec (k : Nat) (hk : k < 10) :
    (Nat.digitChar k).isDigit = true ∧ (Nat.digitChar k).toNat - 48 = k ∧
    (0 < k → Nat.digitChar k ≠ '0') := by
  interval_cases k <;> decide

/-- Reading digits stops at a character that is not a digit. -/
theorem takeDigits_stop (tail : List Char) (acc cnt : Nat)
    (h : ∀ c ∈ tail.head?, c.isDigit = false) :
    takeDigits tail acc cnt = (acc, cnt, tail) := by
  cases tail with
  | nil => rfl
  | cons c cs =>
    have hc : c.isDigit = false := h c (by simp)
    simp [takeDigits, hc]

/-- Reading a run of digits continues the number and the count. -/
theorem takeDigits_append (ds : List Char) (hds : ∀ c ∈ ds, c.isDigit = true) :
    ∀ (tail : List Char) (acc cnt : Nat),
      takeDigits (ds ++ tail) acc cnt = takeDigits tail (digitsValue acc ds) (cnt + ds.length) := by
  induction ds with
  | nil => intro tail acc cnt; rfl
  | cons c cs ih =>
    intro tail acc cnt
    have hc : c.isDigit = true := hds c (List.mem_cons_self _ _)
    simp only [List.cons_append, takeDigits, hc, ↓reduceIte]
    change takeDigits (cs ++ tail) _ _ = _
    rw [ih (fun x hx => hds x (List.mem_cons_of_mem _ hx))]
    simp only [digitsValue, List.foldl_cons, List.length_cons]
    congr 1
    omega

/-- A run of digits denotes, after `acc`, the number it denotes by itself
behind the digits of `acc`. -/
theorem digitsValue_acc (ds : List Char) :
    ∀ acc : Nat, digitsValue acc ds = acc * 10 ^ ds.length + digitsValue 0 ds := by
  induction ds with
  | nil => intro acc; simp [digitsValue]
  | cons c cs ih =>
    intro acc
    have h1 := ih (acc * 10 + (c.toNat - 48))
    have h2 := ih (0 * 10 + (c.toNat - 48))
    simp only [digitsValue, List.foldl_cons, List.length_cons] at h1 h2 ⊢
    rw [h1, h2, pow_succ]
    ring

/-- Number denoted by two runs of digits in a row. -/
theorem digitsValue_append (a b : List Char) (acc : Nat) :
    digitsValue acc (a ++ b) = digitsValue acc a * 10 ^ b.length + digitsValue 0 b := by
  rw [← digitsValue_acc]
  simp [digitsValue, List.foldl_append]

/-- Leading zeros do not change the number denoted. -/
theorem digitsValue_zeros (k : Nat) (ds : List Char) :
    digitsValue 0 (List.replicate k '0' ++ ds) = digitsValue 0 ds := by
  induction k with
  | zero => rfl
  | succ k ih =>
    rw [List.replicate_succ, List.cons_append]
    simpa [digitsValue] using ih

/-- The characters that `Nat.toDigits` writes are digits. -/
theorem toDigitsCore_isDigit (fuel : Nat) :
    ∀ (n : Nat) (ds : List Char), (∀ c ∈ ds, c.isDigit = true) →
      ∀ c ∈ Nat.toDigitsCore 10 fuel n ds, c.isDigit = true := by
  induction fuel with
  | zero => intro n ds h c hc; exact h c (by simpa [Nat.toDigitsCore] using hc)
  | succ fuel ih =>
    intro n ds h c hc
    have hd := (digitChar_spec (n % 10) (Nat.mod_lt _ (by decide))).1
    have hcons : ∀ x ∈ Nat.digitChar (n % 10) :: ds, x.isDigit = true := by
      intro x hx
      rcases List.mem_cons.1 hx with rfl | hx
      · exact hd
      · exact h x hx
    simp only [Nat.toDigitsCore] at hc
    split at hc
    · exact hcons c hc
    · exact ih _ _ hcons c hc

/-- The digits that `Nat.toDigits` writes for `n` read back as `n`. -/
theorem takeDigits_toDigitsCore (fuel : Nat) :
    ∀ (n : Nat) (ds : List Char), n < fuel →
      ∃ D : List Char, Nat.toDigitsCore 10 fuel n ds = D ++ ds ∧
        (∀ tail acc cnt,
          takeDigits (D ++ tail) acc cnt =
            takeDigits tail (acc * 10 ^ D.length + n) (cnt + D.length)) ∧
        (∃ c D1, D = c :: D1 ∧ c.isDigit = true ∧ (0 < n → c ≠ '0')) ∧
        (n = 0 → D = ['0']) := by
  induction fuel with
  | zero => intro n ds h; exact absurd h (Nat.not_lt_zero _)
  | succ fuel ih =>
    intro n ds hn
    have hd := digitChar_spec (n % 10) (Nat.mod_lt _ (by decide))
    by_cases h0 : n / 10 = 0
    · have hlt : n < 10 := by omega
      have hmod : n % 10 = n := Nat.mod_eq_of_lt hlt
      refine ⟨[Nat.digitChar (n % 10)], ?_, ?_, ?_, ?_⟩
      · simp [Nat.toDigitsCore, h0]
      · intro tail acc cnt
        rw [hmod] at hd
        simp [hmod, takeDigits, hd.1, hd.2.1]
      · exact ⟨_, [], rfl, hd.1, fun hpos => hd.2.2 (by omega)⟩
      · intro hz
        subst hz
        rfl
    · have hlt : n / 10 < fuel := by omega
      obtain ⟨D1, e1, t1, ⟨c, D2, e2, hc, hc0⟩, -⟩ := ih (n / 10) (Nat.digitChar (n % 10) :: ds) hlt
      refine ⟨D1 ++ [Nat.digitChar (n % 10)], ?_, ?_, ?_, ?_⟩
      · simp [Nat.toDigitsCore, h0, e1]
      · intro tail acc cnt
        rw [List.append_assoc, t1]
        simp only [List.singleton_append, takeDigits, hd.1, ↓reduceIte, hd.2.1, List.length_append,
          List.length_singleton]
        have e3 : (acc * 10 ^ D1.length + n / 10) * 10 + n % 10 =
            acc * 10 ^ (D1.length + 1) + n := by
          rw [pow_succ]
          have := Nat.div_add_mod n 10
          nlinarith [this]
        rw [e3, Nat.add_assoc]
        rfl
      · exact ⟨c, D2 ++ [Nat.digitChar (n % 10)], by simp [e2], hc, fun _ => hc0 (by omega)⟩
      · intro hz
        omega

/-- The decimal text of a natural number: digits that denote the number, the
first of which is `0` only for zero. -/
theorem toDigits_digits (n : Nat) :
    (∀ c ∈ Nat.toDigits 10 n, c.isDigit = true) ∧ digitsValue 0 (Nat.toDigits 10 n) = n ∧
    ∃ c D1, Nat.toDigits 10 n = c :: D1 ∧ (0 < n → c ≠ '0') ∧ (n = 0 → D1 = [] ∧ c = '0') := by
  have hall : ∀ c ∈ Nat.toDigits 10 n, c.isDigit = true :=
    toDigitsCore_isDigit (n + 1) n [] (by simp)
  obtain ⟨D, e, t, ⟨c, D1, e1, hc, hc0⟩, hz⟩ := takeDigits_toDigitsCore (n + 1) n [] (by omega)
  have hD : Nat.toDigits 10 n = D := by simpa [Nat.toDigits] using e
  refine ⟨hall, ?_, c, D1, by rw [hD, e1], hc0, ?_⟩
  · have h1 := t [] 0 0
    rw [← hD, takeDigits_append _ hall] at h1
    simp only [takeDigits, Nat.zero_mul, Nat.zero_add, Prod.mk.injEq] at h1
    exact h1.1
  · intro h0
    have := hz h0
    rw [e1] at this
    simp only [List.cons.injEq] at this
    exact ⟨this.2, this.1⟩

/-- Reading a run of digits that is followed by something else. -/
theorem takeDigits_run (ds tail : List Char) (hds : ∀ c ∈ ds, c.isDigit = true)
    (ht : ∀ c ∈ tail.head?, c.isDigit = false) :
    takeDigits (ds ++ tail) 0 0 = (digitsValue 0 ds, ds.length, tail) := by
  rw [takeDigits_append ds hds, takeDigits_stop _ _ _ ht]
  simp

/-- The exponent part is absent before text that ends the token. -/
theorem parseExponent_none (neg : Bool) (i f nf : Nat) (rest : List Char) (h : EndsToken rest) :
    parseExponent neg i f nf rest = .ok (.num neg (i * 10 ^ nf + f) (-(nf : Int)), rest) := by
  cases rest with
  | nil => simp [parseExponent]
  | cons c cs =>
    have hc := h c (by simp)
    simp [parseExponent, hc.2.2.1, hc.2.2.2]

/-- The exponent part that `renderExp` writes reads back. -/
theorem parseExponent_renderExp (neg : Bool) (i f nf : Nat) (x : Int) (rest : List Char)
    (h : ∀ c ∈ rest.head?, c.isDigit = false) :
    parseExponent neg i f nf (renderExp x ++ rest) =
      .ok (.num neg (i * 10 ^ nf + f) (x - (nf : Int)), rest) := by
  obtain ⟨hall, hval, c, D1, e1, -, -⟩ := toDigits_digits x.natAbs
  have hrun := takeDigits_run _ rest hall h
  rw [hval, e1] at hrun
  by_cases hx : x < 0
  · have hx2 : -((x.natAbs : Nat) : Int) = x := by omega
    simp only [renderExp, hx, ↓reduceIte, List.cons_append, parseExponent, true_or, e1]
    have e2 : ('-' : Char) ≠ '+' := by decide
    simp only [e2, ↓reduceIte]
    rw [List.cons_append] at hrun
    rw [hrun]
    simp only [List.length_cons, ↓reduceIte, hx2]
  · have hx2 : ((x.natAbs : Nat) : Int) = x := by omega
    simp only [renderExp, hx, ↓reduceIte, List.cons_append, parseExponent, true_or, e1]
    rw [List.cons_append] at hrun
    rw [hrun]
    simp only [List.length_cons, hx2]
    simp

/-- A fraction part: a point and a run of digits. -/
theorem parseFraction_point (neg : Bool) (i : Nat) (b : Char) (B tail : List Char)
    (hB : ∀ c ∈ b :: B, c.isDigit = true) (ht : ∀ c ∈ tail.head?, c.isDigit = false) :
    parseFraction neg i ('.' :: ((b :: B) ++ tail)) =
      parseExponent neg i (digitsValue 0 (b :: B)) (B.length + 1) tail := by
  have hrun := takeDigits_run (b :: B) tail hB ht
  simp only [parseFraction, ↓reduceIte, hrun, List.length_cons]

/-- No fraction part before a character that is not a point. -/
theorem parseFraction_nopoint (neg : Bool) (i : Nat) (cs : List Char)
    (h : ∀ c ∈ cs.head?, c ≠ '.') :
    parseFraction neg i cs = parseExponent neg i 0 0 cs := by
  cases cs with
  | nil => rfl
  | cons c cs =>
    have hc := h c (by simp)
    simp [parseFraction, hc]

/-- A number text that starts with a digit, with or without a minus sign. -/
theorem parseNumber_sign (neg : Bool) (c : Char) (cs : List Char) (hc : c.isDigit = true) :
    parseNumber ((if neg then ['-'] else []) ++ c :: cs) =
      if c = '0' then parseFraction neg 0 cs
      else
        match takeDigits (c :: cs) 0 0 with
        | (i, _, r) => parseFraction neg i r := by
  have hm : c ≠ '-' := by rintro rfl; simp at hc
  cases neg
  · simp only [Bool.false_eq_true, ↓reduceIte, List.nil_append, parseNumber, hm, hc]
  · simp only [↓reduceIte, List.singleton_append, parseNumber, hc]

/-- A character that ends a token is not a digit. -/
theorem EndsToken.notDigit {rest : List Char} (h : EndsToken rest) :
    ∀ c ∈ rest.head?, c.isDigit = false := fun c hc => (h c hc).1

/-- A character that ends a token is not a point. -/
theorem EndsToken.notPoint {rest : List Char} (h : EndsToken rest) :
    ∀ c ∈ rest.head?, c ≠ '.' := fun c hc => (h c hc).2.1

/-- The text of a number is an optional minus sign and digits in one of three
formats. -/
theorem renderNum_eq (neg : Bool) (m : Nat) (e : Int) :
    renderNum neg m e = (if neg then ['-'] else []) ++
      (if e = 0 then Nat.toDigits 10 m
       else if e < 0 ∧ 10 ^ e.natAbs ≤ m * 1000000 then renderFixed (Nat.toDigits 10 m) e.natAbs
       else renderSci (Nat.toDigits 10 m) e) := by
  cases neg <;> simp [renderNum]

/-- An integer text reads back. -/
theorem parseNumber_int (neg : Bool) (m : Nat) (rest : List Char) (h : EndsToken rest) :
    parseNumber ((if neg then ['-'] else []) ++ (Nat.toDigits 10 m ++ rest)) =
      .ok (.num neg m 0, rest) := by
  obtain ⟨hall, hval, c, D1, e1, hc0, hz⟩ := toDigits_digits m
  have hc : c.isDigit = true := hall c (by rw [e1]; exact List.mem_cons_self _ _)
  have hrun := takeDigits_run _ rest hall h.notDigit
  rw [hval, e1] at hrun
  rw [e1, List.cons_append, parseNumber_sign neg c _ hc]
  by_cases hm : m = 0
  · obtain ⟨hD, hcz⟩ := hz hm
    subst hD hcz hm
    simp only [↓reduceIte, List.nil_append]
    rw [parseFraction_nopoint _ _ _ h.notPoint, parseExponent_none _ _ _ _ _ h]
    simp
  · have hcne : c ≠ '0' := hc0 (by omega)
    simp only [hcne, ↓reduceIte]
    rw [List.cons_append] at hrun
    rw [hrun]
    simp only
    rw [parseFraction_nopoint _ _ _ h.notPoint, parseExponent_none _ _ _ _ _ h]
    simp

/-- A text in the format `f` reads back. -/
theorem parseNumber_fixed (neg : Bool) (m k : Nat) (hk : 0 < k) (hm : 0 < m) (rest : List Char)
    (h : EndsToken rest) :
    parseNumber ((if neg then ['-'] else []) ++ (renderFixed (Nat.toDigits 10 m) k ++ rest)) =
      .ok (.num neg m (-(k : Int)), rest) := by
  obtain ⟨hall, hval, c, D1, e1, hc0, -⟩ := toDigits_digits m
  have hc : c.isDigit = true := hall c (by rw [e1]; exact List.mem_cons_self _ _)
  have hcne : c ≠ '0' := hc0 hm
  by_cases hlen : k < (Nat.toDigits 10 m).length
  · -- digits, a point, the last `k` digits
    have hsplit := List.take_append_drop ((Nat.toDigits 10 m).length - k) (Nat.toDigits 10 m)
    generalize hA : (Nat.toDigits 10 m).take ((Nat.toDigits 10 m).length - k) = A at hsplit
    generalize hB : (Nat.toDigits 10 m).drop ((Nat.toDigits 10 m).length - k) = B at hsplit
    have hBlen : B.length = k := by rw [← hB, List.length_drop]; omega
    have hAlen : A.length = (Nat.toDigits 10 m).length - k := by
      rw [← hA, List.length_take]; omega
    have hAd : ∀ x ∈ A, x.isDigit = true := fun x hx =>
      hall x (by rw [← hsplit]; exact List.mem_append_left _ hx)
    have hBd : ∀ x ∈ B, x.isDigit = true := fun x hx =>
      hall x (by rw [← hsplit]; exact List.mem_append_right _ hx)
    obtain ⟨b, B1, rfl⟩ : ∃ b B1, B = b :: B1 := by
      cases B with
      | nil => simp at hBlen; omega
      | cons b B1 => exact ⟨b, B1, rfl⟩
    obtain ⟨A1, rfl⟩ : ∃ A1, A = c :: A1 := by
      cases A with
      | nil => simp at hAlen; omega
      | cons a A1 =>
        rw [e1] at hsplit
        simp only [List.cons_append, List.cons.injEq] at hsplit
        exact ⟨A1, by rw [hsplit.1]⟩
    have hv : digitsValue 0 (c :: A1) * 10 ^ (b :: B1).length + digitsValue 0 (b :: B1) = m := by
      rw [← digitsValue_append, hsplit, hval]
    have hrun := takeDigits_run (c :: A1) ('.' :: ((b :: B1) ++ rest)) hAd
      (by intro x hx; simp at hx; subst hx; decide)
    simp only [renderFixed, hlen, ↓reduceIte, hA, hB]
    rw [List.append_assoc, List.cons_append, parseNumber_sign neg c _ hc]
    simp only [hcne, ↓reduceIte]
    rw [List.cons_append] at hrun
    rw [List.cons_append, hrun]
    simp only
    rw [parseFraction_point neg _ b B1 rest hBd h.notDigit, parseExponent_none _ _ _ _ _ h]
    have hl : B1.length + 1 = k := by simpa using hBlen
    simp only [List.length_cons] at hv
    rw [hv, hl]
  · -- `0.`, zeros, all digits
    have hZ : ∀ x ∈ List.replicate (k - (Nat.toDigits 10 m).length) '0' ++ Nat.toDigits 10 m,
        x.isDigit = true := by
      intro x hx
      rcases List.mem_append.1 hx with hx | hx
      · rw [List.eq_of_mem_replicate hx]; decide
      · exact hall x hx
    have hZlen : (List.replicate (k - (Nat.toDigits 10 m).length) '0' ++
        Nat.toDigits 10 m).length = k := by
      rw [List.length_append, List.length_replicate]; omega
    have hZval := digitsValue_zeros (k - (Nat.toDigits 10 m).length) (Nat.toDigits 10 m)
    rw [hval] at hZval
    simp only [renderFixed, hlen, ↓reduceIte]
    generalize List.replicate (k - (Nat.toDigits 10 m).length) '0' ++ Nat.toDigits 10 m = Z
      at hZ hZlen hZval ⊢
    obtain ⟨b, B1, rfl⟩ : ∃ b B1, Z = b :: B1 := by
      cases Z with
      | nil => simp at hZlen; omega
      | cons b B1 => exact ⟨b, B1, rfl⟩
    have h0 : ('0' : Char).isDigit = true := by decide
    rw [List.cons_append, parseNumber_sign neg '0' _ h0]
    simp only [↓reduceIte, List.cons_append]
    rw [← List.cons_append, parseFraction_point neg _ b B1 rest hZ h.notDigit,
      parseExponent_none _ _ _ _ _ h]
    have hl : B1.length + 1 = k := by simpa using hZlen
    rw [hZval, hl]
    simp

/-- A text in the format `e` reads back. -/
theorem parseNumber_sci (neg : Bool) (m : Nat) (e : Int) (rest : List Char)
    (h : EndsToken rest) :
    parseNumber ((if neg then ['-'] else []) ++ (renderSci (Nat.toDigits 10 m) e ++ rest)) =
      .ok (.num neg m e, rest) := by
  obtain ⟨hall, hval, c, R, e1, hc0, hz⟩ := toDigits_digits m
  have hc : c.isDigit = true := hall c (by rw [e1]; exact List.mem_cons_self _ _)
  have hR : ∀ x ∈ R, x.isDigit = true := fun x hx =>
    hall x (by rw [e1]; exact List.mem_cons_of_mem _ hx)
  have hce : ∀ x ∈ [c], x.isDigit = true := by simpa using hc
  have hv : digitsValue 0 [c] * 10 ^ R.length + digitsValue 0 R = m := by
    rw [← digitsValue_append, List.singleton_append, ← e1, hval]
  have hexp : ∀ (x : Int) (t : List Char), ∀ y ∈ (renderExp x ++ t).head?, y.isDigit = false := by
    intro x t y hy
    simp only [renderExp, List.cons_append, List.head?_cons, Option.mem_def,
      Option.some.injEq] at hy
    subst hy
    decide
  have hexp2 : ∀ (x : Int) (t : List Char), ∀ y ∈ (renderExp x ++ t).head?, y ≠ '.' := by
    intro x t y hy
    simp only [renderExp, List.cons_append, List.head?_cons, Option.mem_def,
      Option.some.injEq] at hy
    subst hy
    decide
  rw [e1]
  simp only [renderSci]
  rw [List.append_assoc, List.cons_append, parseNumber_sign neg c _ hc]
  by_cases hm : m = 0
  · obtain ⟨hD, hcz⟩ := hz hm
    subst hD hcz hm
    simp only [↓reduceIte, List.isEmpty_nil, List.nil_append, List.length_nil, Nat.cast_zero,
      add_zero]
    rw [parseFraction_nopoint _ _ _ (hexp2 e rest),
      parseExponent_renderExp _ _ _ _ _ _ h.notDigit]
    simp
  · have hcne : c ≠ '0' := hc0 (by omega)
    simp only [hcne, ↓reduceIte]
    cases R with
    | nil =>
      have hrun := takeDigits_run [c] (renderExp e ++ rest) hce (hexp e rest)
      simp only [List.isEmpty_nil, ↓reduceIte, List.nil_append, List.length_nil, Nat.cast_zero,
        add_zero]
      rw [List.singleton_append] at hrun
      rw [hrun]
      simp only
      rw [parseFraction_nopoint _ _ _ (hexp2 e rest),
        parseExponent_renderExp _ _ _ _ _ _ h.notDigit]
      have hv2 : digitsValue 0 [c] = m := by simpa [digitsValue] using hv
      simp [hv2]
    | cons r R1 =>
      have hrun := takeDigits_run [c]
        ('.' :: ((r :: R1) ++ (renderExp (e + ((r :: R1).length : Nat)) ++ rest))) hce
        (by intro x hx; simp at hx; subst hx; decide)
      simp only [List.isEmpty_cons, Bool.false_eq_true, ↓reduceIte, List.cons_append,
        List.append_assoc]
      rw [List.singleton_append] at hrun
      simp only [List.cons_append] at hrun
      rw [hrun]
      simp only
      rw [← List.cons_append, parseFraction_point neg _ r R1 _ hR (hexp _ rest),
        parseExponent_renderExp _ _ _ _ _ _ h.notDigit]
      simp only [List.length_cons] at hv ⊢
      rw [hv]
      simp

/-- The text of a number reads back as the number. -/
theorem parseNumber_render (neg : Bool) (m : Nat) (e : Int) (rest : List Char)
    (h : EndsToken rest) :
    parseNumber (renderNum neg m e ++ rest) = .ok (.num neg m e, rest) := by
  rw [renderNum_eq, List.append_assoc]
  by_cases he : e = 0
  · subst he
    simp only [↓reduceIte]
    exact parseNumber_int neg m rest h
  · simp only [he, ↓reduceIte]
    by_cases hf : e < 0 ∧ 10 ^ e.natAbs ≤ m * 1000000
    · simp only [hf, and_self, ↓reduceIte]
      have hm : 0 < m := by
        rcases Nat.eq_zero_or_pos m with h0 | h0
        · have := hf.2
          rw [h0] at this
          have hp : 0 < 10 ^ e.natAbs := Nat.pow_pos (by decide)
          omega
        · exact h0
      have hk : 0 < e.natAbs := by omega
      have := parseNumber_fixed neg m e.natAbs hk hm rest h
      have he2 : -((e.natAbs : Nat) : Int) = e := by omega
      rw [he2] at this
      exact this
    · simp only [hf, ↓reduceIte]
      exact parseNumber_sci neg m e rest h

/-- The text of a number starts with a minus sign or a digit. -/
theorem renderNum_head (neg : Bool) (m : Nat) (e : Int) :
    ∃ c cs, renderNum neg m e = c :: cs ∧ (c = '-' ∨ c.isDigit = true) := by
  obtain ⟨hall, -, c, R, e1, -, -⟩ := toDigits_digits m
  have hc : c.isDigit = true := hall c (by rw [e1]; exact List.mem_cons_self _ _)
  have hbody : ∃ d ds, (if e = 0 then Nat.toDigits 10 m
       else if e < 0 ∧ 10 ^ e.natAbs ≤ m * 1000000 then renderFixed (Nat.toDigits 10 m) e.natAbs
       else renderSci (Nat.toDigits 10 m) e) = d :: ds ∧ d.isDigit = true := by
    split
    · exact ⟨c, R, e1, hc⟩
    · split
      · rw [e1]
        unfold renderFixed
        split
        · rename_i hlt
          have : 0 < (c :: R).length - e.natAbs := by omega
          obtain ⟨n, hn⟩ : ∃ n, (c :: R).length - e.natAbs = n + 1 := ⟨_, (Nat.succ_pred_eq_of_pos this).symm⟩
          rw [hn, List.take_succ_cons, List.cons_append]
          exact ⟨c, _, rfl, hc⟩
        · exact ⟨'0', _, rfl, by decide⟩
      · rw [e1]
        exact ⟨c, _, rfl, hc⟩
  obtain ⟨d, ds, hb, hd⟩ := hbody
  rw [renderNum_eq, hb]
  cases neg
  · exact ⟨d, ds, rfl, Or.inr hd⟩
  · exact ⟨'-', d :: ds, rfl, Or.inl rfl⟩

/-- A character that starts a number is none of the characters that start
another kind of value. -/
theorem numberStart_ne (c : Char) (h : c = '-' ∨ c.isDigit = true) :
    c ≠ '{' ∧ c ≠ '[' ∧ c ≠ '"' ∧ c ≠ 't' ∧ c ≠ 'f' ∧ c ≠ 'n' ∧ c ≠ ' ' ∧ c ≠ ']' ∧ c ≠ '}' := by
  rcases h with rfl | h
  · decide
  · refine ⟨?_, ?_, ?_, ?_, ?_, ?_, ?_, ?_, ?_⟩ <;> (rintro rfl; simp at h)

/-- A hexadecimal digit reads back as its value. -/
theorem hexVal_hexDigit (k : Nat) (hk : k < 16) : hexVal (hexDigit k) = some k := by
  interval_cases k <;> rfl

/-- The escape written for a character below `U+0040` reads back as the
character. -/
theorem getu4_low (c : Char) (h : c.toNat < 64) :
    getu4 '0' '0' (hexDigit (c.toNat / 16)) (hexDigit (c.toNat % 16)) = some c.toNat := by
  have h1 : hexVal '0' = some 0 := rfl
  rw [getu4, h1, hexVal_hexDigit _ (by omega), hexVal_hexDigit _ (Nat.mod_lt _ (by decide))]
  simp only [Option.some.injEq]
  omega

/-- One character of a string, as written, reads back as that character. -/
theorem parseStringBody_renderChar (c : Char) (fuel : Nat) (tail acc : List Char) :
    parseStringBody (fuel + 1) (renderChar c ++ tail) acc =
      parseStringBody fuel tail (c :: acc) := by
  unfold renderChar
  by_cases h1 : c = '"'
  · subst h1
    rfl
  by_cases h2 : c = '\\'
  · subst h2
    rfl
  by_cases h3 : c = '\n'
  · subst h3
    rfl
  by_cases h4 : c = '\r'
  · subst h4
    rfl
  by_cases h5 : c = '\t'
  · subst h5
    rfl
  simp only [h1, h2, h3, h4, h5, ↓reduceIte]
  by_cases h6 : c.toNat < 0x20 ∨ c = '<' ∨ c = '>' ∨ c = '&'
  · have hlt : c.toNat < 64 := by
      rcases h6 with h | rfl | rfl | rfl
      · omega
      · decide
      · decide
      · decide
    simp only [h6, ↓reduceIte, List.cons_append, List.nil_append]
    rw [parseStringBody]
    have e1 : ('\\' : Char) ≠ '"' := by decide
    have e2 : ('u' : Char) = 'u' := rfl
    simp only [e1, ↓reduceIte, getu4_low c hlt]
    have hs : ¬(0xD800 ≤ c.toNat ∧ c.toNat < 0xE000) := by omega
    simp only [hs, ↓reduceIte, Char.ofNat_toNat]
  simp only [h6, ↓reduceIte]
  by_cases h7 : c.toNat = 0x2028
  · have hc : c = Char.ofNat 0x2028 := by rw [← h7, Char.ofNat_toNat]
    subst hc
    rfl
  by_cases h8 : c.toNat = 0x2029
  · have hc : c = Char.ofNat 0x2029 := by rw [← h8, Char.ofNat_toNat]
    subst hc
    rfl
  simp only [h7, h8, ↓reduceIte, List.singleton_append]
  have hge : ¬c.toNat < 0x20 := fun h => h6 (Or.inl h)
  simp only [parseStringBody, h1, h2, ↓reduceIte, hge]

/-- The text of a string, after its opening quote, reads back as the string. -/
theorem parseStringBody_render (cs : List Char) :
    ∀ (fuel : Nat) (rest acc : List Char), cs.length < fuel →
      parseStringBody fuel (cs.flatMap renderChar ++ '"' :: rest) acc =
        .ok (String.mk (acc.reverse ++ cs), rest) := by
  induction cs with
  | nil =>
    intro fuel rest acc h
    obtain ⟨f, rfl⟩ : ∃ f, fuel = f + 1 := ⟨fuel - 1, by simp at h; omega⟩
    simp [parseStringBody]
  | cons c cs ih =>
    intro fuel rest acc h
    obtain ⟨f, rfl⟩ : ∃ f, fuel = f + 1 := ⟨fuel - 1, by simp at h; omega⟩
    rw [List.flatMap_cons, List.append_assoc, parseStringBody_renderChar,
      ih f rest (c :: acc) (by simp at h; omega)]
    simp

/-- White space is skipped only at a white space character. -/
theorem skipSpace_cons (c : Char) (cs : List Char) (h : isSpace c = false) :
    skipSpace (c :: cs) = c :: cs := by
  simp [skipSpace, h]

/-- Each character of a string is written with at least one character. -/
theorem length_flatMap_renderChar (cs : List Char) :
    cs.length ≤ (cs.flatMap renderChar).length := by
  induction cs with
  | nil => simp
  | cons c cs ih =>
    have h1 : 1 ≤ (renderChar c).length := by
      unfold renderChar
      split_ifs <;> simp
    simp only [List.flatMap_cons, List.length_append, List.length_cons]
    omega

/-- The text of a string reads back as the string. -/
theorem parseString_render (s : String) (rest : List Char) :
    ∃ body, renderString s ++ rest = '"' :: body ∧
      parseStringBody (body.length + 1) body [] = .ok (s, rest) := by
  refine ⟨s.data.flatMap renderChar ++ '"' :: rest, by simp [renderString], ?_⟩
  rw [parseStringBody_render s.data _ rest [] ?_]
  · simp
  · have := length_flatMap_renderChar s.data
    simp only [List.length_append, List.length_cons]
    omega

/-- The text of a value starts with a character that is not white space and
closes no array or object. -/
theorem renderValue_head (j : Json) :
    ∃ c cs, renderValue j = c :: cs ∧ isSpace c = false ∧ c ≠ ']' ∧ c ≠ '}' := by
  cases j with
  | null => exact ⟨'n', _, rfl, by decide, by decide, by decide⟩
  | bool b => cases b
              · exact ⟨'f', _, rfl, by decide, by decide, by decide⟩
              · exact ⟨'t', _, rfl, by decide, by decide, by decide⟩
  | num neg m e =>
    obtain ⟨c, cs, h1, h2⟩ := renderNum_head neg m e
    have h3 := numberStart_ne c h2
    refine ⟨c, cs, h1, ?_, h3.2.2.2.2.2.2.2.1, h3.2.2.2.2.2.2.2.2⟩
    rcases h2 with rfl | h2
    · decide
    · simp only [isSpace, Bool.or_eq_false_iff, decide_eq_false_iff_not]
      refine ⟨⟨⟨?_, ?_⟩, ?_⟩, ?_⟩ <;>
        (intro hc
         have : c = Char.ofNat c.toNat := (Char.ofNat_toNat c).symm
         rw [hc] at this
         subst this
         simp at h2)
  | str s => exact ⟨'"', _, rfl, by decide, by decide, by decide⟩
  | arr xs => cases xs
              · exact ⟨'[', _, rfl, by decide, by decide, by decide⟩
              · exact ⟨'[', _, rfl, by decide, by decide, by decide⟩
  | obj ms =>
    cases ms with
    | nil => exact ⟨'{', _, rfl, by decide, by decide, by decide⟩
    | cons kv ms =>
      obtain ⟨k, v⟩ := kv
      exact ⟨'{', _, rfl, by decide, by decide, by decide⟩

/-- Text that starts with a comma ends the token before it. -/
theorem endsToken_of_head (c : Char) (cs : List Char)
    (h : c.isDigit = false ∧ c ≠ '.' ∧ c ≠ 'e' ∧ c ≠ 'E') : EndsToken (c :: cs) := by
  intro x hx
  simp only [List.head?_cons, Option.mem_def, Option.some.injEq] at hx
  subst hx
  exact h

/-- The text after an element of an array ends the token before it. -/
theorem endsToken_renderElems (xs : List Json) (rest : List Char) :
    EndsToken (renderElems xs ++ rest) := by
  cases xs with
  | nil => exact endsToken_of_head ']' _ (by decide)
  | cons x xs => exact endsToken_of_head ',' _ (by decide)

/-- The text after a member of an object ends the token before it. -/
theorem endsToken_renderMembers (ms : List (String × Json)) (rest : List Char) :
    EndsToken (renderMembers ms ++ rest) := by
  cases ms with
  | nil => exact endsToken_of_head '}' _ (by decide)
  | cons kv ms =>
    obtain ⟨k, v⟩ := kv
    exact endsToken_of_head ',' _ (by decide)

/-- A literal at the start of the input reads as its value. -/
theorem parseLiteral_append (word : List Char) (v : Json) (rest : List Char) :
    parseLiteral word v (word ++ rest) = .ok (v, rest) := by
  have h1 : word.isPrefixOf (word ++ rest) = true := by
    rw [List.isPrefixOf_iff_prefix]
    exact List.prefix_append _ _
  simp [parseLiteral, h1]

/-- The text `null` reads back. -/
theorem parseValue_null (f : Nat) (rest : List Char) :
    parseValue (f + 1) (renderValue .null ++ rest) = .ok (.null, rest) := by
  show parseValue (f + 1) ('n' :: 'u' :: 'l' :: 'l' :: rest) = _
  have e1 : ('n' : Char) ≠ '{' := by decide
  have e2 : ('n' : Char) ≠ '[' := by decide
  have e3 : ('n' : Char) ≠ '"' := by decide
  have e4 : ('n' : Char) ≠ 't' := by decide
  have e5 : ('n' : Char) ≠ 'f' := by decide
  simp only [parseValue, e1, e2, e3, e4, e5, ↓reduceIte]
  exact parseLiteral_append ['n', 'u', 'l', 'l'] .null rest

/-- The text `true` reads back. -/
theorem parseValue_true (f : Nat) (rest : List Char) :
    parseValue (f + 1) (renderValue (.bool true) ++ rest) = .ok (.bool true, rest) := by
  show parseValue (f + 1) ('t' :: 'r' :: 'u' :: 'e' :: rest) = _
  have e1 : ('t' : Char) ≠ '{' := by decide
  have e2 : ('t' : Char) ≠ '[' := by decide
  have e3 : ('t' : Char) ≠ '"' := by decide
  simp only [parseValue, e1, e2, e3, ↓reduceIte]
  exact parseLiteral_append ['t', 'r', 'u', 'e'] (.bool true) rest

/-- The text `false` reads back. -/
theorem parseValue_false (f : Nat) (rest : List Char) :
    parseValue (f + 1) (renderValue (.bool false) ++ rest) = .ok (.bool false, rest) := by
  show parseValue (f + 1) ('f' :: 'a' :: 'l' :: 's' :: 'e' :: rest) = _
  have e1 : ('f' : Char) ≠ '{' := by decide
  have e2 : ('f' : Char) ≠ '[' := by decide
  have e3 : ('f' : Char) ≠ '"' := by decide
  have e4 : ('f' : Char) ≠ 't' := by decide
  simp only [parseValue, e1, e2, e3, e4, ↓reduceIte]
  exact parseLiteral_append ['f', 'a', 'l', 's', 'e'] (.bool false) rest

/-- The text after the elements of an array is not empty. -/
theorem renderElems_length_pos (xs : List Json) : 0 < (renderElems xs).length := by
  cases xs <;> simp [renderElems]

/-- The text after the members of an object is not empty. -/
theorem renderMembers_length_pos (ms : List (String × Json)) :
    0 < (renderMembers ms).length := by
  cases ms with
  | nil => simp [renderMembers]
  | cons kv ms =>
    obtain ⟨k, v⟩ := kv
    simp [renderMembers]

mutual
/-- The text of a value, followed by text that ends a token, reads back as the
value and leaves that text. -/
theorem parseValue_render : ∀ (j : Json) (fuel : Nat) (rest : List Char),
    2 * (renderValue j).length ≤ fuel → EndsToken rest →
    parseValue fuel (renderValue j ++ rest) = .ok (j, rest)
  | .null, fuel, rest, hf, _ => by
    obtain ⟨f, rfl⟩ : ∃ f, fuel = f + 1 := ⟨fuel - 1, by simp [renderValue] at hf; omega⟩
    exact parseValue_null f rest
  | .bool true, fuel, rest, hf, _ => by
    obtain ⟨f, rfl⟩ : ∃ f, fuel = f + 1 := ⟨fuel - 1, by simp [renderValue] at hf; omega⟩
    exact parseValue_true f rest
  | .bool false, fuel, rest, hf, _ => by
    obtain ⟨f, rfl⟩ : ∃ f, fuel = f + 1 := ⟨fuel - 1, by simp [renderValue] at hf; omega⟩
    exact parseValue_false f rest
  | .num neg m e, fuel, rest, hf, hr => by
    obtain ⟨c, cs, h1, h2⟩ := renderNum_head neg m e
    have h3 := numberStart_ne c h2
    have hlen : 0 < (renderValue (.num neg m e)).length := by
      show 0 < (renderNum neg m e).length
      rw [h1]
      simp
    obtain ⟨f, rfl⟩ : ∃ f, fuel = f + 1 := ⟨fuel - 1, by omega⟩
    have hp := parseNumber_render neg m e rest hr
    show parseValue (f + 1) (renderNum neg m e ++ rest) = _
    rw [h1] at hp ⊢
    simp only [List.cons_append, parseValue, h3.1, h3.2.1, h3.2.2.1, h3.2.2.2.1, h3.2.2.2.2.1,
      h3.2.2.2.2.2.1, ↓reduceIte]
    have hc : (c = '-' ∨ c.isDigit = true) := h2
    simp only [hc, ↓reduceIte]
    exact hp
  | .str s, fuel, rest, hf, _ => by
    obtain ⟨f, rfl⟩ : ∃ f, fuel = f + 1 := ⟨fuel - 1, by simp [renderValue, renderString] at hf; omega⟩
    obtain ⟨body, hb, hp⟩ := parseString_render s rest
    show parseValue (f + 1) (renderString s ++ rest) = _
    rw [hb]
    have e1 : ('"' : Char) ≠ '{' := by decide
    have e2 : ('"' : Char) ≠ '[' := by decide
    simp only [parseValue, e1, e2, ↓reduceIte, hp]
  | .arr [], fuel, rest, hf, _ => by
    obtain ⟨f, rfl⟩ : ∃ f, fuel = f + 1 := ⟨fuel - 1, by simp [renderValue] at hf; omega⟩
    rfl
  | .arr (x :: xs), fuel, rest, hf, hr => by
    obtain ⟨f, rfl⟩ : ∃ f, fuel = f + 1 := ⟨fuel - 1, by simp [renderValue] at hf; omega⟩
    obtain ⟨c, cs, hx, hsp, hc1, -⟩ := renderValue_head x
    have hrec := parseElems_render (x :: xs) f rest (by simp)
      (by simp only [renderValue, List.length_cons, List.length_append] at hf
          simp only [renderElemsFrom, List.length_append]
          omega) hr
    have e1 : ('[' : Char) ≠ '{' := by decide
    show parseValue (f + 1) ('[' :: (renderValue x ++ renderElems xs) ++ rest) = _
    simp only [List.cons_append, List.append_assoc, parseValue, e1, ↓reduceIte]
    simp only [renderElemsFrom, List.append_assoc] at hrec
    rw [hx] at hrec ⊢
    simp only [List.cons_append, skipSpace_cons c _ hsp, hc1, ↓reduceIte]
    simp only [List.cons_append] at hrec
    rw [hrec]
  | .obj [], fuel, rest, hf, _ => by
    obtain ⟨f, rfl⟩ : ∃ f, fuel = f + 1 := ⟨fuel - 1, by simp [renderValue] at hf; omega⟩
    rfl
  | .obj ((k, v) :: ms), fuel, rest, hf, hr => by
    obtain ⟨f, rfl⟩ : ∃ f, fuel = f + 1 := ⟨fuel - 1, by simp [renderValue] at hf; omega⟩
    have hrec := parseMembers_render ((k, v) :: ms) f rest (by simp)
      (by simp only [renderValue, List.length_cons, List.length_append] at hf
          simp only [renderMembersFrom, List.length_append, List.length_cons]
          omega) hr
    show parseValue (f + 1) ('{' :: (renderString k ++ ':' :: (renderValue v ++ renderMembers ms))
      ++ rest) = _
    simp only [renderMembersFrom, List.append_assoc, List.cons_append] at hrec
    have hq : renderString k = '"' :: (k.data.flatMap renderChar ++ ['"']) := rfl
    rw [hq] at hrec ⊢
    have e1 : isSpace '"' = false := by decide
    have e2 : ('"' : Char) ≠ '}' := by decide
    simp only [List.cons_append, List.append_assoc, parseValue, ↓reduceIte,
      skipSpace_cons '"' _ e1, e2]
    simp only [List.cons_append, List.append_assoc] at hrec
    rw [hrec]
/-- The text of the elements of an array, after its opening bracket, reads back
as the elements. -/
theorem parseElems_render : ∀ (l : List Json) (fuel : Nat) (rest : List Char), l ≠ [] →
    2 * (renderElemsFrom l).length ≤ fuel → EndsToken rest →
    parseElems fuel (renderElemsFrom l ++ rest) = .ok (l, rest)
  | [], _, _, hne, _, _ => absurd rfl hne
  | x :: xs, fuel, rest, _, hf, hr => by
    obtain ⟨c, cs, hx, -⟩ := renderValue_head x
    have hlen : 0 < (renderValue x).length := by rw [hx]; simp
    have hlen2 := renderElems_length_pos xs
    simp only [renderElemsFrom, List.length_append] at hf
    obtain ⟨f, rfl⟩ : ∃ f, fuel = f + 1 := ⟨fuel - 1, by omega⟩
    have hv := parseValue_render x f (renderElems xs ++ rest) (by omega)
      (endsToken_renderElems xs rest)
    simp only [renderElemsFrom, List.append_assoc, parseElems, hv]
    cases xs with
    | nil =>
      have e1 : isSpace ']' = false := by decide
      simp only [renderElems, List.cons_append, List.nil_append, skipSpace_cons ']' _ e1,
        ↓reduceIte]
    | cons y ys =>
      obtain ⟨d, ds, hy, hsp, -⟩ := renderValue_head y
      have hrec := parseElems_render (y :: ys) f rest (by simp)
        (by simp only [renderElems, List.length_cons, List.length_append] at hf
            simp only [renderElemsFrom, List.length_append]
            omega) hr
      have e1 : isSpace ',' = false := by decide
      have e2 : (',' : Char) ≠ ']' := by decide
      simp only [renderElemsFrom, List.append_assoc] at hrec
      rw [hy] at hrec
      simp only [renderElems, hy, List.cons_append, List.append_assoc, skipSpace_cons ',' _ e1,
        e2, ↓reduceIte, skipSpace_cons d _ hsp]
      simp only [List.cons_append] at hrec
      rw [hrec]
/-- The text of the members of an object, after its opening brace, reads back
as the members. -/
theorem parseMembers_render : ∀ (l : List (String × Json)) (fuel : Nat) (rest : List Char),
    l ≠ [] → 2 * (renderMembersFrom l).length ≤ fuel → EndsToken rest →
    parseMembers fuel (renderMembersFrom l ++ rest) = .ok (l, rest)
  | [], _, _, hne, _, _ => absurd rfl hne
  | (k, v) :: ms, fuel, rest, _, hf, hr => by
    obtain ⟨c, cs, hx, hsp, -⟩ := renderValue_head v
    have hlen : 0 < (renderValue v).length := by rw [hx]; simp
    have hlen2 := renderMembers_length_pos ms
    simp only [renderMembersFrom, List.length_append, List.length_cons] at hf
    obtain ⟨f, rfl⟩ : ∃ f, fuel = f + 1 := ⟨fuel - 1, by omega⟩
    have hv := parseValue_render v f (renderMembers ms ++ rest) (by omega)
      (endsToken_renderMembers ms rest)
    obtain ⟨body, hb, hp⟩ :=
      parseString_render k (':' :: (renderValue v ++ (renderMembers ms ++ rest)))
    have e0 : isSpace ':' = false := by decide
    simp only [renderMembersFrom, List.append_assoc, List.cons_append]
    rw [hb]
    simp only [parseMembers, ↓reduceIte, hp, skipSpace_cons ':' _ e0]
    rw [hx] at hv ⊢
    simp only [List.cons_append, skipSpace_cons c _ hsp] at hv ⊢
    rw [hv]
    cases ms with
    | nil =>
      have e1 : isSpace '}' = false := by decide
      simp only [renderMembers, List.cons_append, List.nil_append, skipSpace_cons '}' _ e1,
        ↓reduceIte]
    | cons kv ms1 =>
      obtain ⟨k1, v1⟩ := kv
      have hrec := parseMembers_render ((k1, v1) :: ms1) f rest (by simp)
        (by simp only [renderMembers, List.length_cons, List.length_append] at hf
            simp only [renderMembersFrom, List.length_append, List.length_cons]
            omega) hr
      have e1 : isSpace ',' = false := by decide
      have e2 : (',' : Char) ≠ '}' := by decide
      have e3 : isSpace '"' = false := by decide
      have hq : renderString k1 = '"' :: (k1.data.flatMap renderChar ++ ['"']) := rfl
      simp only [renderMembersFrom, List.append_assoc, List.cons_append] at hrec
      rw [hq] at hrec
      simp only [renderMembers, hq, List.cons_append, List.append_assoc,
        skipSpace_cons ',' _ e1, e2, ↓reduceIte, skipSpace_cons '"' _ e3]
      simp only [List.cons_append, List.append_assoc] at hrec
      rw [hrec]
end

/-- Text round trip of `encoding/json`: the text written for a JSON value,
followed by text `rest` that ends a token, decodes to that value and leaves
`rest`. -/
theorem parse_render_append (j : Json) (rest : String) (h : EndsToken rest.data) :
    Json.parse (j.render ++ rest) = .ok (j, rest) := by
  obtain ⟨c, cs, hx, hsp, -⟩ := renderValue_head j
  have hl : (j.render ++ rest).length = (renderValue j).length + rest.data.length := by
    show (String.mk (renderValue j) ++ rest).data.length = _
    rw [String.data_append, List.length_append]
  have hv := parseValue_render j (2 * (j.render ++ rest).length + 4) rest.data
    (by rw [hl]; omega) h
  unfold Json.parse
  simp only [Json.render, String.data_append] at hv ⊢
  rw [hx] at hv ⊢
  simp only [List.cons_append, skipSpace_cons c _ hsp] at hv ⊢
  rw [hv]

/-- Text round trip of `encoding/json`: the text written for a JSON value
decodes to that value, and so does the text followed by the newline that the
encoder appends. -/
theorem parse_render (j : Json) :
    Json.parse j.render = .ok (j, "") ∧ Json.parse (j.render ++ "\n") = .ok (j, "\n") := by
  constructor
  · have := parse_render_append j "" (by intro c hc; simp at hc)
    simpa using this
  · exact parse_render_append j "\n" (endsToken_of_head '\n' [] (by decide))

/-! ### Floating point numbers -/

/-- Rounding depends only on the ratio of numerator and denominator. -/
theorem roundFloat_scale (c N D : Nat) (hc : 0 < c) :
    roundFloat (c * N) (c * D) = roundFloat N D := by
  unfold roundFloat
  have h1 : c * N / (c * D) = N / D := Nat.mul_div_mul_left N D hc
  simp only [h1]
  generalize shiftCount (N / D) (N / D) = i
  have h2 : c * D * 2 ^ i = c * (D * 2 ^ i) := Nat.mul_assoc _ _ _
  have h3 : c * N / (c * (D * 2 ^ i)) = N / (D * 2 ^ i) := Nat.mul_div_mul_left _ _ hc
  have h4 : c * N % (c * (D * 2 ^ i)) = c * (N % (D * 2 ^ i)) := Nat.mul_mod_mul_left _ _ _
  simp only [h2, h3, h4]
  generalize D * 2 ^ i = den
  generalize N % den = r
  have h5 : (c * den < 2 * (c * r)) ↔ (den < 2 * r) := by
    rw [show 2 * (c * r) = c * (2 * r) by ring]
    exact Nat.mul_lt_mul_left hc
  have h6 : (c * den = 2 * (c * r)) ↔ (den = 2 * r) := by
    rw [show 2 * (c * r) = c * (2 * r) by ring]
    exact Nat.mul_right_inj (by omega)
  simp only [h5, h6]

/-- Halving `M * 2 ^ i` comes below `2 ^ 53` after `i` steps, when `M` has 53
binary digits. -/
theorem shiftCount_exact (M : Nat) (hM : M < 9007199254740992) (hM2 : 4503599627370496 ≤ M) :
    ∀ (i fuel : Nat), i ≤ fuel → shiftCount fuel (M * 2 ^ i) = i := by
  intro i
  induction i with
  | zero =>
    intro fuel _
    cases fuel with
    | zero => rfl
    | succ f => simp [shiftCount, hM]
  | succ i ih =>
    intro fuel hf
    obtain ⟨f, rfl⟩ : ∃ f, fuel = f + 1 := ⟨fuel - 1, by omega⟩
    have hp : 0 < 2 ^ i := Nat.pow_pos (by decide)
    have hge : ¬ M * 2 ^ (i + 1) < 9007199254740992 := by
      rw [pow_succ]
      have : 4503599627370496 * (1 * 2) ≤ M * (2 ^ i * 2) :=
        Nat.mul_le_mul hM2 (Nat.mul_le_mul_right 2 hp)
      omega
    have hhalf : M * 2 ^ (i + 1) / 2 = M * 2 ^ i := by
      rw [pow_succ, ← Nat.mul_assoc]
      exact Nat.mul_div_cancel _ (by decide)
    simp only [shiftCount, hge, ↓reduceIte, hhalf]
    rw [ih f (by omega)]

/-- A number below `2 ^ 53` is not halved. -/
theorem shiftCount_small (Q fuel : Nat) (hQ : Q < 9007199254740992) : shiftCount fuel Q = 0 := by
  cases fuel with
  | zero => rfl
  | succ f => simp [shiftCount, hQ]

/-- A number that is a float is rounded to itself. -/
theorem roundFloat_exact (M i : Nat) (hM : M < 9007199254740992)
    (h0 : M < 4503599627370496 → i = 0) :
    roundFloat (M * 2 ^ i) 1 = (M, i) := by
  have hlog : shiftCount (M * 2 ^ i / 1) (M * 2 ^ i / 1) = i := by
    rw [Nat.div_one]
    by_cases hs : M < 4503599627370496
    · rw [h0 hs, pow_zero, Nat.mul_one]
      exact shiftCount_small _ _ hM
    · have hp : i < 2 ^ i := Nat.lt_two_pow i
      have hpos : 0 < M := by omega
      exact shiftCount_exact M hM (by omega) i _
        (le_trans (Nat.le_of_lt hp) (Nat.le_mul_of_pos_left _ hpos))
  unfold roundFloat
  simp only [hlog, Nat.one_mul]
  have hp : 0 < 2 ^ i := Nat.pow_pos (by decide)
  have hq : M * 2 ^ i / 2 ^ i = M := Nat.mul_div_cancel _ hp
  have hr : M * 2 ^ i % 2 ^ i = 0 := Nat.mul_mod_left _ _
  simp only [hq, hr, Nat.mul_zero, Nat.not_lt_zero, false_or]
  have hne : ¬ (2 ^ i = 0) := by omega
  simp only [hne, false_and, ↓reduceIte]
  have hM2 : ¬ M = 9007199254740992 := by omega
  simp only [hM2, ↓reduceIte]

/-- A field of a float is the field made from its value. -/
theorem Fin.ofNat_val_eq {n : Nat} (a : Fin (n + 1)) : Fin.ofNat a.val = a := by
  apply Fin.ext
  show a.val % (n + 1) = a.val
  exact Nat.mod_eq_of_lt a.isLt

/-- The unit as a product of two powers of two. -/
theorem floatUnit_split (i j : Nat) (hij : i + j = 1074) : floatUnit = 2 ^ i * 2 ^ j := by
  unfold floatUnit
  rw [← pow_add, hij]

/-- The exact decimal `M * 5 ^ j / 10 ^ j` of `M * 2 ^ i / floatUnit`, where
`i + j = 1074`, is rounded as `M * 2 ^ i` is. -/
theorem roundFloat_fraction (M i j : Nat) (hij : i + j = 1074) :
    roundFloat (M * 5 ^ j * 10 ^ (-(j : Int)).toNat * floatUnit) (10 ^ (-(-(j : Int))).toNat) =
      roundFloat (M * 2 ^ i) 1 := by
  have e1 : (-(j : Int)).toNat = 0 := by omega
  have e2 : (-(-(j : Int))).toNat = j := by omega
  rw [e1, e2, pow_zero, Nat.mul_one, floatUnit_split i j hij]
  have e3 : M * 5 ^ j * (2 ^ i * 2 ^ j) = 10 ^ j * (M * 2 ^ i) := by
    rw [show (10 : Nat) = 5 * 2 by norm_num, mul_pow]
    ring
  rw [e3]
  have := roundFloat_scale (10 ^ j) (M * 2 ^ i) 1 (Nat.pow_pos (by decide))
  rw [Nat.mul_one] at this
  exact this

/-- The exact decimal `M * 2 ^ (i - 1074)` of an integral float is rounded as
`M * 2 ^ i` is. -/
theorem roundFloat_integer (M i : Nat) (hi : 1074 ≤ i) :
    roundFloat (M * 2 ^ (i - 1074) * 10 ^ (-((0 : Nat) : Int)).toNat * floatUnit)
        (10 ^ (-(-((0 : Nat) : Int))).toNat) =
      roundFloat (M * 2 ^ i) 1 := by
  have e1 : (-((0 : Nat) : Int)).toNat = 0 := by omega
  have e2 : (-(-((0 : Nat) : Int))).toNat = 0 := by omega
  rw [e1, e2, pow_zero, Nat.mul_one]
  have e3 : M * 2 ^ (i - 1074) * floatUnit = M * 2 ^ i := by
    unfold floatUnit
    rw [Nat.mul_assoc, ← pow_add, Nat.sub_add_cancel hi]
  rw [e3]

/-- The exact decimal of a finite float reads back as the float. -/
theorem ParseFloat_decimal (x : Float64) (hx : x.isFinite = true) :
    ParseFloat x.sign x.decimal.1 (-(x.decimal.2 : Int)) = some x := by
  obtain ⟨s, ex, fr⟩ := x
  have hex : ex.val ≠ 2047 := by simpa [Float64.isFinite] using hx
  have hex2 := ex.isLt
  have hfr := fr.isLt
  have hexact := roundFloat_exact (Float64.mant ⟨s, ex, fr⟩) (Float64.shift ⟨s, ex, fr⟩)
    (by simp only [Float64.mant]; split <;> omega)
    (by simp only [Float64.mant, Float64.shift]; split <;> intro h <;> omega)
  have hround : roundFloat
      ((Float64.decimal ⟨s, ex, fr⟩).1 *
        10 ^ (-((Float64.decimal ⟨s, ex, fr⟩).2 : Int)).toNat * floatUnit)
      (10 ^ (-(-((Float64.decimal ⟨s, ex, fr⟩).2 : Int))).toNat) =
      ((Float64.mant ⟨s, ex, fr⟩), (Float64.shift ⟨s, ex, fr⟩)) := by
    rw [← hexact]
    unfold Float64.decimal
    split
    · rename_i h
      exact roundFloat_integer _ _ h
    · rename_i h
      exact roundFloat_fraction _ _ _ (by omega)
  unfold ParseFloat
  rw [hround]
  simp only [Float64.mant, Float64.shift]
  have hsh : ¬ 2045 < ex.val - 1 := by omega
  simp only [hsh, ↓reduceIte]
  by_cases h0 : ex.val = 0
  · have hex0 : ex = 0 := Fin.ext h0
    simp only [h0, ↓reduceIte, hfr, Fin.ofNat_val_eq]
    rw [hex0]
  · have h1 : ¬ (4503599627370496 + fr.val < 4503599627370496) := by omega
    have h2 : ex.val - 1 + 1 = ex.val := by omega
    simp only [h0, ↓reduceIte, h1, h2, Nat.add_sub_cancel_left, Fin.ofNat_val_eq]

/-- Reading a number does not depend on how its value is split between digits
and exponent. -/
theorem ParseFloat_scale (neg : Bool) (m j : Nat) (e : Int) :
    ParseFloat neg (m * 10 ^ j) (e - (j : Int)) = ParseFloat neg m e := by
  have hN : m * 10 ^ j * 10 ^ (e - (j : Int)).toNat * floatUnit =
      10 ^ (j - e.toNat) * (m * 10 ^ e.toNat * floatUnit) := by
    have : j + (e - (j : Int)).toNat = (j - e.toNat) + e.toNat := by omega
    calc m * 10 ^ j * 10 ^ (e - (j : Int)).toNat * floatUnit
        = m * 10 ^ (j + (e - (j : Int)).toNat) * floatUnit := by rw [pow_add]; ring
      _ = m * 10 ^ ((j - e.toNat) + e.toNat) * floatUnit := by rw [this]
      _ = 10 ^ (j - e.toNat) * (m * 10 ^ e.toNat * floatUnit) := by rw [pow_add]; ring
  have hD : 10 ^ (-(e - (j : Int))).toNat = 10 ^ (j - e.toNat) * 10 ^ (-e).toNat := by
    rw [← pow_add]
    have : (-(e - (j : Int))).toNat = j - e.toNat + (-e).toNat := by omega
    rw [this]
  unfold ParseFloat
  rw [hN, hD, roundFloat_scale _ _ _ (Nat.pow_pos (by decide))]

/-- The decimal that `shortest` chooses reads back as the float. -/
theorem shortest_reads (x : Float64) (m k : Nat)
    (hm : ParseFloat x.sign m (-(k : Int)) = some x) :
    ∀ j, ParseFloat x.sign (shortest x m k j) (-(k : Int)) = some x := by
  intro j
  induction j with
  | zero => exact hm
  | succ j ih =>
    rw [shortest]
    split
    · rename_i h
      rw [Bool.and_eq_true] at h
      split
      · exact of_decide_eq_true h.1
      · exact of_decide_eq_true h.2
    · split
      · rename_i h
        exact of_decide_eq_true h
      · split
        · rename_i h
          exact of_decide_eq_true h
        · exact ih

/-- Removing trailing zeros keeps the number. -/
theorem stripZeros_spec (fuel : Nat) :
    ∀ (c z d z1 : Nat), stripZeros fuel c z = (d, z1) → z ≤ z1 ∧ d * 10 ^ (z1 - z) = c := by
  induction fuel with
  | zero =>
    intro c z d z1 h
    simp only [stripZeros, Prod.mk.injEq] at h
    obtain ⟨rfl, rfl⟩ := h
    simp
  | succ fuel ih =>
    intro c z d z1 h
    unfold stripZeros at h
    split at h
    · rename_i hc
      obtain ⟨h1, h2⟩ := ih _ _ _ _ h
      refine ⟨by omega, ?_⟩
      have e : z1 - z = (z1 - (z + 1)) + 1 := by omega
      rw [e, pow_succ, ← Nat.mul_assoc, h2]
      have := Nat.div_add_mod c 10
      omega
    · simp only [Prod.mk.injEq] at h
      obtain ⟨rfl, rfl⟩ := h
      simp

/-- The number written for a finite float has the sign of the float and reads
back as the float. -/
theorem floatJson_reads (x : Float64) (hx : x.isFinite = true) :
    ∃ d q, floatJson x = .num x.sign d q ∧ ParseFloat x.sign d q = some x := by
  have hdec := ParseFloat_decimal x hx
  unfold floatJson
  generalize x.decimal = mk at hdec ⊢
  obtain ⟨m, k⟩ := mk
  simp only at hdec ⊢
  have hc := shortest_reads x m k hdec ((Nat.toDigits 10 m).length - 1)
  generalize shortest x m k ((Nat.toDigits 10 m).length - 1) = c at hc ⊢
  split
  · rename_i h
    refine ⟨_, _, rfl, ?_⟩
    have h1 := ParseFloat_scale x.sign (c / 10 ^ k) k 0
    rw [Nat.div_mul_cancel (Nat.dvd_of_mod_eq_zero h.1),
      show (0 : Int) - (k : Int) = -(k : Int) by omega] at h1
    rw [← h1, hc]
  · generalize hs : stripZeros (Nat.toDigits 10 c).length c 0 = dz
    obtain ⟨d, z⟩ := dz
    obtain ⟨-, h2⟩ := stripZeros_spec _ _ _ _ _ hs
    refine ⟨_, _, rfl, ?_⟩
    have h1 := ParseFloat_scale x.sign d z ((z : Int) - (k : Int))
    rw [Nat.sub_zero] at h2
    rw [h2, show (z : Int) - (k : Int) - (z : Int) = -(k : Int) by omega] at h1
    rw [← h1, hc]

/-- The number 1000 as a float64. -/
theorem ParseFloat_1000 :
    ParseFloat false 1000 0 = some ⟨false, 1032, 4292493394837504⟩ := by decide!

/-- The number `2 ^ 53 + 1` is read as the float64 `2 ^ 53`. -/
theorem ParseFloat_2_53_1 :
    ParseFloat false 9007199254740993 0 = some ⟨false, 1076, 0⟩ := by decide!

/-- The number `1e400` is out of the range of a float64. -/
theorem ParseFloat_1e400 : ParseFloat false 1 400 = none := by decide!

/-! ### Fields wire adapter -/

/-- Keys of a map after an assignment. -/
theorem GoMap.mem_keys_set {α : Type} (m : GoMap α) (k k2 : String) (v : α) :
    k2 ∈ (GoMap.set m k v).map Prod.fst ↔ k2 = k ∨ k2 ∈ m.map Prod.fst := by
  induction m with
  | nil => simp [GoMap.set]
  | cons kv rest ih =>
    obtain ⟨k1, v1⟩ := kv
    by_cases h : k1 = k
    · subst h
      simp [GoMap.set]
    · simp only [GoMap.set, h, ↓reduceIte, List.map_cons, List.mem_cons, ih]
      tauto

/-- An assignment keeps the keys of a map free of repetitions. -/
theorem GoMap.nodup_keys_set {α : Type} (m : GoMap α) (k : String) (v : α)
    (h : (m.map Prod.fst).Nodup) : ((GoMap.set m k v).map Prod.fst).Nodup := by
  induction m with
  | nil => simp [GoMap.set]
  | cons kv rest ih =>
    obtain ⟨k1, v1⟩ := kv
    simp only [List.map_cons, List.nodup_cons] at h
    by_cases hk : k1 = k
    · subst hk
      simpa [GoMap.set] using h
    · simp only [GoMap.set, hk, ↓reduceIte, List.map_cons, List.nodup_cons]
      refine ⟨fun hmem => ?_, ih h.2⟩
      rcases (GoMap.mem_keys_set rest k k1 v).1 hmem with h1 | h1
      · exact hk h1
      · exact h.1 h1

/-- Assigning a key that the map does not have appends an entry. -/
theorem GoMap.set_of_not_mem {α : Type} (m : GoMap α) (k : String) (v : α)
    (h : k ∉ m.map Prod.fst) : GoMap.set m k v = m ++ [(k, v)] := by
  induction m with
  | nil => rfl
  | cons kv rest ih =>
    obtain ⟨k1, v1⟩ := kv
    simp only [List.map_cons, List.mem_cons, not_or] at h
    have hk : ¬k1 = k := fun e => h.1 e.symm
    simp [GoMap.set, hk, ih h.2]

/-- In a map without repeated keys, reading a key gives the value of its
entry. -/
theorem GoMap.get?_eq_some_of_mem {α : Type} (m : GoMap α) (k : String) (v : α)
    (h : (m.map Prod.fst).Nodup) (hm : (k, v) ∈ m) : GoMap.get? m k = some v := by
  induction m with
  | nil => simp at hm
  | cons kv rest ih =>
    obtain ⟨k1, v1⟩ := kv
    simp only [List.map_cons, List.nodup_cons] at h
    simp only [List.mem_cons, Prod.mk.injEq] at hm
    rcases hm with ⟨rfl, rfl⟩ | hm
    · simp [GoMap.get?]
    · have hk : ¬k1 = k := by
        intro e
        subst e
        exact h.1 (List.mem_map_of_mem Prod.fst hm)
      simp [GoMap.get?, hk, ih h.2 hm]

/-- The entry that a successful read comes from. -/
theorem GoMap.mem_of_get?_eq_some {α : Type} (m : GoMap α) (k : String) (v : α)
    (h : GoMap.get? m k = some v) : (k, v) ∈ m := by
  induction m with
  | nil => simp [GoMap.get?] at h
  | cons kv rest ih =>
    obtain ⟨k1, v1⟩ := kv
    by_cases hk : k1 = k
    · subst hk
      simp only [GoMap.get?, ↓reduceIte, Option.some.injEq] at h
      subst h
      exact List.mem_cons_self _ _
    · simp only [GoMap.get?, hk, ↓reduceIte] at h
      exact List.mem_cons_of_mem _ (ih h)


/-- Sorting the entries of a map rearranges them. -/
theorem GoMap.sorted_perm {α : Type} (m : GoMap α) : m.sorted.Perm m :=
  List.perm_insertionSort _ m

/-- Keys in strictly increasing order are sorted and without repetition. -/
theorem keysIncreasing_spec {α : Type} (l : GoMap α)
    (h : keysIncreasing (l.map Prod.fst) = true) :
    l.Sorted (fun a b => keyLE a.1.data b.1.data = true) ∧ (l.map Prod.fst).Nodup := by
  induction l with
  | nil => exact ⟨List.sorted_nil, List.nodup_nil⟩
  | cons kv rest ih =>
    simp only [List.map_cons, keysIncreasing, Bool.and_eq_true, List.all_eq_true, List.mem_map,
      bne_iff_ne, ne_eq, forall_exists_index, and_imp, forall_apply_eq_imp_iff₂] at h
    obtain ⟨h1, h2⟩ := h
    obtain ⟨i1, i2⟩ := ih h2
    refine ⟨List.sorted_cons.2 ⟨fun b hb => (h1 b hb).1, i1⟩, List.nodup_cons.2 ⟨?_, i2⟩⟩
    intro hmem
    obtain ⟨b, hb, e⟩ := List.mem_map.1 hmem
    exact (h1 b hb).2 e.symm

/-- A map given with its keys in increasing order is written in that order. -/
theorem GoMap.sorted_of_increasing {α : Type} (l : GoMap α)
    (h : keysIncreasing (l.map Prod.fst) = true) : GoMap.sorted l = l :=
  (keysIncreasing_spec l h).1.insertionSort_eq

/-- Storing entries with distinct new keys one by one appends them. -/
theorem GoMap.foldl_set_of_nodup {α : Type} (es : List (String × α)) :
    ∀ m : GoMap α, (∀ kv ∈ es, kv.1 ∉ m.map Prod.fst) → (es.map Prod.fst).Nodup →
      es.foldl (fun m kv => GoMap.set m kv.1 kv.2) m = m ++ es := by
  induction es with
  | nil => intro m _ _; simp
  | cons x rest ih =>
    intro m hm hnd
    simp only [List.map_cons, List.nodup_cons] at hnd
    rw [List.foldl_cons, GoMap.set_of_not_mem m _ _ (hm x (List.mem_cons_self _ _)),
      ih _ ?_ hnd.2]
    · simp
    · intro y hy
      simp only [List.map_append, List.map_cons, List.map_nil, List.mem_append,
        List.mem_singleton, not_or]
      refine ⟨hm y (List.mem_cons_of_mem _ hy), fun e => hnd.1 ?_⟩
      rw [← e]
      exact List.mem_map_of_mem Prod.fst hy

/-- A list of encoded members without an error is collected as it is. -/
theorem collectMembers_ok (jms : List (String × Json)) :
    collectMembers (jms.map (fun kv => (kv.1, Except.ok kv.2))) = .ok jms := by
  induction jms with
  | nil => rfl
  | cons kv rest ih =>
    obtain ⟨k, j⟩ := kv
    simp only [List.map_cons, collectMembers, ih]

/-- A number is stored into a struct field as a float64, or leaves the field
as it is. -/
theorem decodeInterfaceField_num (neg : Bool) (m : Nat) (e : Int) (cur : Value)
    (saved : Option Err) :
    decodeInterfaceField (.num neg m e) cur saved =
      match ParseFloat neg m e with
      | some x => (.float64 x, saved)
      | none => (cur, saved.orElse (fun _ => some (numberRangeError neg m e))) := rfl

/-- An array is stored into a struct field as into a new `interface{}`. -/
theorem decodeInterfaceField_arr (xs : List Json) (cur : Value) (saved : Option Err) :
    decodeInterfaceField (.arr xs) cur saved = valueInterface (.arr xs) saved := rfl

/-- An object is stored into a struct field as into a new `interface{}`. -/
theorem decodeInterfaceField_obj (ms : List (String × Json)) (cur : Value)
    (saved : Option Err) :
    decodeInterfaceField (.obj ms) cur saved = valueInterface (.obj ms) saved := rfl

mutual
/-- A value of a kind that the decoder produces is written without error, and
what is written decodes to it again, also as the value of a struct field. -/
theorem Value.marshal_decode : ∀ (v : Value), v.isJSON = true →
    ∃ j, v.marshal = .ok j ∧ (∀ saved, valueInterface j saved = (v, saved)) ∧
      ∀ cur saved, decodeInterfaceField j cur saved = (v, saved)
  | .nil, _ => ⟨.null, rfl, fun _ => rfl, fun _ _ => rfl⟩
  | .bool b, _ => ⟨.bool b, rfl, fun _ => rfl, fun _ _ => rfl⟩
  | .string s, _ => ⟨.str s, rfl, fun _ => rfl, fun _ _ => rfl⟩
  | .float64 x, h => by
    have hx : x.isFinite = true := by simpa [Value.isJSON] using h
    obtain ⟨d, q, hj, hp⟩ := floatJson_reads x hx
    refine ⟨.num x.sign d q, ?_, ?_, ?_⟩
    · simp only [Value.marshal, floatEncoder, hx, ↓reduceIte, hj]
    · intro saved
      simp only [valueInterface, hp]
    · intro cur saved
      rw [decodeInterfaceField_num, hp]
  | .slice xs, h => by
    have hxs : allJSON xs = true := by simpa [Value.isJSON] using h
    obtain ⟨js, h1, h2⟩ := marshalElems_decode xs hxs
    refine ⟨.arr js, ?_, ?_, ?_⟩
    · simp only [Value.marshal, h1]
    · intro saved
      simp only [valueInterface, h2]
    · intro cur saved
      rw [decodeInterfaceField_arr]
      simp only [valueInterface, h2]
  | .map ms, h => by
    have hms : keysIncreasing (ms.map Prod.fst) = true ∧ membersJSON ms = true := by
      simpa [Value.isJSON] using h
    obtain ⟨jms, h1, h2, h3⟩ := marshalMembers_decode ms hms.2
    have hk : keysIncreasing ((marshalMembers ms).map Prod.fst) = true := by
      rw [h1, List.map_map]
      have : (Prod.fst ∘ fun kv : String × Json => (kv.1, (Except.ok kv.2 : Except Err Json))) =
          Prod.fst := rfl
      rw [this, h2]
      exact hms.1
    have hfold : ms.foldl (fun m kv => GoMap.set m kv.1 kv.2) [] = ms := by
      simpa using GoMap.foldl_set_of_nodup ms [] (by simp) (keysIncreasing_spec ms hms.1).2
    refine ⟨.obj jms, ?_, ?_, ?_⟩
    · simp only [Value.marshal, GoMap.sorted_of_increasing _ hk]
      rw [h1, collectMembers_ok]
    · intro saved
      simp only [valueInterface, h3, hfold, GoMap.sorted_of_increasing _ hms.1]
    · intro cur saved
      rw [decodeInterfaceField_obj]
      simp only [valueInterface, h3, hfold, GoMap.sorted_of_increasing _ hms.1]
  | .other _ _, h => by simp [Value.isJSON] at h
/-- The elements of a slice are written without error and decode to the slice
again. -/
theorem marshalElems_decode : ∀ (xs : List Value), allJSON xs = true →
    ∃ js, collect (marshalElems xs) = .ok js ∧ ∀ saved, arrayInterface js saved = (xs, saved)
  | [], _ => ⟨[], rfl, fun _ => rfl⟩
  | x :: xs, h => by
    have hx : x.isJSON = true ∧ allJSON xs = true := by simpa [allJSON] using h
    obtain ⟨j, h1, h2, -⟩ := Value.marshal_decode x hx.1
    obtain ⟨js, h3, h4⟩ := marshalElems_decode xs hx.2
    refine ⟨j :: js, ?_, ?_⟩
    · simp only [marshalElems, h1, collect, h3]
    · intro saved
      simp only [arrayInterface, h2, h4]
/-- The values of the entries of a map are written without error and decode to
the entries again. -/
theorem marshalMembers_decode : ∀ (ms : List (String × Value)), membersJSON ms = true →
    ∃ jms : List (String × Json),
      marshalMembers ms = jms.map (fun kv => (kv.1, Except.ok kv.2)) ∧
      jms.map Prod.fst = ms.map Prod.fst ∧
      ∀ saved, objectInterface jms saved = (ms, saved)
  | [], _ => ⟨[], rfl, rfl, fun _ => rfl⟩
  | (k, v) :: ms, h => by
    have hx : v.isJSON = true ∧ membersJSON ms = true := by simpa [membersJSON] using h
    obtain ⟨j, h1, h2, -⟩ := Value.marshal_decode v hx.1
    obtain ⟨jms, h3, h4, h5⟩ := marshalMembers_decode ms hx.2
    refine ⟨(k, j) :: jms, ?_, ?_, ?_⟩
    · simp only [marshalMembers, h1, h3, List.map_cons]
    · simp only [List.map_cons, h4]
    · intro saved
      simp only [objectInterface, h2, h5]
end

/-- The map that `Fields.MarshalJSON` builds from the entries `f`, starting
from the map `m`. -/
theorem fieldMap_keys (f : Fields) :
    ∀ m : GoMap (Option Field),
      (m.map Prod.fst).Nodup →
      ((f.foldl (fun m field => GoMap.set m field.Name (some field)) m).map Prod.fst).Nodup ∧
      ∀ n, n ∈ (f.foldl (fun m field => GoMap.set m field.Name (some field)) m).map Prod.fst ↔
        n ∈ m.map Prod.fst ∨ ∃ x ∈ f, x.Name = n := by
  induction f with
  | nil => intro m h; simp [h]
  | cons x rest ih =>
    intro m h
    obtain ⟨i1, i2⟩ := ih (GoMap.set m x.Name (some x)) (GoMap.nodup_keys_set m _ _ h)
    refine ⟨i1, fun n => ?_⟩
    rw [List.foldl_cons, i2 n, GoMap.mem_keys_set]
    simp only [List.mem_cons, exists_eq_or_imp]
    constructor
    · rintro ((h1 | h1) | h1)
      · exact Or.inr (Or.inl h1.symm)
      · exact Or.inl h1
      · exact Or.inr (Or.inr h1)
    · rintro (h1 | h1 | h1)
      · exact Or.inl (Or.inr h1)
      · exact Or.inl (Or.inl h1.symm)
      · exact Or.inr h1

/-- Later entries with other names do not change what a name reads in the map
of `Fields.MarshalJSON`. -/
theorem fieldMap_get?_other (post : Fields) (n : String) (hpost : ∀ x ∈ post, x.Name ≠ n) :
    ∀ m : GoMap (Option Field),
      GoMap.get? (post.foldl (fun m field => GoMap.set m field.Name (some field)) m) n =
        GoMap.get? m n := by
  induction post with
  | nil => intro m; rfl
  | cons x rest ih =>
    intro m
    rw [List.foldl_cons, ih (fun y hy => hpost y (List.mem_cons_of_mem _ hy))]
    exact GoMap.get?_set_ne m _ _ _ (hpost x (List.mem_cons_self _ _))

/-- In the map of `Fields.MarshalJSON` a name reads the last entry of that
name. -/
theorem fieldMap_get?_last (pre post : Fields) (fld : Field)
    (hpost : ∀ x ∈ post, x.Name ≠ fld.Name) (m : GoMap (Option Field)) :
    GoMap.get?
        ((pre ++ fld :: post).foldl (fun m field => GoMap.set m field.Name (some field)) m)
        fld.Name = some (some fld) := by
  rw [List.foldl_append, List.foldl_cons, fieldMap_get?_other post fld.Name hpost]
  exact GoMap.get?_set_self _ _ _


/-- The last entry of a name: a list with an entry of the name `n` splits at
the last such entry. -/
theorem last_of_name (n : String) (F : Fields) (h : ∃ x ∈ F, x.Name = n) :
    ∃ (pre post : Fields) (fld : Field), F = pre ++ fld :: post ∧ fld.Name = n ∧
      ∀ x ∈ post, x.Name ≠ n := by
  induction F with
  | nil => simp at h
  | cons x rest ih =>
    by_cases hr : ∃ y ∈ rest, y.Name = n
    · obtain ⟨pre, post, fld, e, h1, h2⟩ := ih hr
      exact ⟨x :: pre, post, fld, by rw [e]; rfl, h1, h2⟩
    · obtain ⟨y, hy, hn⟩ := h
      rcases List.mem_cons.1 hy with rfl | hy
      · exact ⟨[], rest, y, rfl, hn, fun z hz e => hr ⟨z, hz, e⟩⟩
      · exact absurd ⟨y, hy, hn⟩ hr

/-- Every entry of the map of `Fields.MarshalJSON` points to the last entry of
the list with its key as name. -/
theorem fieldMap_entry (F : Fields) (k : String) (p : Option Field)
    (h : (k, p) ∈ F.foldl (fun m field => GoMap.set m field.Name (some field)) []) :
    ∃ (pre post : Fields) (fld : Field), F = pre ++ fld :: post ∧
      (∀ x ∈ post, x.Name ≠ fld.Name) ∧ k = fld.Name ∧ p = some fld := by
  obtain ⟨hnd, hkeys⟩ := fieldMap_keys F [] (by simp)
  have hk : k ∈ (F.foldl (fun m field => GoMap.set m field.Name (some field)) []).map
      Prod.fst := List.mem_map_of_mem Prod.fst h
  have hx := (hkeys k).1 hk
  simp only [List.map_nil, List.not_mem_nil, false_or] at hx
  obtain ⟨pre, post, fld, e, h1, h2⟩ := last_of_name k F hx
  subst h1
  refine ⟨pre, post, fld, e, h2, rfl, ?_⟩
  have hg := fieldMap_get?_last pre post fld h2 []
  rw [← e] at hg
  have hg2 := GoMap.get?_eq_some_of_mem _ _ _ hnd h
  rw [hg] at hg2
  exact (Option.some.inj hg2).symm

/-- Members that are all encoded are collected as they are. -/
theorem collectMembers_of_ok (L : List (String × Except Err Json))
    (h : ∀ kv ∈ L, ∃ j, kv.2 = .ok j) :
    ∃ jms : List (String × Json), collectMembers L = .ok jms ∧
      L = jms.map (fun kv => (kv.1, Except.ok kv.2)) := by
  induction L with
  | nil => exact ⟨[], rfl, rfl⟩
  | cons kv rest ih =>
    obtain ⟨k, r⟩ := kv
    obtain ⟨j, hj⟩ := h (k, r) (List.mem_cons_self _ _)
    simp only at hj
    subst hj
    obtain ⟨jms, h1, h2⟩ := ih (fun kv hkv => h kv (List.mem_cons_of_mem _ hkv))
    refine ⟨(k, j) :: jms, ?_, ?_⟩
    · simp only [collectMembers, h1]
    · simp only [List.map_cons, ← h2]

/-- With a member that is not encoded, collecting the members gives the error
of such a member. -/
theorem collectMembers_of_error (L : List (String × Except Err Json))
    (h : ∃ kv ∈ L, ∃ e, kv.2 = .error e) :
    ∃ kv ∈ L, ∃ e, kv.2 = .error e ∧ collectMembers L = .error e := by
  induction L with
  | nil => simp at h
  | cons kv rest ih =>
    obtain ⟨k, r⟩ := kv
    cases r with
    | error e => exact ⟨(k, .error e), List.mem_cons_self _ _, e, rfl, rfl⟩
    | ok j =>
      have hrest : ∃ kv ∈ rest, ∃ e, kv.2 = .error e := by
        obtain ⟨kv, hkv, e, he⟩ := h
        rcases List.mem_cons.1 hkv with rfl | hkv
        · simp at he
        · exact ⟨kv, hkv, e, he⟩
      obtain ⟨kv, hkv, e, he, hc⟩ := ih hrest
      refine ⟨kv, List.mem_cons_of_mem _ hkv, e, he, ?_⟩
      simp only [collectMembers, hc]

/-- Encoding of a field whose value is encoded as `j`. -/
theorem Field.toJson_of_ok (f : Field) (j : Json) (h : f.Value.marshal = .ok j) :
    f.toJson = .ok (.obj ((if f.Type_ = "" then [] else [("type", .str f.Type_)]) ++
      (if f.Value.isNil then [] else [("value", j)]))) := by
  unfold Field.toJson
  cases hn : f.Value.isNil <;> simp [h]

/-- Encoding of a field whose value is not encoded. -/
theorem Field.toJson_of_error (f : Field) (e : Err) (h : f.Value.marshal = .error e) :
    f.toJson = .error e := by
  unfold Field.toJson
  have hn : f.Value.isNil = false := by
    cases hv : f.Value <;> simp [hv, Value.marshal, Value.isNil] at h ⊢
  simp [h, hn]

/-- C4, for lists whose values `json.Marshal` can encode: `Fields.MarshalJSON`
returns a JSON object whose keys are without repetition and are exactly the
names occurring in `F`; the member of a name is built from the last entry of
`F` with that name: it has a `type` member iff the type of that entry is not
empty, a `value` member iff its value is not empty, that is, not the nil
interface, and no other member, so the name is never written inside it.  Only
the last entry of each name is encoded: when the value of one of them cannot be
encoded, `Fields.MarshalJSON` returns the error of encoding such a value.  The
two fields of the package example give two keys, each with a member holding
only `value`; a value that is an empty string, zero or `false` is not the nil
interface and is written. -/
theorem fields_marshal_object (F : Fields) :
    ((∀ (pre post : Fields) (fld : Field), F = pre ++ fld :: post →
        (∀ x ∈ post, x.Name ≠ fld.Name) → ∃ j, fld.Value.marshal = .ok j) →
      ∃ ms : List (String × Json),
        Fields.MarshalJSON F = .ok (.obj ms) ∧
        (ms.map Prod.fst).Nodup ∧
        (∀ n, n ∈ ms.map Prod.fst ↔ ∃ x ∈ F, x.Name = n) ∧
        (∀ (pre post : Fields) (fld : Field), F = pre ++ fld :: post →
          (∀ x ∈ post, x.Name ≠ fld.Name) →
          ∃ j, fld.Value.marshal = .ok j ∧
            (fld.Name,
              Json.obj ((if fld.Type_ = "" then [] else [("type", .str fld.Type_)]) ++
                        (if fld.Value.isNil then [] else [("value", j)]))) ∈ ms)) ∧
    ((∃ (pre post : Fields) (fld : Field) (err : Err), F = pre ++ fld :: post ∧
        (∀ x ∈ post, x.Name ≠ fld.Name) ∧ fld.Value.marshal = .error err) →
      ∃ (pre post : Fields) (fld : Field) (err : Err), F = pre ++ fld :: post ∧
        (∀ x ∈ post, x.Name ≠ fld.Name) ∧ fld.Value.marshal = .error err ∧
        Fields.MarshalJSON F = .error err) ∧
    Fields.MarshalJSON
        [{ Name := "MyField", Type_ := "", Value := .string "Hello, World!" },
         { Name := "MyOtherField", Type_ := "", Value := .int 1000 }] =
      .ok (.obj [("MyField", .obj [("value", .str "Hello, World!")]),
                 ("MyOtherField", .obj [("value", .num false 1000 0)])]) ∧
    Fields.MarshalJSON
        [{ Name := "a", Type_ := "", Value := .string "" },
         { Name := "b", Type_ := "INT64", Value := .int 0 },
         { Name := "c", Type_ := "", Value := .bool false },
         { Name := "d", Type_ := "", Value := .nil }] =
      .ok (.obj [("a", .obj [("value", .str "")]),
                 ("b", .obj [("type", .str "INT64"), ("value", .num false 0 0)]),
                 ("c", .obj [("value", .bool false)]),
                 ("d", .obj [])]) := by
  have hperm := GoMap.sorted_perm
    (F.foldl (fun m field => GoMap.set m field.Name (some field)) [])
  have hentry : ∀ kv ∈ GoMap.sorted
      (F.foldl (fun m field => GoMap.set m field.Name (some field)) []),
      ∃ (pre post : Fields) (fld : Field), F = pre ++ fld :: post ∧
        (∀ x ∈ post, x.Name ≠ fld.Name) ∧ kv.1 = fld.Name ∧ kv.2 = some fld := by
    intro kv hkv
    exact fieldMap_entry F kv.1 kv.2 (hperm.mem_iff.1 hkv)
  refine ⟨fun hV => ?_, fun hE => ?_, rfl, rfl⟩
  · have hall : ∀ kv ∈ (GoMap.sorted
        (F.foldl (fun m field => GoMap.set m field.Name (some field)) [])).map
        (fun kv => (kv.1, fieldPtrToJson kv.2)), ∃ j, kv.2 = .ok j := by
      intro kv hkv
      obtain ⟨kv0, hkv0, rfl⟩ := List.mem_map.1 hkv
      obtain ⟨pre, post, fld, e, hl, -, hp⟩ := hentry kv0 hkv0
      obtain ⟨j, hj⟩ := hV pre post fld e hl
      refine ⟨Json.obj ((if fld.Type_ = "" then [] else [("type", .str fld.Type_)]) ++
        (if fld.Value.isNil then [] else [("value", j)])), ?_⟩
      simp only [hp, fieldPtrToJson]
      exact Field.toJson_of_ok fld j hj
    obtain ⟨jms, hc, hmap⟩ := collectMembers_of_ok _ hall
    have hkeys : jms.map Prod.fst =
        (GoMap.sorted (F.foldl (fun m field => GoMap.set m field.Name (some field)) [])).map
          Prod.fst := by
      have := congrArg (List.map Prod.fst) hmap
      simp only [List.map_map] at this
      exact this.symm
    refine ⟨jms, ?_, ?_, ?_, ?_⟩
    · simp only [Fields.MarshalJSON, marshalFieldMap, hc]
    · rw [hkeys]
      exact (hperm.map Prod.fst).nodup_iff.2 (fieldMap_keys F [] (by simp)).1
    · intro n
      rw [hkeys]
      have hk := (fieldMap_keys F [] (by simp)).2 n
      simp only [List.map_nil, List.not_mem_nil, false_or] at hk
      rw [← hk]
      exact (hperm.map Prod.fst).mem_iff
    · intro pre post fld hF hpost
      obtain ⟨j, hj⟩ := hV pre post fld hF hpost
      refine ⟨j, hj, ?_⟩
      have hg := fieldMap_get?_last pre post fld hpost []
      rw [← hF] at hg
      have hm := GoMap.mem_of_get?_eq_some _ _ _ hg
      have hs := hperm.mem_iff.2 hm
      have h1 := List.mem_map_of_mem (fun kv => (kv.1, fieldPtrToJson kv.2)) hs
      rw [hmap] at h1
      obtain ⟨kv, hkv, e⟩ := List.mem_map.1 h1
      simp only [fieldPtrToJson, Field.toJson_of_ok fld j hj, Prod.mk.injEq,
        Except.ok.injEq] at e
      obtain ⟨e1, e2⟩ := e
      have : kv = (fld.Name, Json.obj
          ((if fld.Type_ = "" then [] else [("type", .str fld.Type_)]) ++
            (if fld.Value.isNil then [] else [("value", j)]))) := by
        rw [← e1, ← e2]
      rw [← this]
      exact hkv
  · obtain ⟨pre, post, fld, err, hF, hpost, herr⟩ := hE
    have hg := fieldMap_get?_last pre post fld hpost []
    rw [← hF] at hg
    have hm := GoMap.mem_of_get?_eq_some _ _ _ hg
    have hs := hperm.mem_iff.2 hm
    have h1 := List.mem_map_of_mem (fun kv => (kv.1, fieldPtrToJson kv.2)) hs
    obtain ⟨kv, hkv, e, he, hc⟩ := collectMembers_of_error _
      ⟨_, h1, err, by simp only [fieldPtrToJson, Field.toJson_of_error fld err herr]⟩
    obtain ⟨kv0, hkv0, rfl⟩ := List.mem_map.1 hkv
    obtain ⟨pre1, post1, fld1, e1, hl1, -, hp1⟩ := hentry kv0 hkv0
    simp only [hp1, fieldPtrToJson] at he
    have hv : fld1.Value.marshal = .error e := by
      cases hm1 : fld1.Value.marshal with
      | error e2 =>
        rw [Field.toJson_of_error fld1 e2 hm1] at he
        exact he
      | ok j =>
        rw [Field.toJson_of_ok fld1 j hm1] at he
        simp at he
    exact ⟨pre1, post1, fld1, e, e1, hl1, hv, by
      simp only [Fields.MarshalJSON, marshalFieldMap, hc]⟩

/-- With pairwise distinct names the map of `Fields.MarshalJSON` has one entry
per field. -/
theorem fieldMap_of_nodup (F : Fields) :
    ∀ m : GoMap (Option Field),
      (∀ x ∈ F, x.Name ∉ m.map Prod.fst) → (F.map Field.Name).Nodup →
      F.foldl (fun m field => GoMap.set m field.Name (some field)) m = m ++ F.map fieldEntry := by
  induction F with
  | nil => intro m _ _; simp
  | cons x rest ih =>
    intro m hm hF
    simp only [List.map_cons, List.nodup_cons] at hF
    rw [List.foldl_cons, GoMap.set_of_not_mem m _ _ (hm x (List.mem_cons_self _ _)),
      ih _ ?_ hF.2]
    · simp [fieldEntry]
    · intro y hy
      simp only [List.map_append, List.map_cons, List.map_nil, List.mem_append,
        List.mem_singleton, not_or]
      refine ⟨hm y (List.mem_cons_of_mem _ hy), fun e => hF.1 ?_⟩
      rw [← e]
      exact List.mem_map_of_mem Field.Name hy


/-- The loop of `Fields.UnmarshalJSON` over entries with non-nil pointers
appends one field per entry, named by the key. -/
theorem appendFields_some (l : List (String × Option Field)) :
    ∀ f0 : Fields, (∀ kv ∈ l, ∃ f, kv.2 = some f) →
      appendFields l f0 = .ok (f0 ++ l.filterMap restoreName) := by
  induction l with
  | nil => intro f0 _; simp [appendFields]
  | cons kv rest ih =>
    intro f0 h
    obtain ⟨k, p⟩ := kv
    obtain ⟨f, hf⟩ := h (k, p) (List.mem_cons_self _ _)
    simp only at hf
    subst hf
    rw [appendFields, ih _ (fun kv hkv => h kv (List.mem_cons_of_mem _ hkv))]
    simp [restoreName]

/-- Giving a field back its name undoes the round trip of its map entry. -/
theorem restore_strip_entry (F : Fields) :
    ((F.map fieldEntry).map stripName).filterMap restoreName = F := by
  induction F with
  | nil => rfl
  | cons x rest ih =>
    rw [List.map_cons, List.map_cons,
      List.filterMap_cons_some (show restoreName (stripName (fieldEntry x)) = some x from rfl),
      ih]


/-- Decoding the object that encodes a `Field` with a value of a kind that the
decoder produces gives back its type and value, with an empty name. -/
theorem decodeFieldMembers_toJson (f : Field) (hf : f.Value.isJSON = true) :
    ∃ ms, f.toJson = .ok (.obj ms) ∧
      ∀ saved, decodeFieldMembers ms Field.zero saved =
        ({ Name := "", Type_ := f.Type_, Value := f.Value }, saved) := by
  obtain ⟨n, t, v⟩ := f
  obtain ⟨j, hj, -, hdec⟩ := Value.marshal_decode v hf
  refine ⟨_, Field.toJson_of_ok _ j hj, fun saved => ?_⟩
  have h1 : keyMatches "type" "type" = true := by decide
  have h2 : keyMatches "value" "type" = false := by decide
  have h3 : keyMatches "value" "value" = true := by decide
  have hnil : v.isNil = true → v = .nil := by
    intro h
    cases v <;> simp [Value.isNil] at h ⊢
  by_cases ht : t = ""
  · subst ht
    cases hv : v.isNil
    · simp [decodeFieldMembers, Field.zero, h2, h3, hv, hdec]
    · have := hnil hv
      subst this
      simp [decodeFieldMembers, Field.zero, Value.isNil]
  · cases hv : v.isNil
    · simp [decodeFieldMembers, Field.zero, h1, h2, h3, ht, hv, hdec, decodeStringField,
        unmarshalString]
    · have := hnil hv
      subst this
      simp [decodeFieldMembers, Field.zero, h1, ht, decodeStringField, unmarshalString,
        Value.isNil]

/-- The object written for a map of non-nil pointers with distinct keys, to
fields with values of a kind that the decoder produces, decodes to the map
again, each field without its name. -/
theorem decodeFieldMapMembers_encoded (S : List (String × Option Field))
    (hsome : ∀ kv ∈ S, ∃ f, kv.2 = some f ∧ f.Value.isJSON = true)
    (hnd : (S.map Prod.fst).Nodup) :
    ∃ jms : List (String × Json),
      S.map (fun kv => (kv.1, fieldPtrToJson kv.2)) =
        jms.map (fun kv => (kv.1, Except.ok kv.2)) ∧
      ∀ (m : GoMap (Option Field)) (saved : Option Err),
        (∀ kv ∈ S, kv.1 ∉ m.map Prod.fst) →
        decodeFieldMapMembers jms m saved = (m ++ S.map stripName, saved) := by
  induction S with
  | nil => exact ⟨[], rfl, fun m saved _ => by simp [decodeFieldMapMembers]⟩
  | cons kv rest ih =>
    obtain ⟨k, p⟩ := kv
    obtain ⟨f, hf, hjson⟩ := hsome (k, p) (List.mem_cons_self _ _)
    simp only at hf
    subst hf
    obtain ⟨ms, hj, hdec⟩ := decodeFieldMembers_toJson f hjson
    simp only [List.map_cons, List.nodup_cons] at hnd
    obtain ⟨jms, h1, h2⟩ := ih (fun kv h => hsome kv (List.mem_cons_of_mem _ h)) hnd.2
    refine ⟨(k, .obj ms) :: jms, ?_, ?_⟩
    · rw [List.map_cons, List.map_cons, h1]
      show (k, f.toJson) :: _ = _
      rw [hj]
    · intro m saved hm
      simp only [decodeFieldMapMembers, hdec]
      rw [GoMap.set_of_not_mem m _ _ (hm (k, some f) (List.mem_cons_self _ _)), h2 _ _ ?_]
      · simp [stripName]
      · intro kv hkv
        simp only [List.map_append, List.map_cons, List.map_nil, List.mem_append,
          List.mem_singleton, not_or]
        refine ⟨hm kv (List.mem_cons_of_mem _ hkv), fun e => hnd.1 ?_⟩
        rw [← e]
        exact List.mem_map_of_mem Prod.fst hkv

/-- C3, for values of the kinds that `encoding/json` decodes into: for a list
`F` with pairwise distinct names whose values are nil, booleans, finite
float64 numbers, strings, or `[]interface{}` and `map[string]interface{}`
values made of these, `Fields.MarshalJSON` succeeds with a value `j`, the text
written for `j` decodes to `j` again, and `Fields.UnmarshalJSON`, applied to `j`
and an empty list, whatever the order in which `range` visits the map, returns
a list that is a permutation of `F`: it has the length of `F` and every field
of `F` occurs in it with its name, type and value. -/
theorem fields_roundtrip (ord : RangeOrder) (F : Fields) (hF : (F.map Field.Name).Nodup)
    (hV : ∀ x ∈ F, x.Value.isJSON = true) :
    ∃ (j : Json) (F1 : Fields),
      Fields.MarshalJSON F = .ok j ∧ Json.parse j.render = .ok (j, "") ∧
      Fields.UnmarshalJSON ord j [] = .ok F1 ∧
      F1.Perm F ∧ F1.length = F.length ∧ ∀ x ∈ F, x ∈ F1 := by
  have hmap : F.foldl (fun m field => GoMap.set m field.Name (some field)) [] =
      F.map fieldEntry := by
    simpa using fieldMap_of_nodup F [] (by simp) hF
  have hS : (GoMap.sorted (F.map fieldEntry)).Perm (F.map fieldEntry) := GoMap.sorted_perm _
  have hsome : ∀ kv ∈ GoMap.sorted (F.map fieldEntry),
      ∃ f, kv.2 = some f ∧ f.Value.isJSON = true := by
    intro kv hkv
    obtain ⟨x, hx, rfl⟩ := List.mem_map.1 (hS.mem_iff.1 hkv)
    exact ⟨x, rfl, hV x hx⟩
  have hnd : ((GoMap.sorted (F.map fieldEntry)).map Prod.fst).Nodup := by
    refine (hS.map Prod.fst).nodup_iff.2 ?_
    simpa [List.map_map, fieldEntry, Function.comp_def] using hF
  obtain ⟨jms, henc, hdec⟩ :=
    decodeFieldMapMembers_encoded (GoMap.sorted (F.map fieldEntry)) hsome hnd
  have hdec0 := hdec [] none (by simp)
  have hpick := ord.perm ([] ++ (GoMap.sorted (F.map fieldEntry)).map stripName)
  have hsome2 : ∀ kv ∈ ord.pick ([] ++ (GoMap.sorted (F.map fieldEntry)).map stripName),
      ∃ f, kv.2 = some f := by
    intro kv hkv
    have h1 := hpick.mem_iff.1 hkv
    simp only [List.nil_append, List.mem_map] at h1
    obtain ⟨kv0, hkv0, rfl⟩ := h1
    obtain ⟨f, hf, -⟩ := hsome kv0 hkv0
    exact ⟨{ f with Name := "" }, by simp [stripName, hf]⟩
  have hperm : ((ord.pick ([] ++ (GoMap.sorted (F.map fieldEntry)).map stripName)).filterMap
      restoreName).Perm F := by
    have h1 := hpick.filterMap restoreName
    have h2 := ((hS.map stripName).filterMap restoreName)
    rw [restore_strip_entry] at h2
    simpa using h1.trans h2
  have hmarshal : Fields.MarshalJSON F = .ok (.obj jms) := by
    simp only [Fields.MarshalJSON, hmap, marshalFieldMap, henc, collectMembers_ok]
  refine ⟨_, _, hmarshal, (parse_render _).1, ?_, hperm, hperm.length_eq,
    fun x hx => hperm.mem_iff.2 hx⟩
  unfold Fields.UnmarshalJSON
  simp only [unmarshalFieldMap, hdec0]
  rw [appendFields_some _ _ hsome2]
  simp

/-- Witness for C4: the two fields of the package example, and a field whose
value is a NaN. -/
theorem fields_marshal_object_witness :
    (∃ ms : List (String × Json),
      Fields.MarshalJSON
          [{ Name := "MyField", Type_ := "", Value := .string "Hello, World!" },
           { Name := "MyOtherField", Type_ := "", Value := .int 1000 }] = .ok (.obj ms) ∧
      (ms.map Prod.fst).Nodup ∧
      (∀ n, n ∈ ms.map Prod.fst ↔
        ∃ x ∈ ([{ Name := "MyField", Type_ := "", Value := .string "Hello, World!" },
                 { Name := "MyOtherField", Type_ := "", Value := .int 1000 }] : Fields),
          x.Name = n)) ∧
    (∃ err, Fields.MarshalJSON
        [{ Name := "a", Type_ := "", Value := .float64 ⟨false, 2047, 1⟩ }] = .error err) := by
  refine ⟨?_, ?_⟩
  · obtain ⟨ms, h1, h2, h3, -⟩ := (fields_marshal_object
      [{ Name := "MyField", Type_ := "", Value := .string "Hello, World!" },
       { Name := "MyOtherField", Type_ := "", Value := .int 1000 }]).1 (by
        intro pre post fld hF _
        have hmem : fld ∈ ([{ Name := "MyField", Type_ := "", Value := .string "Hello, World!" },
            { Name := "MyOtherField", Type_ := "", Value := .int 1000 }] : Fields) := by
          rw [hF]
          exact List.mem_append_right _ (List.mem_cons_self _ _)
        simp only [List.mem_cons, List.mem_singleton, List.not_mem_nil, or_false] at hmem
        rcases hmem with rfl | rfl
        · exact ⟨_, rfl⟩
        · exact ⟨_, rfl⟩)
    exact ⟨ms, h1, h2, h3⟩
  · obtain ⟨_, _, _, err, _, _, _, h⟩ := (fields_marshal_object
      [{ Name := "a", Type_ := "", Value := .float64 ⟨false, 2047, 1⟩ }]).2.1
        ⟨[], [], { Name := "a", Type_ := "", Value := .float64 ⟨false, 2047, 1⟩ },
          .unsupportedValue "NaN", rfl, by simp, rfl⟩
    exact ⟨err, h⟩

/-- Counterexample to C4 as stated: a field whose value is a NaN or an
infinity, or a value of a type that `encoding/json` does not support, makes
`Fields.MarshalJSON` return an error. -/
theorem fields_marshal_unencodable :
    Fields.MarshalJSON [{ Name := "a", Type_ := "", Value := .float64 ⟨false, 2047, 1⟩ }] =
      .error (.unsupportedValue "NaN") ∧
    Fields.MarshalJSON [{ Name := "a", Type_ := "", Value := .float64 ⟨false, 2047, 0⟩ }] =
      .error (.unsupportedValue "+Inf") ∧
    Fields.MarshalJSON
        [{ Name := "a", Type_ := "", Value := .string "x" },
         { Name := "b", Type_ := "", Value := .other "chan int" (.error (.unsupportedType "chan int")) }] =
      .error (.unsupportedType "chan int") :=
  ⟨rfl, rfl, rfl⟩

/-- Witness for C3: three fields, with a string, a number and a list as
values, and a `range` that visits the map in reverse order. -/
theorem fields_roundtrip_witness :
    (([{ Name := "MyField", Type_ := "", Value := .string "Hello, World!" },
       { Name := "MyOtherField", Type_ := "string", Value := .nil },
       { Name := "Size", Type_ := "", Value := .float64 ⟨false, 1032, 4292493394837504⟩ },
       { Name := "Tags", Type_ := "", Value := .slice [.bool true, .string "a"] }] : Fields).map
        Field.Name).Nodup ∧
    (∀ x ∈ ([{ Name := "MyField", Type_ := "", Value := .string "Hello, World!" },
       { Name := "MyOtherField", Type_ := "string", Value := .nil },
       { Name := "Size", Type_ := "", Value := .float64 ⟨false, 1032, 4292493394837504⟩ },
       { Name := "Tags", Type_ := "", Value := .slice [.bool true, .string "a"] }] : Fields),
      x.Value.isJSON = true) ∧
    ∃ (j : Json) (F1 : Fields),
      Fields.MarshalJSON
          [{ Name := "MyField", Type_ := "", Value := .string "Hello, World!" },
           { Name := "MyOtherField", Type_ := "string", Value := .nil },
           { Name := "Size", Type_ := "", Value := .float64 ⟨false, 1032, 4292493394837504⟩ },
           { Name := "Tags", Type_ := "", Value := .slice [.bool true, .string "a"] }] = .ok j ∧
      Json.parse j.render = .ok (j, "") ∧
      Fields.UnmarshalJSON ⟨List.reverse, fun m => List.reverse_perm m⟩ j [] = .ok F1 ∧
      F1.Perm [{ Name := "MyField", Type_ := "", Value := .string "Hello, World!" },
               { Name := "MyOtherField", Type_ := "string", Value := .nil },
               { Name := "Size", Type_ := "", Value := .float64 ⟨false, 1032, 4292493394837504⟩ },
               { Name := "Tags", Type_ := "", Value := .slice [.bool true, .string "a"] }] ∧
      F1.length = 4 ∧
      ∀ x ∈ ([{ Name := "MyField", Type_ := "", Value := .string "Hello, World!" },
               { Name := "MyOtherField", Type_ := "string", Value := .nil },
               { Name := "Size", Type_ := "", Value := .float64 ⟨false, 1032, 4292493394837504⟩ },
               { Name := "Tags", Type_ := "", Value := .slice [.bool true, .string "a"] }] : Fields),
        x ∈ F1 :=
  ⟨by decide, by decide,
   fields_roundtrip ⟨List.reverse, fun m => List.reverse_perm m⟩
     [{ Name := "MyField", Type_ := "", Value := .string "Hello, World!" },
      { Name := "MyOtherField", Type_ := "string", Value := .nil },
      { Name := "Size", Type_ := "", Value := .float64 ⟨false, 1032, 4292493394837504⟩ },
      { Name := "Tags", Type_ := "", Value := .slice [.bool true, .string "a"] }]
     (by decide) (by decide)⟩

/-- A string is stored into a struct field as into a new `interface{}`. -/
theorem decodeInterfaceField_str (s : String) (cur : Value) (saved : Option Err) :
    decodeInterfaceField (.str s) cur saved = (.string s, saved) := rfl

/-- When the library decodes the object into a map of non-nil pointers,
`Fields.UnmarshalJSON` appends the fields of the map, in the order of the
`range` loop. -/
theorem UnmarshalJSON_of_map (ord : RangeOrder) (j : Json) (fields : GoMap (Option Field))
    (f0 : Fields) (h : unmarshalFieldMap j = (fields, none))
    (hs : ∀ kv ∈ fields, ∃ f, kv.2 = some f) :
    ∃ F1, Fields.UnmarshalJSON ord j f0 = .ok (f0 ++ F1) ∧
      F1.Perm (fields.filterMap restoreName) := by
  have hpick := ord.perm fields
  have hs2 : ∀ kv ∈ ord.pick fields, ∃ f, kv.2 = some f :=
    fun kv hkv => hs kv (hpick.mem_iff.1 hkv)
  refine ⟨(ord.pick fields).filterMap restoreName, ?_, hpick.filterMap restoreName⟩
  unfold Fields.UnmarshalJSON
  simp only [h]
  exact appendFields_some _ _ hs2

/-- Counterexample to C3 as stated: the field `MyOtherField` of the package
example, whose value is the `int` 1000, comes back with the `float64` 1000 as
value, so what comes back is not a permutation of the list; the `int`
`2 ^ 53 + 1` comes back as the `float64` `2 ^ 53`; and a number that is written
as `1e+400` makes `Fields.UnmarshalJSON` return an error. -/
theorem fields_roundtrip_int_changes :
    (Fields.MarshalJSON
        [{ Name := "MyField", Type_ := "", Value := .string "Hello, World!" },
         { Name := "MyOtherField", Type_ := "", Value := .int 1000 }] =
      .ok (.obj [("MyField", .obj [("value", .str "Hello, World!")]),
                 ("MyOtherField", .obj [("value", .num false 1000 0)])]) ∧
     ∀ ord : RangeOrder, ∃ F1 : Fields,
      Fields.UnmarshalJSON ord
          (.obj [("MyField", .obj [("value", .str "Hello, World!")]),
                 ("MyOtherField", .obj [("value", .num false 1000 0)])]) [] = .ok F1 ∧
      F1.Perm [{ Name := "MyField", Type_ := "", Value := .string "Hello, World!" },
               { Name := "MyOtherField", Type_ := "",
                 Value := .float64 ⟨false, 1032, 4292493394837504⟩ }] ∧
      ¬ F1.Perm [{ Name := "MyField", Type_ := "", Value := .string "Hello, World!" },
                 { Name := "MyOtherField", Type_ := "", Value := .int 1000 }]) ∧
    (Fields.MarshalJSON [{ Name := "n", Type_ := "", Value := .int 9007199254740993 }] =
      .ok (.obj [("n", .obj [("value", .num false 9007199254740993 0)])]) ∧
     ∀ ord : RangeOrder,
      Fields.UnmarshalJSON ord (.obj [("n", .obj [("value", .num false 9007199254740993 0)])])
          [] =
        .ok [{ Name := "n", Type_ := "", Value := .float64 ⟨false, 1076, 0⟩ }]) ∧
    (Fields.MarshalJSON
        [{ Name := "n", Type_ := "", Value := .other "json.Number" (.ok (.num false 1 400)) }] =
      .ok (.obj [("n", .obj [("value", .num false 1 400)])]) ∧
     ∀ ord : RangeOrder,
      Fields.UnmarshalJSON ord (.obj [("n", .obj [("value", .num false 1 400)])]) [] =
        .error (.unmarshalType "number 1e+400" "float64")) := by
  have h2 : keyMatches "value" "type" = false := by decide
  have h3 : keyMatches "value" "value" = true := by decide
  refine ⟨⟨rfl, fun ord => ?_⟩, ⟨rfl, fun ord => ?_⟩, ⟨rfl, fun ord => ?_⟩⟩
  · have hm : unmarshalFieldMap
        (.obj [("MyField", .obj [("value", .str "Hello, World!")]),
               ("MyOtherField", .obj [("value", .num false 1000 0)])]) =
        ([("MyField", some { Name := "", Type_ := "", Value := .string "Hello, World!" }),
          ("MyOtherField",
            some { Name := "", Type_ := "", Value := .float64 ⟨false, 1032, 4292493394837504⟩ })],
          none) := by
      simp only [unmarshalFieldMap, decodeFieldMapMembers, decodeFieldMembers, h2, h3,
        Bool.false_eq_true, ↓reduceIte, decodeInterfaceField_str, decodeInterfaceField_num,
        ParseFloat_1000, Field.zero]
      rfl
    obtain ⟨F1, hu, hp⟩ := UnmarshalJSON_of_map ord _ _ [] hm (by
      intro kv hkv
      simp only [List.mem_cons, List.mem_singleton, List.not_mem_nil, or_false] at hkv
      rcases hkv with rfl | rfl
      · exact ⟨_, rfl⟩
      · exact ⟨_, rfl⟩)
    refine ⟨F1, by simpa using hu, hp, fun hperm => ?_⟩
    have hmem := (hp.symm.trans hperm).mem_iff.1
      (show (⟨"MyOtherField", "", .float64 ⟨false, 1032, 4292493394837504⟩⟩ : Field) ∈ _ from
        List.mem_cons_of_mem _ (List.mem_cons_self _ _))
    simp [Value.int] at hmem
  · have hm : unmarshalFieldMap
        (.obj [("n", .obj [("value", .num false 9007199254740993 0)])]) =
        ([("n", some { Name := "", Type_ := "", Value := .float64 ⟨false, 1076, 0⟩ })],
          none) := by
      simp only [unmarshalFieldMap, decodeFieldMapMembers, decodeFieldMembers, h2, h3,
        Bool.false_eq_true, ↓reduceIte, decodeInterfaceField_num, ParseFloat_2_53_1, Field.zero]
      rfl
    obtain ⟨F1, hu, hp⟩ := UnmarshalJSON_of_map ord _ _ [] hm (by
      intro kv hkv
      simp only [List.mem_singleton] at hkv
      subst hkv
      exact ⟨_, rfl⟩)
    have hF1 : F1 = [{ Name := "n", Type_ := "", Value := .float64 ⟨false, 1076, 0⟩ }] :=
      List.perm_singleton.1 hp
    rw [hu, hF1]
    rfl
  · have hm : unmarshalFieldMap (.obj [("n", .obj [("value", .num false 1 400)])]) =
        ([("n", some { Name := "", Type_ := "", Value := .nil })],
          some (.unmarshalType "number 1e+400" "float64")) := by
      simp only [unmarshalFieldMap, decodeFieldMapMembers, decodeFieldMembers, h2, h3,
        Bool.false_eq_true, ↓reduceIte, decodeInterfaceField_num, ParseFloat_1e400, Field.zero]
      rfl
    unfold Fields.UnmarshalJSON
    simp only [hm]

/-! ### Path texts in `net/url` -/

/-- A byte that a path holds unescaped is an ASCII letter or digit or one of
thirteen marks. -/
theorem pathByte_cases (c : Char) (h : shouldEscape c .encodePath = false) :
    isAlnum c = true ∨ c ∈ "-_.~$&+,/:;=@".data := by
  by_cases ha : isAlnum c = true
  · exact Or.inl ha
  · right
    simp [shouldEscape, ha] at h
    simp
    tauto

/-- A byte that a path holds unescaped is none of percent sign, question mark,
number sign and asterisk, and is not a control byte. -/
theorem pathByte_ne (c : Char) (h : shouldEscape c .encodePath = false) :
    c ≠ '%' ∧ c ≠ '?' ∧ c ≠ '#' ∧ c ≠ '*' ∧ ¬ c.toNat < 32 ∧ c.toNat ≠ 127 := by
  rcases pathByte_cases c h with ha | hm
  · simp only [isAlnum, Bool.or_eq_true, Bool.and_eq_true, decide_eq_true_eq] at ha
    refine ⟨?_, ?_, ?_, ?_, by omega, by omega⟩ <;> rintro rfl <;> revert ha <;> decide
  · simp only [List.mem_cons, List.mem_singleton, List.not_mem_nil, or_false] at hm
    rcases hm with rfl | rfl | rfl | rfl | rfl | rfl | rfl | rfl | rfl | rfl | rfl | rfl | rfl <;>
      decide

/-- The predicate `PathText` on a text with one more byte in front. -/
theorem PathText_cons (c : Char) (s : List Char) :
    PathText (c :: s) = true ↔ shouldEscape c .encodePath = false ∧ PathText s = true := by
  simp [PathText]

/-- The predicate `PathText` on two texts one after the other. -/
theorem PathText_append (s t : List Char) :
    PathText (s ++ t) = true ↔ PathText s = true ∧ PathText t = true := by
  simp [PathText, List.all_append]

/-- The bytes of a path text need no escape: `unescape` accepts the text. -/
theorem unescapeCheck_pathText (s : List Char) (h : PathText s = true) :
    unescapeCheck .encodePath s = .ok () := by
  induction s with
  | nil => rfl
  | cons c s ih =>
    obtain ⟨hc, hs⟩ := (PathText_cons c s).mp h
    have hne := (pathByte_ne c hc).1
    unfold unescapeCheck
    simp [hne, ih hs]

/-- The bytes of a path text need no escape: `unescape` leaves the text as it is. -/
theorem unescapeLoop_pathText (s : List Char) (h : PathText s = true) :
    unescapeLoop .encodePath s [] = s := by
  induction s with
  | nil => rfl
  | cons c s ih =>
    obtain ⟨hc, hs⟩ := (PathText_cons c s).mp h
    have hne := (pathByte_ne c hc).1
    have hd : decodeRunes [] = [] := rfl
    unfold unescapeLoop
    simp [hne, ih hs, hd]

/-- The library helper `unescape` on a path text. -/
theorem unescape_pathText (s : List Char) (h : PathText s = true) :
    unescape s .encodePath = .ok s := by
  simp [unescape, unescapeCheck_pathText s h, unescapeLoop_pathText s h]

/-- The library helper `escape` on a path text. -/
theorem escape_pathText (s : List Char) (h : PathText s = true) :
    escape s .encodePath = s := by
  induction s with
  | nil => rfl
  | cons c s ih =>
    obtain ⟨hc, hs⟩ := (PathText_cons c s).mp h
    have e : escape (c :: s) .encodePath = [c] ++ escape s .encodePath := by
      simp only [escape, List.flatMap_cons, hc, Bool.false_eq_true, ↓reduceIte]
    rw [e, ih hs]
    rfl

/-- A path text has no control byte. -/
theorem ctl_pathText (s : List Char) (h : PathText s = true) :
    stringContainsCTLByte s = false := by
  induction s with
  | nil => rfl
  | cons c s ih =>
    obtain ⟨hc, hs⟩ := (PathText_cons c s).mp h
    obtain ⟨-, -, -, -, h1, h2⟩ := pathByte_ne c hc
    have ih1 := ih hs
    unfold stringContainsCTLByte at ih1 ⊢
    simp [h1, h2, ih1]

/-- A path text has no question mark and no number sign. -/
theorem not_mem_pathText (s : List Char) (h : PathText s = true) :
    '?' ∉ s ∧ '#' ∉ s := by
  induction s with
  | nil => simp
  | cons c s ih =>
    obtain ⟨hc, hs⟩ := (PathText_cons c s).mp h
    obtain ⟨-, h1, h2, -⟩ := pathByte_ne c hc
    obtain ⟨i1, i2⟩ := ih hs
    simp [Ne.symm h1, Ne.symm h2, i1, i2]

/-- Without a separator `strings.Cut` gives the whole text and nothing after it. -/
theorem cut_of_not_mem (s : List Char) (sep : Char) (h : sep ∉ s) : cut s sep = (s, []) := by
  induction s with
  | nil => rfl
  | cons c s ih =>
    have hc : c ≠ sep := fun e => h (by simp [e])
    have hs : sep ∉ s := fun e => h (by simp [e])
    have ih1 := ih hs
    simp only [cut, Prod.mk.injEq] at ih1 ⊢
    simp [hc, ih1.1, List.takeWhile_cons, List.dropWhile_cons]
    have := ih1.2
    cases hd : List.dropWhile (fun c => c != sep) s with
    | nil => rfl
    | cons x xs =>
      -- the first element left by dropWhile is the separator, which is not in s
      have hx : x ∈ s := by
        have : x ∈ List.dropWhile (fun c => c != sep) s := by rw [hd]; simp
        exact (List.dropWhile_suffix _).subset this
      have hxs := List.head?_dropWhile_not (fun c => c != sep) s
      rw [hd] at hxs
      simp at hxs
      subst hxs
      exact absurd hx hs

/-- Method `setPath` on a path text: the path is stored as it is and `RawPath`
is left empty. -/
theorem setPath_pathText (u : URL) (p : List Char) (hp : PathText p = true) :
    u.setPath p = .ok { u with Path := String.mk p, RawPath := "" } := by
  simp [URL.setPath, unescape_pathText p hp, escape_pathText p hp]

/-- The scheme of a text that starts with `https:`. -/
theorem getScheme_https (rest : List Char) :
    getScheme ('h' :: 't' :: 't' :: 'p' :: 's' :: ':' :: rest) =
      .ok (['h', 't', 't', 'p', 's'], rest) := by
  simp [getScheme, getSchemeLoop]

/-- A text that starts with a slash has no scheme. -/
theorem getScheme_slash (rest : List Char) :
    getScheme ('/' :: rest) = .ok ([], '/' :: rest) := by
  simp [getScheme, getSchemeLoop]

/-- The authority `api.apple-cloudkit.com` has no user and is its own host. -/
theorem parseAuthority_host :
    parseAuthority "api.apple-cloudkit.com".data = .ok (none, "api.apple-cloudkit.com".data) := by
  rfl

/-- Function `parse` on the base URL followed by a path text that starts with a
slash: scheme `https`, host `api.apple-cloudkit.com` and this path. -/
theorem parse_https (p : List Char) (hp : PathText ('/' :: p) = true) (v : Bool) :
    parse (baseURL.data ++ '/' :: p) v =
      .ok (apiURL (String.mk ('/' :: p))) := by
  have e : baseURL.data = ['h', 't', 't', 'p', 's', ':', '/', '/', 'a', 'p', 'i', '.', 'a', 'p', 'p', 'l', 'e', '-', 'c', 'l', 'o', 'u', 'd', 'k', 'i', 't', '.', 'c', 'o', 'm'] := rfl
  have eh : "api.apple-cloudkit.com".data = ['a', 'p', 'i', '.', 'a', 'p', 'p', 'l', 'e', '-', 'c', 'l', 'o', 'u', 'd', 'k', 'i', 't', '.', 'c', 'o', 'm'] := rfl
  have hctl := ctl_pathText _ hp
  have hq := (not_mem_pathText _ hp).1
  have hq2 : '?' ∉ ('/' :: '/' :: "api.apple-cloudkit.com".data ++ '/' :: p) := by
    rw [eh]
    simp only [List.cons_append, List.mem_cons, List.mem_append, not_or]
    simp only [List.mem_cons, not_or] at hq
    refine ⟨by decide, by decide, ?_⟩
    simp [hq.2]
  have hcut := cut_of_not_mem _ _ hq2
  have hlast : ('/' :: '/' :: "api.apple-cloudkit.com".data ++ '/' :: p).getLast? ≠ some '?' := by
    intro h
    exact hq2 (List.mem_of_getLast?_eq_some h)
  have hpa := parseAuthority_host
  rw [eh] at hcut hlast hpa
  simp only [List.cons_append, List.nil_append] at hcut hlast
  have hc : stringContainsCTLByte (['h', 't', 't', 'p', 's', ':', '/', '/', 'a', 'p', 'i', '.', 'a', 'p', 'p', 'l', 'e', '-', 'c', 'l', 'o', 'u', 'd', 'k', 'i', 't', '.', 'c', 'o', 'm'] ++ '/' :: p) = false := by
    unfold stringContainsCTLByte at hctl ⊢
    rw [List.any_append, hctl]
    rfl
  simp only [List.cons_append, List.nil_append] at hc
  unfold parse
  rw [e]
  simp only [hc, List.cons_append, List.nil_append, getScheme_https, hcut, hlast]
  simp [hpa, setPath_pathText _ _ hp, URL.zero, apiURL]

/-! ### Path elements in `path.Clean` and `resolvePath` -/

/-- What `Segment` says. -/
theorem Segment_spec (e : List Char) (h : Segment e = true) :
    '/' ∉ e ∧ e ≠ [] ∧ e ≠ ['.'] ∧ e ≠ ['.', '.'] := by
  simp only [Segment, Bool.and_eq_true, Bool.not_eq_true', bne_iff_ne, ne_eq] at h
  obtain ⟨⟨⟨h2, h3⟩, h4⟩, h5⟩ := h
  refine ⟨fun hm => ?_, h3, h4, h5⟩
  have h6 : e.contains '/' = true := List.elem_iff.mpr hm
  rw [h6] at h2
  exact absurd h2 (by decide)

/-- Reading bytes up to a slash stops at the end of a text without slash. -/
theorem takeWhile_elem (e tail : List Char) (he : '/' ∉ e)
    (ht : tail = [] ∨ tail.head? = some '/') :
    (e ++ tail).takeWhile (fun x => x != '/') = e ∧
    (e ++ tail).dropWhile (fun x => x != '/') = tail := by
  induction e with
  | nil =>
    rcases ht with rfl | ht
    · simp
    · cases tail with
      | nil => simp
      | cons t ts =>
        simp only [List.head?_cons, Option.some.injEq] at ht
        subst ht
        simp
  | cons c e ih =>
    have hc : c ≠ '/' := fun h => he (by simp [h])
    have he1 : '/' ∉ e := fun h => he (by simp [h])
    obtain ⟨i1, i2⟩ := ih he1
    simp [hc, i1, i2]

/-- One round of the loop of `path.Clean` on a slash: the slash is skipped. -/
theorem cleanLoop_slash (rooted : Bool) (fuel : Nat) (rest out : List Char) (dotdot : Nat) :
    cleanLoop rooted (fuel + 1) ('/' :: rest) out dotdot = cleanLoop rooted fuel rest out dotdot := by
  simp [cleanLoop]

/-- The loop of `path.Clean` at the end of the path. -/
theorem cleanLoop_nil (rooted : Bool) (fuel : Nat) (out : List Char) (dotdot : Nat) :
    cleanLoop rooted fuel [] out dotdot = out := by
  cases fuel <;> rfl

/-- One round of the loop of `path.Clean` of a rooted path on an element that
is not `.` or `..`: the element is written after a slash, unless the output is
just the root. -/
theorem cleanLoop_elem (fuel : Nat) (e tail out : List Char) (dotdot : Nat)
    (he : Segment e = true) (ht : tail = [] ∨ tail.head? = some '/') :
    cleanLoop true (fuel + 1) (e ++ tail) out dotdot =
      cleanLoop true fuel tail ((if out.length ≠ 1 then out ++ ['/'] else out) ++ e) dotdot := by
  obtain ⟨hs, hne, hd, hdd⟩ := Segment_spec e he
  cases e with
  | nil => exact absurd rfl hne
  | cons c e1 =>
    have hc : c ≠ '/' := fun h => hs (by simp [h])
    have hs1 : '/' ∉ e1 := fun h => hs (by simp [h])
    obtain ⟨t1, t2⟩ := takeWhile_elem e1 tail hs1 ht
    have hdot : ¬ (c = '.' ∧ (e1 ++ tail = [] ∨ (e1 ++ tail).head? = some '/')) := by
      rintro ⟨rfl, h⟩
      cases e1 with
      | nil => exact hd rfl
      | cons x xs =>
        have hx : x ≠ '/' := fun h => hs1 (by simp [h])
        simp [hx] at h
    have hdotdot : ¬ (c = '.' ∧ (e1 ++ tail).head? = some '.' ∧
        ((e1 ++ tail).drop 1 = [] ∨ ((e1 ++ tail).drop 1).head? = some '/')) := by
      rintro ⟨rfl, h1, h2⟩
      cases e1 with
      | nil =>
        rcases ht with rfl | ht
        · simp at h1
        · simp [ht] at h1
      | cons x xs =>
        simp only [List.cons_append, List.head?_cons, Option.some.injEq] at h1
        subst h1
        cases xs with
        | nil => exact hdd rfl
        | cons y ys =>
          have hy : y ≠ '/' := fun h => hs1 (by simp [h])
          simp [hy] at h2
    rw [List.cons_append, cleanLoop]
    simp only [hc, hdot, hdotdot, ↓reduceIte, t1, t2]
    simp

/-- The loop of `path.Clean` of a rooted path over elements that are each after
one slash: when the output has more than the root, they are written as they
are. -/
theorem cleanLoop_joinElems (es : List (List Char)) (hes : ∀ e ∈ es, Segment e = true) :
    ∀ (fuel : Nat) (tail out : List Char) (dotdot : Nat),
      (tail = [] ∨ tail.head? = some '/') → out.length ≠ 1 →
      cleanLoop true (fuel + 2 * es.length) (joinElems es ++ tail) out dotdot =
        cleanLoop true fuel tail (out ++ joinElems es) dotdot := by
  induction es with
  | nil => intro fuel tail out dotdot _ _; simp [joinElems]
  | cons e es ih =>
    intro fuel tail out dotdot ht ho
    have he := hes e (by simp)
    have hne := (Segment_spec e he).2.1
    have hes1 : ∀ x ∈ es, Segment x = true := fun x hx => hes x (by simp [hx])
    have e1 : joinElems (e :: es) ++ tail = '/' :: (e ++ (joinElems es ++ tail)) := by
      simp [joinElems]
    have e2 : fuel + 2 * (e :: es).length = (fuel + 2 * es.length + 1) + 1 := by
      simp only [List.length_cons]; omega
    have ht1 : joinElems es ++ tail = [] ∨ (joinElems es ++ tail).head? = some '/' := by
      cases es with
      | nil => simpa [joinElems] using ht
      | cons x xs => right; simp [joinElems]
    rw [e1, e2, cleanLoop_slash, cleanLoop_elem _ _ _ _ _ he ht1]
    have ho1 : ((if out.length ≠ 1 then out ++ ['/'] else out) ++ e).length ≠ 1 := by
      have : e.length ≠ 0 := fun h => hne (List.length_eq_zero.mp h)
      simp only [ho, ne_eq, not_false_eq_true, ↓reduceIte, List.length_append, List.length_singleton]
      omega
    rw [ih hes1 fuel tail _ dotdot ht ho1]
    simp [ho, joinElems]

/-- Elements that are each after a slash take at least two bytes each. -/
theorem length_joinElems (es : List (List Char)) (hes : ∀ e ∈ es, Segment e = true) :
    2 * es.length ≤ (joinElems es).length := by
  induction es with
  | nil => simp [joinElems]
  | cons e es ih =>
    have he := (Segment_spec e (hes e (by simp))).2.1
    have hl : e.length ≠ 0 := fun h => he (List.length_eq_zero.mp h)
    have := ih (fun x hx => hes x (by simp [hx]))
    simp only [joinElems, List.flatMap_cons, List.length_append, List.length_cons] at this ⊢
    omega

/-- Function `path.Clean` on a rooted path made of elements that are not `.` or
`..`, with two slashes in one place: the path with one slash there. -/
theorem Clean_joinElems (e1 e2 : List Char) (es1 es2 : List (List Char))
    (h1 : ∀ e ∈ e1 :: es1, Segment e = true) (h2 : ∀ e ∈ e2 :: es2, Segment e = true) :
    Clean (joinElems (e1 :: es1) ++ '/' :: joinElems (e2 :: es2)) =
      joinElems (e1 :: es1 ++ e2 :: es2) := by
  have he1 := h1 e1 (by simp)
  have hes1 : ∀ e ∈ es1, Segment e = true := fun x hx => h1 x (by simp [hx])
  have l1 := length_joinElems es1 hes1
  have l2 := length_joinElems (e2 :: es2) h2
  have hne1 : e1.length ≠ 0 := fun h => (Segment_spec e1 he1).2.1 (List.length_eq_zero.mp h)
  have ep : joinElems (e1 :: es1) ++ '/' :: joinElems (e2 :: es2) =
      '/' :: (e1 ++ (joinElems es1 ++ '/' :: joinElems (e2 :: es2))) := by
    simp [joinElems]
  have hlen : ∃ k, (joinElems (e1 :: es1) ++ '/' :: joinElems (e2 :: es2)).length =
      ((k + 2 * (e2 :: es2).length + 1) + 2 * es1.length) + 1 := by
    refine ⟨(joinElems (e1 :: es1) ++ '/' :: joinElems (e2 :: es2)).length -
      (2 * (e2 :: es2).length + 1 + 2 * es1.length + 1), ?_⟩
    have : (joinElems (e1 :: es1) ++ '/' :: joinElems (e2 :: es2)).length =
        1 + e1.length + (joinElems es1).length + 1 + (joinElems (e2 :: es2)).length := by
      rw [ep]
      simp only [List.length_cons, List.length_append]
      omega
    omega
  obtain ⟨k, hk⟩ := hlen
  have t1 : joinElems es1 ++ '/' :: joinElems (e2 :: es2) = [] ∨
      (joinElems es1 ++ '/' :: joinElems (e2 :: es2)).head? = some '/' := by
    right
    cases es1 <;> simp [joinElems]
  have t2 : ('/' :: joinElems (e2 :: es2) = [] ∨
      ('/' :: joinElems (e2 :: es2)).head? = some '/') := Or.inr rfl
  have o1 : ((if ['/'].length ≠ 1 then ['/'] ++ ['/'] else ['/']) ++ e1).length ≠ 1 := by
    simp only [List.length_singleton, ne_eq, not_true_eq_false, ↓reduceIte, List.length_append]
    omega
  have o2 : (((if ['/'].length ≠ 1 then ['/'] ++ ['/'] else ['/']) ++ e1) ++
      joinElems es1).length ≠ 1 := by
    simp only [List.length_singleton, ne_eq, not_true_eq_false, ↓reduceIte, List.length_append]
    omega
  unfold Clean
  rw [hk, ep]
  simp only [List.cons_ne_nil, ↓reduceIte, List.head?_cons, decide_True, List.drop_succ_cons,
    List.drop_zero]
  rw [cleanLoop_elem _ _ _ _ _ he1 t1, cleanLoop_joinElems es1 hes1 _ _ _ _ t2 o1, cleanLoop_slash]
  have e3 : joinElems (e2 :: es2) = joinElems (e2 :: es2) ++ [] := by simp
  rw [e3, cleanLoop_joinElems (e2 :: es2) h2 _ _ _ _ (Or.inl rfl) o2, cleanLoop_nil]
  simp [joinElems]

/-- Function `path.Join` of two rooted paths made of elements that are not `.`
or `..`: the elements of the first, then those of the second. -/
theorem Join_joinElems (e1 e2 : List Char) (es1 es2 : List (List Char))
    (h1 : ∀ e ∈ e1 :: es1, Segment e = true) (h2 : ∀ e ∈ e2 :: es2, Segment e = true) :
    Join [String.mk (joinElems (e1 :: es1)), String.mk (joinElems (e2 :: es2))] =
      String.mk (joinElems (e1 :: es1 ++ e2 :: es2)) := by
  have n1 : String.mk (joinElems (e1 :: es1)) ≠ "" := by
    intro h
    have := congrArg String.data h
    simp [joinElems] at this
  have n2 : joinElems (e1 :: es1) ≠ [] := by simp [joinElems]
  unfold Join
  simp only [List.all_cons, n1, decide_False, Bool.false_and, Bool.false_eq_true, ↓reduceIte,
    List.foldl_cons, List.foldl_nil, ne_eq, not_true_eq_false, not_false_eq_true, or_true,
    List.nil_append, n2, true_or]
  rw [← Clean_joinElems e1 e2 es1 es2 h1 h2]
  simp

/-- Function `strings.Split` on a text without slash. -/
theorem splitSlash_elem (e : List Char) (he : '/' ∉ e) : splitSlash e = [e] := by
  induction e with
  | nil => rfl
  | cons c e ih =>
    have hc : c ≠ '/' := fun h => he (by simp [h])
    have he1 : '/' ∉ e := fun h => he (by simp [h])
    simp [splitSlash, hc, ih he1]

/-- Function `strings.Split` on a text without slash, a slash and more text. -/
theorem splitSlash_append (e rest : List Char) (he : '/' ∉ e) :
    splitSlash (e ++ '/' :: rest) = e :: splitSlash rest := by
  induction e with
  | nil => simp [splitSlash]
  | cons c e ih =>
    have hc : c ≠ '/' := fun h => he (by simp [h])
    have he1 : '/' ∉ e := fun h => he (by simp [h])
    simp [splitSlash, hc, ih he1]

/-- Function `strings.Split` on an element followed by elements that are each
after a slash. -/
theorem splitSlash_joinElems (e : List Char) (es : List (List Char))
    (h : ∀ x ∈ e :: es, Segment x = true) : splitSlash (e ++ joinElems es) = e :: es := by
  induction es generalizing e with
  | nil =>
    simp only [joinElems, List.flatMap_nil, List.append_nil]
    exact splitSlash_elem e (Segment_spec e (h e (by simp))).1
  | cons x xs ih =>
    have e1 : e ++ joinElems (x :: xs) = e ++ '/' :: (x ++ joinElems xs) := by simp [joinElems]
    rw [e1, splitSlash_append e _ (Segment_spec e (h e (by simp))).1,
      ih x (fun y hy => h y (by simp only [List.mem_cons] at hy ⊢; tauto))]

/-- The loop of `resolvePath` keeps elements that are not `.` or `..`. -/
theorem resolve_foldl (es : List (List Char)) (hes : ∀ e ∈ es, e ≠ ['.'] ∧ e ≠ ['.', '.'])
    (acc : List (List Char)) :
    es.foldl (fun dst elem =>
      if elem = ['.'] then dst
      else if elem = ['.', '.'] then dst.dropLast
      else dst ++ [elem]) acc = acc ++ es := by
  induction es generalizing acc with
  | nil => simp
  | cons e es ih =>
    obtain ⟨h1, h2⟩ := hes e (by simp)
    rw [List.foldl_cons]
    simp only [h1, h2, ↓reduceIte]
    rw [ih (fun x hx => hes x (by simp [hx]))]
    simp

/-- Function `strings.Join` with a slash on an empty text followed by
elements. -/
theorem intercalate_joinElems (e : List Char) (es : List (List Char)) :
    List.intercalate ['/'] (e :: es) = e ++ joinElems es := by
  induction es generalizing e with
  | nil => simp [List.intercalate, joinElems]
  | cons x xs ih =>
    have := ih x
    simp only [List.intercalate, List.intersperse, joinElems, List.flatMap_cons] at this ⊢
    simp only [List.flatten_cons, List.singleton_append, List.cons_append, List.nil_append]
    rw [this]

/-- Library helper `resolvePath` for a reference path that is rooted and made
of elements that are not `.` or `..`: the reference path. -/
theorem resolvePath_joinElems (base e : List Char) (es : List (List Char))
    (h : ∀ x ∈ e :: es, Segment x = true) :
    resolvePath base (joinElems (e :: es)) = joinElems (e :: es) := by
  have e1 : joinElems (e :: es) = '/' :: (e ++ joinElems es) := by simp [joinElems]
  have hs : splitSlash ('/' :: (e ++ joinElems es)) = [] :: e :: es := by
    simp [splitSlash, splitSlash_joinElems e es h]
  have hall : ∀ x ∈ ([] : List Char) :: e :: es, x ≠ ['.'] ∧ x ≠ ['.', '.'] := by
    intro x hx
    rcases List.mem_cons.mp hx with rfl | hx
    · exact ⟨by decide, by decide⟩
    · have := Segment_spec x (h x hx)
      exact ⟨this.2.2.1, this.2.2.2⟩
  have hlast : ¬ ((([] : List Char) :: e :: es).getLast? = some ['.'] ∨
      (([] : List Char) :: e :: es).getLast? = some ['.', '.']) := by
    rintro (hl | hl)
    · exact (hall _ (List.mem_of_getLast?_eq_some hl)).1 rfl
    · exact (hall _ (List.mem_of_getLast?_eq_some hl)).2 rfl
  unfold resolvePath
  rw [e1]
  simp only [List.cons_ne_nil, ↓reduceIte, List.head?_cons, ne_eq, not_true_eq_false, hs,
    resolve_foldl _ hall, List.nil_append, hlast, intercalate_joinElems]
  simp [joinElems]

/-! ### Requests to the API host -/

/-- What `NewClient` returns without options, for a container identifier that
is a path text: the client with the base URL of the API host and the path
`/database/1/<container>/<environment>`. -/
theorem NewClient_spec (L : Lib) (hL : L.NetURL) (t : Request → Except Err Response)
    (c keyID : String) (key : Option L.PrivateKey) (e : Environment)
    (he : e = Environment.Development ∨ e = Environment.Production)
    (hc : PathText c.data = true) :
    NewClient L t c keyID key e [] =
      .ok { baseURL := apiURL ("/database/1/" ++ c ++ "/" ++ e.String), userAgent := "icloud-go",
            keyID := keyID, privateKey := key, strictDecoding := false, httpClient := t,
            Records := some { basePath := "/records/modify" } } := by
  have hes : PathText e.String.data = true := by
    rcases he with rfl | rfl <;> decide
  have hp : PathText ('/' :: ("database/1/".data ++ c.data ++ '/' :: e.String.data)) = true := by
    have h1 : PathText "database/1/".data = true := by decide
    have h2 : shouldEscape '/' .encodePath = false := by decide
    simp only [PathText_cons, PathText_append, hc, hes, h1, h2, and_self]
  have hu : baseURL ++ "/database/" ++ toString apiVersion ++ "/" ++ c ++ "/" ++ e.String =
      String.mk (baseURL.data ++ '/' :: ("database/1/".data ++ c.data ++ '/' :: e.String.data)) := by
    apply String.ext
    have h1 : (toString apiVersion).data = ['1'] := by decide
    have h2 : ("/database/" : String).data = '/' :: "database/".data := by decide
    have h3 : ("database/1/" : String).data = "database/".data ++ ['1'] ++ ['/'] := by decide
    have h4 : ("/" : String).data = ['/'] := by decide
    simp only [String.data_append, h1, h2, h3, h4]
    simp
  have hq : String.mk ('/' :: ("database/1/".data ++ c.data ++ '/' :: e.String.data)) =
      "/database/1/" ++ c ++ "/" ++ e.String := by
    apply String.ext
    have h3 : ("/database/1/" : String).data = '/' :: "database/1/".data := by decide
    have h4 : ("/" : String).data = ['/'] := by decide
    simp only [String.data_append, h3, h4]
    simp
  unfold NewClient
  simp only [hL.2.1, hu, ParseRequestURI, parse_https _ hp, Client.Options, hq]


/-- A path of elements starts with a slash. -/
theorem joinElems_cons (e : List Char) (es : List (List Char)) :
    joinElems (e :: es) = '/' :: (e ++ joinElems es) := by
  simp [joinElems]


/-! ### Texts with a query and escapes in `net/url` -/

/-- Function `strings.Cut` on two texts one after the other, the first without
the separator. -/
theorem cut_append (a b : List Char) (sep : Char) (h : sep ∉ a) :
    cut (a ++ b) sep = (a ++ (cut b sep).1, (cut b sep).2) := by
  have hp : ∀ x ∈ a, (x != sep) = true := by
    intro x hx
    simp only [bne_iff_ne, ne_eq]
    rintro rfl
    exact h hx
  simp only [cut, List.takeWhile_append_of_pos hp, List.dropWhile_append_of_pos hp]

/-- Function `strings.Cut` splits a text at a separator that occurs in it. -/
theorem cut_join (s : List Char) (sep : Char) (h : sep ∈ s) :
    (cut s sep).1 ++ sep :: (cut s sep).2 = s := by
  induction s with
  | nil => simp at h
  | cons c s ih =>
    by_cases hc : c = sep
    · subst hc
      simp [cut, List.takeWhile_cons, List.dropWhile_cons]
    · have hs : sep ∈ s := by
        rcases List.mem_cons.1 h with e | e
        · exact absurd e.symm hc
        · exact e
      have := ih hs
      simp only [cut] at this ⊢
      simp only [List.takeWhile_cons, List.dropWhile_cons, bne_iff_ne, ne_eq, hc, not_false_eq_true,
        decide_True, ↓reduceIte, List.cons_append, this]

/-- The text before the separator has no separator. -/
theorem cut_fst_not_mem (s : List Char) (sep : Char) : sep ∉ (cut s sep).1 := by
  intro h
  have := List.mem_takeWhile_imp h
  simp at this

/-- Function `strings.Cut` on two texts one after the other, the first with
the separator. -/
theorem cut_append_mem (a b : List Char) (sep : Char) (h : sep ∈ a) :
    cut (a ++ b) sep = ((cut a sep).1, (cut a sep).2 ++ b) := by
  have e := cut_join a sep h
  have hn := cut_fst_not_mem a sep
  generalize (cut a sep).1 = x at e hn
  generalize (cut a sep).2 = y at e
  subst e
  rw [List.append_assoc, cut_append _ _ _ hn]
  simp [cut, List.takeWhile_cons, List.dropWhile_cons]

/-- A control byte in one of two texts is a control byte in their sequence. -/
theorem ctl_append (a b : List Char) :
    stringContainsCTLByte (a ++ b) = (stringContainsCTLByte a || stringContainsCTLByte b) := by
  simp [stringContainsCTLByte, List.any_append]

/-- The predicate `validEncoded` on two texts one after the other. -/
theorem validEncoded_append (a b : List Char) (m : encoding) :
    validEncoded (a ++ b) m = (validEncoded a m && validEncoded b m) := by
  simp [validEncoded, List.all_append]

/-- A byte other than the percent sign passes the first loop of `unescape` in
a path. -/
theorem unescapeCheck_cons (c : Char) (s : List Char) (h : c ≠ '%') :
    unescapeCheck .encodePath (c :: s) = unescapeCheck .encodePath s := by
  conv_lhs => unfold unescapeCheck
  simp [h]

/-- An escape with two hexadecimal digits passes the first loop of `unescape`
in a path. -/
theorem unescapeCheck_escape (a b : Char) (s : List Char) (h : (ishex a && ishex b) = true) :
    unescapeCheck .encodePath ('%' :: a :: b :: s) = unescapeCheck .encodePath s := by
  conv_lhs => unfold unescapeCheck
  simp [h]

/-- The first loop of `unescape` on a text that it accepts, followed by another
text. -/
theorem unescapeCheck_append_ok (a b : List Char)
    (h : unescapeCheck .encodePath a = .ok ()) :
    unescapeCheck .encodePath (a ++ b) = unescapeCheck .encodePath b := by
  obtain ⟨n, hn⟩ : ∃ n, a.length = n := ⟨_, rfl⟩
  induction n using Nat.strong_induction_on generalizing a with
  | _ n ih =>
    match a, h, hn with
    | [], _, _ => rfl
    | c :: rest, h, hn =>
      by_cases hc : c = '%'
      · subst hc
        match rest, h, hn with
        | [], h, _ => simp [unescapeCheck] at h
        | [x], h, _ => simp [unescapeCheck] at h
        | x :: y :: rest2, h, hn =>
          by_cases hh : (ishex x && ishex y) = true
          · rw [unescapeCheck_escape _ _ _ hh] at h
            show unescapeCheck .encodePath ('%' :: x :: y :: (rest2 ++ b)) = _
            rw [unescapeCheck_escape _ _ _ hh]
            exact ih rest2.length (by simp at hn; omega) rest2 h rfl
          · rw [unescapeCheck] at h
            simp [hh] at h
      · rw [unescapeCheck_cons _ _ hc] at h
        show unescapeCheck .encodePath (c :: (rest ++ b)) = _
        rw [unescapeCheck_cons _ _ hc]
        exact ih rest.length (by simp at hn; omega) rest h rfl

/-- The first loop of `unescape` on a text that it refuses, followed by nothing
or by a text that starts with a slash. -/
theorem unescapeCheck_append_error (a s : List Char) (e : URLErr)
    (h : unescapeCheck .encodePath a = .error e) (hs : s = [] ∨ s.head? = some '/') :
    ∃ e1, unescapeCheck .encodePath (a ++ s) = .error e1 := by
  obtain ⟨n, hn⟩ : ∃ n, a.length = n := ⟨_, rfl⟩
  induction n using Nat.strong_induction_on generalizing a with
  | _ n ih =>
    match a, h, hn with
    | [], h, _ => simp [unescapeCheck] at h
    | c :: rest, h, hn =>
      by_cases hc : c = '%'
      · subst hc
        have hsl : ishex '/' = false := by decide
        match rest, h, hn with
        | [], h, _ =>
          rcases hs with rfl | hs
          · exact ⟨_, h⟩
          · match s, hs with
            | [x], hs =>
              simp at hs
              subst hs
              exact ⟨.escape (firstThreeBytes ['%', '/']), by simp [unescapeCheck]⟩
            | x :: y :: t, hs =>
              simp at hs
              subst hs
              exact ⟨.escape (firstThreeBytes ('%' :: '/' :: y :: t)),
                by simp [unescapeCheck, hsl]⟩
        | [x], h, _ =>
          rcases hs with rfl | hs
          · exact ⟨_, h⟩
          · match s, hs with
            | y :: t, hs =>
              simp at hs
              subst hs
              exact ⟨.escape (firstThreeBytes ('%' :: x :: '/' :: t)),
                by simp [unescapeCheck, hsl]⟩
        | x :: y :: rest2, h, hn =>
          by_cases hh : (ishex x && ishex y) = true
          · rw [unescapeCheck_escape _ _ _ hh] at h
            show ∃ e1, unescapeCheck .encodePath ('%' :: x :: y :: (rest2 ++ s)) = _
            rw [unescapeCheck_escape _ _ _ hh]
            exact ih rest2.length (by simp at hn; omega) rest2 h rfl
          · refine ⟨.escape (firstThreeBytes ('%' :: x :: y :: (rest2 ++ s))), ?_⟩
            show unescapeCheck .encodePath ('%' :: x :: y :: (rest2 ++ s)) = _
            rw [unescapeCheck]
            simp [hh]
      · rw [unescapeCheck_cons _ _ hc] at h
        show ∃ e1, unescapeCheck .encodePath (c :: (rest ++ s)) = _
        rw [unescapeCheck_cons _ _ hc]
        exact ih rest.length (by simp at hn; omega) rest h rfl

/-- The second loop of `unescape` keeps a first byte other than the percent
sign. -/
theorem unescapeLoop_cons (c : Char) (s : List Char) (h : c ≠ '%') :
    unescapeLoop .encodePath (c :: s) [] = c :: unescapeLoop .encodePath s [] := by
  conv_lhs => unfold unescapeLoop
  simp [h, decodeRunes, decodeRunesLoop]

/-- An upper-case hexadecimal digit is an ASCII letter or digit. -/
theorem isAlnum_upperhex (n : Nat) : isAlnum (upperhex n) = true := by
  by_cases h : n < 16
  · interval_cases n <;> decide
  · have : upperhex n = '0' := by
      unfold upperhex
      exact List.getD_eq_default _ _ (by simp at h ⊢; exact h)
    rw [this]
    decide

/-- The escape of a byte is made of bytes that `validEncoded` accepts. -/
theorem validEncoded_escapeByte (b : Nat) (m : encoding) : validEncoded (escapeByte b) m = true := by
  have h1 : shouldEscape (upperhex (b / 16)) m = false := by
    simp [shouldEscape, isAlnum_upperhex]
  have h2 : shouldEscape (upperhex (b % 16)) m = false := by
    simp [shouldEscape, isAlnum_upperhex]
  simp [validEncoded, escapeByte, h1, h2]

/-- The escape of a text in a path, byte by byte. -/
theorem escape_cons (c : Char) (s : List Char) :
    escape (c :: s) .encodePath =
      (if shouldEscape c .encodePath then (utf8Bytes c).flatMap escapeByte else [c]) ++
        escape s .encodePath := by
  simp [escape]

/-- The escape of two texts one after the other. -/
theorem escape_append (a b : List Char) (m : encoding) :
    escape (a ++ b) m = escape a m ++ escape b m := by
  simp [escape]

/-- The escape of a text in a path is made of bytes that `validEncoded`
accepts. -/
theorem validEncoded_escape (s : List Char) :
    validEncoded (escape s .encodePath) .encodePath = true := by
  induction s with
  | nil => rfl
  | cons c s ih =>
    rw [escape_cons, validEncoded_append, ih, Bool.and_true]
    by_cases h : shouldEscape c .encodePath = true
    · rw [if_pos h]
      generalize utf8Bytes c = bs
      induction bs with
      | nil => rfl
      | cons b bs ihb =>
        rw [List.flatMap_cons, validEncoded_append, validEncoded_escapeByte, ihb]
        rfl
    · rw [if_neg h]
      simp only [Bool.not_eq_true] at h
      simp [validEncoded, h]

/-- The library helper `unescape` on a text that starts with a slash: when it
succeeds the result starts with a slash. -/
theorem unescape_slash (s t : List Char) (h : unescape ('/' :: s) .encodePath = .ok t) :
    ∃ t1, t = '/' :: t1 := by
  unfold unescape at h
  cases hc : unescapeCheck .encodePath ('/' :: s) with
  | error e => simp [hc] at h
  | ok u =>
    simp only [hc] at h
    have := Except.ok.inj h
    rw [unescapeLoop_cons _ _ (by decide)] at this
    exact ⟨_, this.symm⟩

/-- Method `EscapedPath` after `setPath` with a text that starts with a slash
and that `validEncoded` accepts: the text itself. -/
theorem EscapedPath_setPath (u u1 : URL) (q : List Char) (h : u.setPath ('/' :: q) = .ok u1)
    (hv : validEncoded ('/' :: q) .encodePath = true) : u1.EscapedPath = '/' :: q := by
  unfold URL.setPath at h
  cases hu : unescape ('/' :: q) .encodePath with
  | error e => simp [hu] at h
  | ok path =>
    obtain ⟨t, rfl⟩ := unescape_slash _ _ hu
    simp only [hu] at h
    have h1 := (Except.ok.inj h).symm
    subst h1
    have hstar : String.mk ('/' :: t) ≠ "*" := by
      intro e
      have := congrArg String.data e
      simp at this
    by_cases he : '/' :: q = escape ('/' :: t) .encodePath
    · simp only [URL.EscapedPath, he, ↓reduceIte, ne_eq, not_true_eq_false, false_and, hstar]
    · have hne : String.mk ('/' :: q) ≠ "" := by
        intro e
        have := congrArg String.data e
        simp at this
      simp only [URL.EscapedPath, he, ↓reduceIte, ne_eq, hne, not_false_eq_true, hv, unescapesTo,
        hu, and_self]
      simp

/-- Method `EscapedPath` after `setPath` with a text that starts with a slash
and that `validEncoded` does not accept: the escape of the path, which is
another text. -/
theorem EscapedPath_setPath_invalid (u u1 : URL) (q : List Char)
    (h : u.setPath ('/' :: q) = .ok u1) (hv : validEncoded ('/' :: q) .encodePath = false) :
    u1.EscapedPath = escape u1.Path.data .encodePath ∧ u1.EscapedPath ≠ '/' :: q := by
  unfold URL.setPath at h
  cases hu : unescape ('/' :: q) .encodePath with
  | error e => simp [hu] at h
  | ok path =>
    obtain ⟨t, rfl⟩ := unescape_slash _ _ hu
    simp only [hu] at h
    have h1 := (Except.ok.inj h).symm
    subst h1
    have hstar : String.mk ('/' :: t) ≠ "*" := by
      intro e
      have := congrArg String.data e
      simp at this
    have hval := validEncoded_escape ('/' :: t)
    have he : '/' :: q ≠ escape ('/' :: t) .encodePath := by
      intro e
      rw [← e, hv] at hval
      exact Bool.false_ne_true hval
    simp only [URL.EscapedPath, he, ↓reduceIte, ne_eq, hv, Bool.false_eq_true, false_and,
      and_false, hstar, not_false_eq_true, true_and]
    exact fun e => he e.symm

/-- A text that does not end in the separator and has one has a text after the
first separator. -/
theorem cut_snd_ne_nil (s : List Char) (sep : Char) (h : sep ∈ s) (hl : s.getLast? ≠ some sep) :
    (cut s sep).2 ≠ [] := by
  intro e
  have hj := cut_join s sep h
  rw [e] at hj
  apply hl
  rw [← hj]
  simp

/-- Method `setPath` changes the path and the raw path only. -/
theorem setPath_fields (u u1 : URL) (q : List Char) (h : u.setPath q = .ok u1) :
    u1.Scheme = u.Scheme ∧ u1.Opaque = u.Opaque ∧ u1.User = u.User ∧ u1.Host = u.Host ∧
    u1.ForceQuery = u.ForceQuery ∧ u1.RawQuery = u.RawQuery ∧ u1.Fragment = u.Fragment ∧
    unescape q .encodePath = .ok u1.Path.data := by
  unfold URL.setPath at h
  cases hu : unescape q .encodePath with
  | error e => simp [hu] at h
  | ok path =>
    simp only [hu] at h
    have h1 := (Except.ok.inj h).symm
    subst h1
    exact ⟨rfl, rfl, rfl, rfl, rfl, rfl, rfl, rfl⟩

/-- Method `setPath` succeeds on a text that `unescape` accepts. -/
theorem setPath_ok (u : URL) (q : List Char) (h : wellEscaped q = true) :
    ∃ u1, u.setPath q = .ok u1 := by
  unfold wellEscaped at h
  cases hc : unescapeCheck .encodePath q with
  | error e => simp [hc] at h
  | ok x =>
    refine ⟨{ u with Path := String.mk (unescapeLoop .encodePath q []),
                     RawPath := if q = escape (unescapeLoop .encodePath q []) .encodePath then ""
                       else String.mk q }, ?_⟩
    simp only [URL.setPath, unescape, hc]

/-- Method `setPath` fails on a text that `unescape` refuses. -/
theorem setPath_error (u : URL) (q : List Char) (h : wellEscaped q = false) :
    ∃ e, u.setPath q = .error e := by
  unfold wellEscaped at h
  cases hc : unescapeCheck .encodePath q with
  | error e => exact ⟨e, by simp only [URL.setPath, unescape, hc]⟩
  | ok x => simp [hc] at h

/-- Function `parse` on a text with a control byte. -/
theorem parse_ctl (s : List Char) (v : Bool) (h : stringContainsCTLByte s = true) :
    parse s v = .error .controlCharacter := by
  unfold parse
  simp [h]

/-- Function `parse` on the base URL followed by a text that starts with a
slash, has no control byte and does not end in a question mark: scheme `https`,
host `api.apple-cloudkit.com`, the text after the first question mark as the
query, and the text before it set as the path. -/
theorem parse_api (q : List Char) (v : Bool) (hctl : stringContainsCTLByte q = false)
    (hlast : q.getLast? ≠ some '?') :
    parse (baseURL.data ++ '/' :: q) v =
      URL.setPath { apiURL "" with RawQuery := String.mk (cut q '?').2 }
        ('/' :: (cut q '?').1) := by
  have e : baseURL.data = ['h', 't', 't', 'p', 's', ':', '/', '/', 'a', 'p', 'i', '.', 'a', 'p', 'p', 'l', 'e', '-', 'c', 'l', 'o', 'u', 'd', 'k', 'i', 't', '.', 'c', 'o', 'm'] := rfl
  have eh : "api.apple-cloudkit.com".data = ['a', 'p', 'i', '.', 'a', 'p', 'p', 'l', 'e', '-', 'c', 'l', 'o', 'u', 'd', 'k', 'i', 't', '.', 'c', 'o', 'm'] := rfl
  have hq2 : '?' ∉ ('/' :: '/' :: "api.apple-cloudkit.com".data ++ ['/']) := by decide
  have hcut : cut (('/' :: '/' :: "api.apple-cloudkit.com".data ++ ['/']) ++ q) '?' = _ :=
    cut_append _ q _ hq2
  have hlast2 : (('/' :: '/' :: "api.apple-cloudkit.com".data ++ ['/']) ++ q).getLast? ≠
      some '?' := by
    intro h
    cases q with
    | nil => revert h; decide
    | cons x xs =>
      rw [List.getLast?_append_of_ne_nil _ (by simp)] at h
      exact hlast h
  have hpa := parseAuthority_host
  rw [eh] at hcut hlast2 hpa
  simp only [List.cons_append, List.nil_append] at hcut hlast2
  have hc : stringContainsCTLByte (['h', 't', 't', 'p', 's', ':', '/', '/', 'a', 'p', 'i', '.', 'a', 'p', 'p', 'l', 'e', '-', 'c', 'l', 'o', 'u', 'd', 'k', 'i', 't', '.', 'c', 'o', 'm', '/'] ++ q) = false := by
    rw [ctl_append, hctl]
    rfl
  simp only [List.cons_append, List.nil_append] at hc
  unfold parse
  rw [e]
  simp only [hc, List.cons_append, List.nil_append, getScheme_https, hcut, hlast2]
  simp [hpa, URL.zero, apiURL]

/-- Method `String` of a URL with scheme `https`, host `api.apple-cloudkit.com`
and an escaped path that starts with a slash: the base URL, the escaped path,
and the query after a question mark when there is one. -/
theorem String_api (u : URL) (path : List Char) (hs : u.Scheme = "https") (ho : u.Opaque = "")
    (hu : u.User = none) (hh : u.Host = "api.apple-cloudkit.com") (hfq : u.ForceQuery = false)
    (hf : u.Fragment = "") (hp : u.EscapedPath = '/' :: path) :
    u.String = String.mk (baseURL.data ++ '/' :: path ++
      (if u.RawQuery = "" then [] else '?' :: u.RawQuery.data)) := by
  have hesc : escape "api.apple-cloudkit.com".data .encodeHost = "api.apple-cloudkit.com".data := by
    rfl
  have h1 : ("https" : String) ≠ "" := by decide
  have h2 : ("api.apple-cloudkit.com" : String) ≠ "" := by decide
  unfold URL.String
  rw [hp]
  simp only [hs, ho, hu, hh, hfq, hf, hesc, h1, h2]
  by_cases hq : u.RawQuery = ""
  · simp [hq]
    rfl
  · simp [hq]
    rfl

/-- A text that does not end in a question mark is the text before its first
question mark followed, when there is a question mark, by the question mark
and the text after it. -/
theorem cut_render (s : List Char) (hl : s.getLast? ≠ some '?') :
    (cut s '?').1 ++ (if String.mk (cut s '?').2 = "" then [] else '?' :: (cut s '?').2) = s := by
  by_cases h : '?' ∈ s
  · have hne := cut_snd_ne_nil s '?' h hl
    have hs : String.mk (cut s '?').2 ≠ "" := by
      intro e
      exact hne (congrArg String.data e)
    rw [if_neg hs]
    exact cut_join s '?' h
  · rw [cut_of_not_mem s '?' h]
    simp

/-- The wire names of the two environments are path texts. -/
theorem environment_pathText (e : Environment)
    (he : e = Environment.Development ∨ e = Environment.Production) :
    PathText e.String.data = true ∧ e.String.data ≠ [] := by
  rcases he with rfl | rfl <;> exact ⟨by decide, by decide⟩

/-- The text before the first question mark of
`database/1/<container>/<environment>`. -/
theorem cut_container (c es : List Char) (hes : '?' ∉ es) :
    (cut ("database/1/".data ++ c ++ '/' :: es) '?').1 =
      "database/1/".data ++ (cut c '?').1 ++ (if '?' ∈ c then [] else '/' :: es) := by
  have hp : '?' ∉ "database/1/".data := by decide
  rw [List.append_assoc, cut_append _ _ _ hp]
  by_cases h : '?' ∈ c
  · rw [cut_append_mem _ _ _ h, if_pos h]
    simp
  · have h2 : '?' ∉ c ++ '/' :: es := by
      simp only [List.mem_append, List.mem_cons, not_or]
      exact ⟨h, by decide, hes⟩
    rw [cut_of_not_mem _ _ h2, cut_of_not_mem _ _ h, if_neg h]
    simp

/-- Whether `unescape` accepts the path of the base URL is whether it accepts
the container identifier up to its first question mark. -/
theorem wellEscaped_container (c es : List Char) (hes : PathText es = true) :
    wellEscaped ('/' :: (cut ("database/1/".data ++ c ++ '/' :: es) '?').1) =
      wellEscaped (cut c '?').1 := by
  rw [cut_container c es (not_mem_pathText es hes).1]
  have h0 : unescapeCheck .encodePath ('/' :: "database/1/".data) = .ok () :=
    unescapeCheck_pathText _ (by decide)
  have ht : unescapeCheck .encodePath (if '?' ∈ c then [] else '/' :: es) = .ok () := by
    apply unescapeCheck_pathText
    split
    · rfl
    · rw [PathText_cons]
      exact ⟨by decide, hes⟩
  have hhead : (if '?' ∈ c then [] else '/' :: es) = [] ∨
      (if '?' ∈ c then [] else '/' :: es).head? = some '/' := by
    split
    · exact Or.inl rfl
    · exact Or.inr rfl
  have e1 : '/' :: ("database/1/".data ++ (cut c '?').1 ++ (if '?' ∈ c then [] else '/' :: es)) =
      ('/' :: "database/1/".data) ++ ((cut c '?').1 ++ (if '?' ∈ c then [] else '/' :: es)) := by
    simp
  unfold wellEscaped
  rw [e1, unescapeCheck_append_ok _ _ h0]
  cases hc : unescapeCheck .encodePath (cut c '?').1 with
  | ok x =>
    cases x
    rw [unescapeCheck_append_ok _ _ hc, ht]
  | error err =>
    obtain ⟨e2, h2⟩ := unescapeCheck_append_error _ _ err hc hhead
    rw [h2]

/-- Whether `validEncoded` accepts the path of the base URL is whether it
accepts the container identifier up to its first question mark. -/
theorem validEncoded_container (c es : List Char) (hes : PathText es = true) :
    validEncoded ('/' :: (cut ("database/1/".data ++ c ++ '/' :: es) '?').1) .encodePath =
      validEncoded (cut c '?').1 .encodePath := by
  rw [cut_container c es (not_mem_pathText es hes).1]
  have e1 : '/' :: ("database/1/".data ++ (cut c '?').1 ++ (if '?' ∈ c then [] else '/' :: es)) =
      ('/' :: "database/1/".data) ++ ((cut c '?').1 ++ (if '?' ∈ c then [] else '/' :: es)) := by
    simp
  have h0 : validEncoded ('/' :: "database/1/".data) .encodePath = true := by decide
  have ht : validEncoded (if '?' ∈ c then [] else '/' :: es) .encodePath = true := by
    have : PathText (if '?' ∈ c then [] else '/' :: es) = true := by
      split
      · rfl
      · rw [PathText_cons]
        exact ⟨by decide, hes⟩
    unfold PathText at this
    unfold validEncoded
    rw [List.all_eq_true] at this ⊢
    intro x hx
    rw [this x hx]
    simp
  rw [e1, validEncoded_append, validEncoded_append, h0, ht]
  simp

/-- What `NewClient` does without options: it parses the text of the base URL
and keeps the URL in a client with the Records service, the user agent
`icloud-go` and strict decoding off. -/
theorem NewClient_parse (L : Lib) (hL : L.NetURL) (t : Request → Except Err Response)
    (c keyID : String) (key : Option L.PrivateKey) (e : Environment) :
    NewClient L t c keyID key e [] =
      match parse (baseURL.data ++ '/' :: ("database/1/".data ++ c.data ++ '/' :: e.String.data))
          true with
      | .error err =>
        .error (.url "parse" (baseURL ++ "/database/1/" ++ c ++ "/" ++ e.String) err)
      | .ok u =>
        .ok { baseURL := u, userAgent := "icloud-go", keyID := keyID, privateKey := key,
              strictDecoding := false, httpClient := t,
              Records := some { basePath := "/records/modify" } } := by
  have hu : baseURL ++ "/database/" ++ toString apiVersion ++ "/" ++ c ++ "/" ++ e.String =
      String.mk (baseURL.data ++ '/' :: ("database/1/".data ++ c.data ++ '/' :: e.String.data)) := by
    apply String.ext
    have h1 : (toString apiVersion).data = ['1'] := by decide
    have h2 : ("/database/" : String).data = '/' :: "database/".data := by decide
    have h3 : ("database/1/" : String).data = "database/".data ++ ['1'] ++ ['/'] := by decide
    have h4 : ("/" : String).data = ['/'] := by decide
    simp only [String.data_append, h1, h2, h3, h4]
    simp
  have hv : baseURL ++ "/database/1/" ++ c ++ "/" ++ e.String =
      String.mk (baseURL.data ++ '/' :: ("database/1/".data ++ c.data ++ '/' :: e.String.data)) := by
    apply String.ext
    have h2 : ("/database/1/" : String).data = '/' :: "database/1/".data := by decide
    have h4 : ("/" : String).data = ['/'] := by decide
    simp only [String.data_append, h2, h4]
    simp
  unfold NewClient
  simp only [hL.2.1, hu, hv, ParseRequestURI]
  cases parse (baseURL.data ++ '/' :: ("database/1/".data ++ c.data ++ '/' :: e.String.data)) true with
  | error err => rfl
  | ok u => rfl

/-! ### Escapes and UTF-8 in `net/url` -/

/-- The range of the code of a character. -/
theorem charCode_range (c : Char) :
    c.toNat < 0xD800 ∨ (0xDFFF < c.toNat ∧ c.toNat < 0x110000) := by
  have h := c.valid
  simp only [UInt32.isValidChar, Nat.isValidChar] at h
  exact h

/-- Every byte of the UTF-8 encoding of a character is below 256. -/
theorem utf8Bytes_lt (c : Char) : ∀ b ∈ utf8Bytes c, b < 256 := by
  have hr := charCode_range c
  intro b hb
  unfold utf8Bytes at hb
  simp only at hb
  split at hb
  · simp only [List.mem_singleton] at hb
    omega
  · split at hb
    · simp only [List.mem_cons, List.mem_singleton, List.not_mem_nil, or_false] at hb
      omega
    · split at hb
      · simp only [List.mem_cons, List.mem_singleton, List.not_mem_nil, or_false] at hb
        omega
      · simp only [List.mem_cons, List.mem_singleton, List.not_mem_nil, or_false] at hb
        omega

/-- Decoding the UTF-8 encoding of a character gives the character and the
length of the encoding. -/
theorem decodeRune_utf8Bytes (c : Char) (rest : List Nat) :
    ∃ b0 bs, utf8Bytes c = b0 :: bs ∧ decodeRune b0 (bs ++ rest) = (c, bs.length + 1) := by
  have hr := charCode_range c
  have hc : Char.ofNat c.toNat = c := Char.ofNat_toNat c
  generalize hn : c.toNat = n at hr hc
  by_cases h1 : n < 0x80
  · refine ⟨n, [], by simp [utf8Bytes, hn, h1], ?_⟩
    simp [decodeRune, h1, hc]
  by_cases h2 : n < 0x800
  · refine ⟨0xC0 + n / 64, [0x80 + n % 64], by simp [utf8Bytes, hn, h1, h2], ?_⟩
    have a1 : ¬ (0xC0 + n / 64 < 0x80) := by omega
    have a2 : ¬ (0xC0 + n / 64 < 0xC2 ∨ 0xF4 < 0xC0 + n / 64) := by omega
    have a3 : 0xC0 + n / 64 < 0xE0 := by omega
    have a4 : ¬ (0xC0 + n / 64 = 0xE0) := by omega
    have a5 : ¬ (0xC0 + n / 64 = 0xF0) := by omega
    have a6 : ¬ (0xC0 + n / 64 = 0xED) := by omega
    have a7 : ¬ (0xC0 + n / 64 = 0xF4) := by omega
    have a8 : ¬ (0x80 + n % 64 < 0x80 ∨ 0xBF < 0x80 + n % 64) := by omega
    have a9 : (0xC0 + n / 64 - 0xC0) * 64 + (0x80 + n % 64 - 0x80) = n := by omega
    simp only [decodeRune, a1, a2, a3, a4, a5, a6, a7, ↓reduceIte, List.singleton_append,
      List.length_cons, List.getD_cons_zero, a8, a9, hc]
    simp
  by_cases h3 : n < 0x10000
  · refine ⟨0xE0 + n / 4096, [0x80 + n / 64 % 64, 0x80 + n % 64],
      by simp [utf8Bytes, hn, h1, h2, h3], ?_⟩
    have a1 : ¬ (0xE0 + n / 4096 < 0x80) := by omega
    have a2 : ¬ (0xE0 + n / 4096 < 0xC2 ∨ 0xF4 < 0xE0 + n / 4096) := by omega
    have a3 : ¬ (0xE0 + n / 4096 < 0xE0) := by omega
    have a3b : 0xE0 + n / 4096 < 0xF0 := by omega
    have a5 : ¬ (0xE0 + n / 4096 = 0xF0) := by omega
    have a7 : ¬ (0xE0 + n / 4096 = 0xF4) := by omega
    have a8 : ¬ (0x80 + n / 64 % 64 < (if 0xE0 + n / 4096 = 0xE0 then 0xA0 else 0x80) ∨
        (if 0xE0 + n / 4096 = 0xED then 0x9F else 0xBF) < 0x80 + n / 64 % 64) := by
      split <;> split <;> omega
    have a9 : (0xE0 + n / 4096 - 0xE0) * 4096 + (0x80 + n / 64 % 64 - 0x80) * 64 +
        (0x80 + n % 64 - 0x80) = n := by omega
    have a10 : isCont (0x80 + n % 64) = true := by
      simp only [isCont, Bool.and_eq_true, decide_eq_true_eq]
      omega
    simp only [decodeRune, a1, a2, a3, a3b, a5, a7, ↓reduceIte, List.cons_append,
      List.nil_append, List.length_cons, List.getD_cons_zero, List.getD_cons_succ, a8, a9, hc,
      a10]
    simp
  · have h4 : n < 0x110000 := by omega
    refine ⟨0xF0 + n / 262144, [0x80 + n / 4096 % 64, 0x80 + n / 64 % 64, 0x80 + n % 64],
      by simp [utf8Bytes, hn, h1, h2, h3], ?_⟩
    have a1 : ¬ (0xF0 + n / 262144 < 0x80) := by omega
    have a2 : ¬ (0xF0 + n / 262144 < 0xC2 ∨ 0xF4 < 0xF0 + n / 262144) := by omega
    have a3 : ¬ (0xF0 + n / 262144 < 0xE0) := by omega
    have a3b : ¬ (0xF0 + n / 262144 < 0xF0) := by omega
    have a4 : ¬ (0xF0 + n / 262144 = 0xE0) := by omega
    have a6 : ¬ (0xF0 + n / 262144 = 0xED) := by omega
    have a8 : ¬ (0x80 + n / 4096 % 64 < (if 0xF0 + n / 262144 = 0xF0 then 0x90 else 0x80) ∨
        (if 0xF0 + n / 262144 = 0xF4 then 0x8F else 0xBF) < 0x80 + n / 4096 % 64) := by
      split <;> split <;> omega
    have a9 : (0xF0 + n / 262144 - 0xF0) * 262144 + (0x80 + n / 4096 % 64 - 0x80) * 4096 +
        (0x80 + n / 64 % 64 - 0x80) * 64 + (0x80 + n % 64 - 0x80) = n := by omega
    have a10 : isCont (0x80 + n % 64) = true := by
      simp only [isCont, Bool.and_eq_true, decide_eq_true_eq]
      omega
    have a11 : isCont (0x80 + n / 64 % 64) = true := by
      simp only [isCont, Bool.and_eq_true, decide_eq_true_eq]
      omega
    simp only [decodeRune, a1, a2, a3, a3b, a4, a6, ↓reduceIte, List.cons_append,
      List.nil_append, List.length_cons, List.getD_cons_zero, List.getD_cons_succ, a8, a9, hc,
      a10, a11]
    simp

/-- The runes of the UTF-8 encoding of a text are its characters, whatever fuel
beyond the length is given. -/
theorem decodeRunesLoop_utf8 (cs : List Char) :
    ∀ fuel, (cs.flatMap utf8Bytes).length ≤ fuel →
      decodeRunesLoop fuel (cs.flatMap utf8Bytes) = cs := by
  induction cs with
  | nil =>
    intro fuel _
    cases fuel <;> rfl
  | cons c cs ih =>
    intro fuel hf
    obtain ⟨b0, bs, hb, hd⟩ := decodeRune_utf8Bytes c (cs.flatMap utf8Bytes)
    rw [List.flatMap_cons, hb] at hf ⊢
    cases fuel with
    | zero => simp at hf
    | succ f =>
      show decodeRunesLoop (f + 1) (b0 :: (bs ++ cs.flatMap utf8Bytes)) = _
      rw [decodeRunesLoop, hd]
      simp only [Nat.add_sub_cancel, List.drop_left]
      rw [ih f (by simp only [List.length_cons, List.length_append] at hf; omega)]

/-- The runes of the UTF-8 encoding of a text are its characters. -/
theorem decodeRunes_utf8 (cs : List Char) : decodeRunes (cs.flatMap utf8Bytes) = cs :=
  decodeRunesLoop_utf8 cs _ (Nat.le_refl _)

/-- An upper-case hexadecimal digit is a hexadecimal digit. -/
theorem ishex_upperhex (n : Nat) : ishex (upperhex n) = true := by
  by_cases h : n < 16
  · interval_cases n <;> decide
  · have : upperhex n = '0' := by
      unfold upperhex
      exact List.getD_eq_default _ _ (by simp at h ⊢; exact h)
    rw [this]
    decide

/-- The value of an upper-case hexadecimal digit. -/
theorem unhex_upperhex (n : Nat) (h : n < 16) : unhex (upperhex n) = n := by
  interval_cases n <;> decide

/-- An escape with two hexadecimal digits in the second loop of `unescape`. -/
theorem unescapeLoop_escape_step (a b : Char) (s : List Char) (pending : List Nat) :
    unescapeLoop .encodePath ('%' :: a :: b :: s) pending =
      unescapeLoop .encodePath s (pending ++ [unhex a * 16 + unhex b]) := by
  conv_lhs => unfold unescapeLoop
  simp

/-- A byte other than the percent sign in the second loop of `unescape`. -/
theorem unescapeLoop_plain (c : Char) (s : List Char) (pending : List Nat) (h : c ≠ '%') :
    unescapeLoop .encodePath (c :: s) pending =
      decodeRunes pending ++ c :: unescapeLoop .encodePath s [] := by
  conv_lhs => unfold unescapeLoop
  simp [h]

/-- The second loop of `unescape` on the escapes of bytes: the bytes are
pending. -/
theorem unescapeLoop_escapeBytes (bs : List Nat) (hb : ∀ b ∈ bs, b < 256) (rest : List Char) :
    ∀ pending, unescapeLoop .encodePath (bs.flatMap escapeByte ++ rest) pending =
      unescapeLoop .encodePath rest (pending ++ bs) := by
  induction bs with
  | nil => intro pending; simp
  | cons b bs ih =>
    intro pending
    have hb1 : b < 256 := hb b (by simp)
    have h1 : unhex (upperhex (b / 16)) * 16 + unhex (upperhex (b % 16)) = b := by
      rw [unhex_upperhex _ (by omega), unhex_upperhex _ (by omega)]
      omega
    show unescapeLoop .encodePath
      ('%' :: upperhex (b / 16) :: upperhex (b % 16) :: (bs.flatMap escapeByte ++ rest)) pending = _
    rw [unescapeLoop_escape_step, h1, ih (fun x hx => hb x (by simp [hx]))]
    simp

/-- The first loop of `unescape` accepts the escapes of bytes. -/
theorem unescapeCheck_escapeBytes (bs : List Nat) (rest : List Char) :
    unescapeCheck .encodePath (bs.flatMap escapeByte ++ rest) =
      unescapeCheck .encodePath rest := by
  induction bs with
  | nil => simp
  | cons b bs ih =>
    show unescapeCheck .encodePath
      ('%' :: upperhex (b / 16) :: upperhex (b % 16) :: (bs.flatMap escapeByte ++ rest)) = _
    rw [unescapeCheck_escape _ _ _ (by simp [ishex_upperhex]), ih]

/-- A byte that a path holds unescaped is not the percent sign. -/
theorem ne_percent_of_not_shouldEscape (c : Char) (h : shouldEscape c .encodePath = false) :
    c ≠ '%' := by
  rintro rfl
  revert h
  decide

/-- The first loop of `unescape` accepts the escape of a text. -/
theorem unescapeCheck_escape_ok (s : List Char) :
    unescapeCheck .encodePath (escape s .encodePath) = .ok () := by
  induction s with
  | nil => rfl
  | cons c s ih =>
    rw [escape_cons]
    by_cases h : shouldEscape c .encodePath = true
    · rw [if_pos h, unescapeCheck_escapeBytes, ih]
    · simp only [Bool.not_eq_true] at h
      rw [if_neg (by simp [h])]
      show unescapeCheck .encodePath (c :: escape s .encodePath) = _
      rw [unescapeCheck_cons _ _ (ne_percent_of_not_shouldEscape c h), ih]

/-- The second loop of `unescape` on the escape of a text gives the text back,
after the characters whose bytes are pending. -/
theorem unescapeLoop_escape (s : List Char) :
    ∀ P : List Char, unescapeLoop .encodePath (escape s .encodePath) (P.flatMap utf8Bytes) =
      P ++ s := by
  induction s with
  | nil =>
    intro P
    show decodeRunes (P.flatMap utf8Bytes) = P ++ []
    rw [decodeRunes_utf8, List.append_nil]
  | cons c s ih =>
    intro P
    rw [escape_cons]
    by_cases h : shouldEscape c .encodePath = true
    · rw [if_pos h, unescapeLoop_escapeBytes _ (utf8Bytes_lt c)]
      have := ih (P ++ [c])
      simp only [List.flatMap_append, List.flatMap_cons, List.flatMap_nil, List.append_nil,
        List.append_assoc, List.singleton_append] at this
      exact this
    · simp only [Bool.not_eq_true] at h
      rw [if_neg (by simp [h])]
      show unescapeLoop .encodePath (c :: escape s .encodePath) _ = _
      rw [unescapeLoop_plain _ _ _ (ne_percent_of_not_shouldEscape c h), decodeRunes_utf8]
      have := ih []
      simp only [List.flatMap_nil, List.nil_append] at this
      rw [this]

/-- The library helper `unescape` on the escape of a text gives the text back. -/
theorem unescape_escape (s : List Char) :
    unescape (escape s .encodePath) .encodePath = .ok s := by
  have := unescapeLoop_escape s []
  simp only [List.flatMap_nil, List.nil_append] at this
  simp only [unescape, unescapeCheck_escape_ok, this]

/-- The library helper `unescape` on a text without a percent sign gives the
text. -/
theorem unescape_plain (s : List Char) (h : '%' ∉ s) : unescape s .encodePath = .ok s := by
  have h1 : unescapeCheck .encodePath s = .ok () ∧ unescapeLoop .encodePath s [] = s := by
    induction s with
    | nil => exact ⟨rfl, rfl⟩
    | cons c s ih =>
      have hc : c ≠ '%' := fun e => h (by simp [e])
      have hs : '%' ∉ s := fun e => h (by simp [e])
      obtain ⟨i1, i2⟩ := ih hs
      rw [unescapeCheck_cons _ _ hc, unescapeLoop_cons _ _ hc, i1, i2]
      exact ⟨rfl, rfl⟩
  simp only [unescape, h1.1, h1.2]

/-- A byte that `validEncoded` accepts in a path is no question mark, no number
sign and no control byte. -/
theorem validByte_ne (c : Char)
    (h : ("!$&()*+,;=:@[]%".data.contains c || c.toNat = 39 ||
      !shouldEscape c .encodePath) = true) :
    c ≠ '?' ∧ c ≠ '#' ∧ ¬ c.toNat < 32 ∧ c.toNat ≠ 127 := by
  refine ⟨?_, ?_, ?_⟩
  · rintro rfl
    revert h
    decide
  · rintro rfl
    revert h
    decide
  · simp only [Bool.or_eq_true, decide_eq_true_eq, Bool.not_eq_true'] at h
    rcases h with (h | h) | h
    · simp only [List.contains_eq_any_beq, List.any_eq_true, beq_iff_eq] at h
      obtain ⟨x, hx, rfl⟩ := h
      simp only [List.mem_cons, List.mem_singleton, List.not_mem_nil, or_false] at hx
      rcases hx with rfl | rfl | rfl | rfl | rfl | rfl | rfl | rfl | rfl | rfl | rfl | rfl | rfl |
        rfl | rfl <;> decide
    · omega
    · obtain ⟨-, -, -, -, h1, h2⟩ := pathByte_ne c h
      exact ⟨h1, h2⟩

/-- A text that `validEncoded` accepts in a path has no control byte, no
question mark and no number sign. -/
theorem validEncoded_spec (s : List Char) (h : validEncoded s .encodePath = true) :
    stringContainsCTLByte s = false ∧ '?' ∉ s ∧ '#' ∉ s := by
  induction s with
  | nil => exact ⟨rfl, by simp, by simp⟩
  | cons c s ih =>
    have hc : ("!$&()*+,;=:@[]%".data.contains c || c.toNat = 39 ||
        !shouldEscape c .encodePath) = true := by
      unfold validEncoded at h
      rw [List.all_cons, Bool.and_eq_true] at h
      exact h.1
    have hs : validEncoded s .encodePath = true := by
      unfold validEncoded at h ⊢
      rw [List.all_cons, Bool.and_eq_true] at h
      exact h.2
    obtain ⟨i1, i2, i3⟩ := ih hs
    obtain ⟨c1, c2, c3, c4⟩ := validByte_ne c hc
    refine ⟨?_, ?_, ?_⟩
    · unfold stringContainsCTLByte at i1 ⊢
      simp [c3, c4, i1]
    · simp [Ne.symm c1, i2]
    · simp [Ne.symm c2, i3]

/-- What `Plain` says. -/
theorem Plain_spec (s : List Char) (h : Plain s = true) :
    stringContainsCTLByte s = false ∧ '?' ∉ s ∧ '%' ∉ s := by
  induction s with
  | nil => exact ⟨rfl, by simp, by simp⟩
  | cons c s ih =>
    unfold Plain at h ih
    rw [List.all_cons, Bool.and_eq_true] at h
    obtain ⟨i1, i2, i3⟩ := ih h.2
    have hc := h.1
    simp only [Bool.and_eq_true, Bool.not_eq_true', Bool.or_eq_false_iff, decide_eq_false_iff_not,
      bne_iff_ne, ne_eq] at hc
    obtain ⟨⟨⟨c3, c4⟩, c1⟩, c2⟩ := hc
    refine ⟨?_, ?_, ?_⟩
    · unfold stringContainsCTLByte at i1 ⊢
      simp [c3, c4, i1]
    · simp [Ne.symm c1, i2]
    · simp [Ne.symm c2, i3]

/-- The predicate `Plain` on two texts one after the other. -/
theorem Plain_append (s t : List Char) : Plain (s ++ t) = (Plain s && Plain t) := by
  simp [Plain, List.all_append]

/-- The escape of a character that has to be escaped starts with a percent
sign. -/
theorem escapeBytes_head (c : Char) :
    ∃ rest, (utf8Bytes c).flatMap escapeByte = '%' :: rest := by
  obtain ⟨b0, bs, hb, -⟩ := decodeRune_utf8Bytes c []
  rw [hb]
  exact ⟨_, rfl⟩

/-- The escapes of bytes have no slash. -/
theorem escapeBytes_no_slash (bs : List Nat) : '/' ∉ bs.flatMap escapeByte := by
  induction bs with
  | nil => simp
  | cons b bs ih =>
    have h1 : upperhex (b / 16) ≠ '/' := by
      intro e
      have := isAlnum_upperhex (b / 16)
      rw [e] at this
      revert this
      decide
    have h2 : upperhex (b % 16) ≠ '/' := by
      intro e
      have := isAlnum_upperhex (b % 16)
      rw [e] at this
      revert this
      decide
    simp only [List.flatMap_cons, escapeByte, List.cons_append, List.nil_append, List.mem_cons,
      not_or]
    exact ⟨by decide, Ne.symm h1, Ne.symm h2, ih⟩

/-- The escape of a text without a slash has no slash. -/
theorem escape_no_slash (s : List Char) (h : '/' ∉ s) : '/' ∉ escape s .encodePath := by
  induction s with
  | nil => simp [escape]
  | cons c s ih =>
    have hc : c ≠ '/' := fun e => h (by simp [e])
    have hs : '/' ∉ s := fun e => h (by simp [e])
    rw [escape_cons]
    simp only [List.mem_append, not_or]
    refine ⟨?_, ih hs⟩
    split
    · exact escapeBytes_no_slash _
    · simp [Ne.symm hc]

/-- A text whose escape is made of dots is made of dots. -/
theorem escape_dots (s : List Char) :
    ∀ k, escape s .encodePath = List.replicate k '.' → s = List.replicate k '.' := by
  induction s with
  | nil =>
    intro k h
    cases k with
    | zero => rfl
    | succ k => simp [escape, List.replicate] at h
  | cons c s ih =>
    intro k h
    rw [escape_cons] at h
    by_cases hc : shouldEscape c .encodePath = true
    · rw [if_pos hc] at h
      obtain ⟨rest, hr⟩ := escapeBytes_head c
      rw [hr] at h
      cases k with
      | zero => simp at h
      | succ k =>
        simp only [List.replicate, List.cons_append, List.cons.injEq] at h
        exact absurd h.1 (by decide)
    · rw [if_neg hc] at h
      cases k with
      | zero => simp at h
      | succ k =>
        simp only [List.replicate, List.cons_append, List.nil_append, List.cons.injEq] at h
        rw [h.1, ih k h.2]
        rfl

/-- From the four properties of an element to `Segment`. -/
theorem Segment_intro (e : List Char) (h1 : '/' ∉ e) (h2 : e ≠ []) (h3 : e ≠ ['.'])
    (h4 : e ≠ ['.', '.']) : Segment e = true := by
  simp [Segment, h1, h2, h3, h4]

/-- The escape of an element that `path.Clean` and `resolvePath` keep is such
an element. -/
theorem Segment_escape (e : List Char) (h : Segment e = true) :
    Segment (escape e .encodePath) = true := by
  obtain ⟨h1, h2, h3, h4⟩ := Segment_spec e h
  refine Segment_intro _ (escape_no_slash e h1) ?_ ?_ ?_
  · intro x
    exact h2 (escape_dots e 0 x)
  · intro x
    exact h3 (escape_dots e 1 x)
  · intro x
    exact h4 (escape_dots e 2 x)

/-- The escape of a path of elements is the path of the escaped elements. -/
theorem escape_joinElems (es : List (List Char)) :
    escape (joinElems es) .encodePath = joinElems (es.map (fun e => escape e .encodePath)) := by
  induction es with
  | nil => rfl
  | cons e es ih =>
    rw [List.map_cons, joinElems_cons, joinElems_cons, escape_cons, escape_append, ih]
    rfl

/-- The text `wirePath` of a rooted path of elements that `path.Clean` and
`resolvePath` keep is again such a path. -/
theorem wirePath_joinElems (e : List Char) (es : List (List Char))
    (h : ∀ x ∈ e :: es, Segment x = true) :
    ∃ e1 es1, wirePath (joinElems (e :: es)) = joinElems (e1 :: es1) ∧
      ∀ x ∈ e1 :: es1, Segment x = true := by
  unfold wirePath
  split
  · exact ⟨e, es, rfl, h⟩
  · refine ⟨escape e .encodePath, es.map (fun e => escape e .encodePath), ?_, ?_⟩
    · rw [escape_joinElems]
      rfl
    · intro x hx
      rw [← List.map_cons (fun e => escape e .encodePath), List.mem_map] at hx
      obtain ⟨y, hy, rfl⟩ := hx
      exact Segment_escape y (h y hy)

/-- The text `wirePath` is one that `validEncoded` accepts. -/
theorem validEncoded_wirePath (p : List Char) :
    validEncoded (wirePath p) .encodePath = true := by
  unfold wirePath
  split
  · assumption
  · exact validEncoded_escape p

/-- The library helper `unescape` gives back the path of a `wirePath` when the
path has no percent sign. -/
theorem unescape_wirePath (p : List Char) (h : '%' ∉ p) :
    unescape (wirePath p) .encodePath = .ok p := by
  unfold wirePath
  split
  · exact unescape_plain p h
  · exact unescape_escape p

/-- The text `wirePath` of a path that starts with a slash starts with a slash. -/
theorem wirePath_slash (p : List Char) : wirePath ('/' :: p) = '/' :: wirePath p := by
  have h1 : validEncoded ('/' :: p) .encodePath = validEncoded p .encodePath := by
    show validEncoded (['/'] ++ p) .encodePath = _
    rw [validEncoded_append]
    rfl
  unfold wirePath
  rw [h1, escape_cons]
  split <;> rfl

/-- The elements of a text between its slashes make the text, each after a
slash. -/
theorem joinElems_splitSlash (s : List Char) : joinElems (splitSlash s) = '/' :: s := by
  induction s with
  | nil => rfl
  | cons c s ih =>
    by_cases hc : c = '/'
    · subst hc
      simp only [splitSlash, ↓reduceIte, joinElems_cons, List.nil_append, ih]
    · cases hs : splitSlash s with
      | nil =>
        rw [hs] at ih
        simp [joinElems] at ih
      | cons x xs =>
        rw [hs, joinElems_cons] at ih
        simp only [splitSlash, hc, ↓reduceIte, hs, joinElems_cons, List.cons_append]
        rw [(List.cons.inj ih).2]

/-- The path of two lists of elements one after the other. -/
theorem joinElems_append (a b : List (List Char)) :
    joinElems (a ++ b) = joinElems a ++ joinElems b := by
  simp [joinElems]

/-! ### Requests for paths without control byte, question mark and percent sign -/

/-- Method `setPath` on a text without a percent sign: the text is the path,
and it is the raw path too when it is not its own escape. -/
theorem setPath_plain (u : URL) (p : List Char) (h : '%' ∉ p) :
    u.setPath p = .ok { u with Path := String.mk p, RawPath := rawOf p } := by
  simp only [URL.setPath, unescape_plain p h, rawOf]

/-- Method `setPath` on the `wirePath` of a path without a percent sign: the
path is stored. -/
theorem setPath_wirePath (u : URL) (p : List Char) (h : '%' ∉ p) :
    u.setPath (wirePath p) =
      .ok { u with Path := String.mk p,
                   RawPath := if wirePath p = escape p .encodePath then ""
                     else String.mk (wirePath p) } := by
  simp only [URL.setPath, unescape_wirePath p h]

/-- Method `EscapedPath` of a URL whose path was set from a text that starts
with a slash and has no percent sign: the `wirePath` of the path. -/
theorem EscapedPath_plain (u : URL) (p : List Char) (h : '%' ∉ '/' :: p) :
    URL.EscapedPath { u with Path := String.mk ('/' :: p), RawPath := rawOf ('/' :: p) } =
      wirePath ('/' :: p) := by
  have hs := setPath_plain u _ h
  unfold wirePath
  by_cases hv : validEncoded ('/' :: p) .encodePath = true
  · rw [if_pos hv]
    exact EscapedPath_setPath _ _ _ hs hv
  · rw [if_neg hv]
    simp only [Bool.not_eq_true] at hv
    exact (EscapedPath_setPath_invalid _ _ _ hs hv).1

/-- Method `EscapedPath` of a URL whose path was set from the `wirePath` of a
path that starts with a slash and has no percent sign: the `wirePath`. -/
theorem EscapedPath_wirePath (u : URL) (p : List Char) (h : '%' ∉ '/' :: p) :
    URL.EscapedPath { u with Path := String.mk ('/' :: p),
                             RawPath := if wirePath ('/' :: p) = escape ('/' :: p) .encodePath
                               then "" else String.mk (wirePath ('/' :: p)) } =
      wirePath ('/' :: p) := by
  have hs := setPath_wirePath u _ h
  have hv := validEncoded_wirePath ('/' :: p)
  rw [wirePath_slash] at hs hv ⊢
  exact EscapedPath_setPath _ _ _ hs hv

/-- Function `url.ParseRequestURI` on a text that starts with a slash and has
no control byte and no question mark: the text is set as the path of a URL
with nothing else. -/
theorem parse_rooted (p : List Char) (hctl : stringContainsCTLByte ('/' :: p) = false)
    (hq : '?' ∉ '/' :: p) : parse ('/' :: p) true = URL.zero.setPath ('/' :: p) := by
  have hcut := cut_of_not_mem _ _ hq
  have hlast : ('/' :: p).getLast? ≠ some '?' := fun h => hq (List.mem_of_getLast?_eq_some h)
  unfold parse
  simp only [hctl, getScheme_slash, hcut, hlast]
  simp [URL.zero]

/-- Method `ResolveReference` on a reference that is just a rooted path of
elements that `resolvePath` keeps, without a percent sign: scheme, host and
user of the receiver and the path of the reference. -/
theorem ResolveReference_rooted (base : URL) (e : List Char) (es : List (List Char))
    (h : ∀ x ∈ e :: es, Segment x = true) (hp : '%' ∉ joinElems (e :: es)) :
    base.ResolveReference
        { URL.zero with Path := String.mk (joinElems (e :: es)),
                        RawPath := rawOf (joinElems (e :: es)) } =
      { URL.zero with Scheme := base.Scheme, Host := base.Host, User := base.User,
                      Path := String.mk (joinElems (e :: es)),
                      RawPath := if wirePath (joinElems (e :: es)) =
                          escape (joinElems (e :: es)) .encodePath then ""
                        else String.mk (wirePath (joinElems (e :: es))) } := by
  have hne : String.mk (joinElems (e :: es)) ≠ "" := by
    intro h
    have := congrArg String.data h
    simp [joinElems] at this
  have hesc : URL.EscapedPath
      { URL.zero with Path := String.mk (joinElems (e :: es)),
                      RawPath := rawOf (joinElems (e :: es)) } =
      wirePath (joinElems (e :: es)) := by
    rw [joinElems_cons] at hp ⊢
    exact EscapedPath_plain URL.zero _ hp
  obtain ⟨e1, es1, hw, hseg⟩ := wirePath_joinElems e es h
  have hres : resolvePath base.EscapedPath (wirePath (joinElems (e :: es))) =
      wirePath (joinElems (e :: es)) := by
    rw [hw]
    exact resolvePath_joinElems _ e1 es1 hseg
  unfold URL.ResolveReference
  rw [hesc, hres]
  simp only [URL.zero, setPath_wirePath _ _ hp]
  simp [hne]

/-- Function `url.Parse` on the base URL followed by a text that starts with a
slash and that `validEncoded` accepts: what `setPath` with this text makes of
the URL of the API host. -/
theorem Parse_api (q : List Char) (u : URL) (hv : validEncoded ('/' :: q) .encodePath = true)
    (hs : (apiURL "").setPath ('/' :: q) = .ok u) :
    Parse (String.mk (baseURL.data ++ '/' :: q)) = .ok u := by
  obtain ⟨h1, h2, h3⟩ := validEncoded_spec _ hv
  have hn : '#' ∉ baseURL.data ++ '/' :: q := by
    have : '#' ∉ baseURL.data := by decide
    simp only [List.mem_append, not_or]
    exact ⟨this, h3⟩
  have hc : stringContainsCTLByte q = false := by
    unfold stringContainsCTLByte at h1 ⊢
    simp only [List.any_cons, Bool.or_eq_false_iff] at h1
    exact h1.2
  have hq : '?' ∉ q := fun x => h2 (by simp [x])
  have hlast : q.getLast? ≠ some '?' := fun h => hq (List.mem_of_getLast?_eq_some h)
  have hp := parse_api q false hc hlast
  rw [cut_of_not_mem _ _ hq] at hp
  have he : ({ apiURL "" with RawQuery := String.mk [] } : URL) = apiURL "" := rfl
  rw [he, hs] at hp
  unfold Parse
  simp only [cut_of_not_mem _ _ hn, hp]
  simp

/-- What `NewClient` returns without options for a container identifier
without control byte, question mark and percent sign: the client whose base
URL is on the API host and has the path
`/database/1/<container>/<environment>`. -/
theorem NewClient_plain (L : Lib) (hL : L.NetURL) (t : Request → Except Err Response)
    (c keyID : String) (key : Option L.PrivateKey) (e : Environment)
    (he : e = Environment.Development ∨ e = Environment.Production)
    (hc : Plain c.data = true) :
    NewClient L t c keyID key e [] =
      .ok { baseURL := { apiURL ("/database/1/" ++ c ++ "/" ++ e.String) with
                         RawPath := rawOf ("/database/1/" ++ c ++ "/" ++ e.String).data },
            userAgent := "icloud-go", keyID := keyID, privateKey := key, strictDecoding := false,
            httpClient := t, Records := some { basePath := "/records/modify" } } := by
  obtain ⟨hes, -⟩ := environment_pathText e he
  have hse : PathText ('/' :: e.String.data) = true :=
    (PathText_cons '/' e.String.data).2 ⟨by decide, hes⟩
  obtain ⟨c1, c2, c3⟩ := Plain_spec _ hc
  have hctl : stringContainsCTLByte ("database/1/".data ++ c.data ++ '/' :: e.String.data) =
      false := by
    have h1 : stringContainsCTLByte "database/1/".data = false := by decide
    rw [ctl_append, ctl_append, h1, ctl_pathText _ hse, c1]
    rfl
  have hq : '?' ∉ "database/1/".data ++ c.data ++ '/' :: e.String.data := by
    have h1 : '?' ∉ "database/1/".data := by decide
    simp only [List.mem_append, not_or]
    exact ⟨⟨h1, c2⟩, (not_mem_pathText _ hse).1⟩
  have hpct : '%' ∉ '/' :: ("database/1/".data ++ c.data ++ '/' :: e.String.data) := by
    have h1 : '%' ∉ '/' :: "database/1/".data := by decide
    have h2 : '%' ∉ '/' :: e.String.data := by
      intro h
      have := List.all_eq_true.1 hse _ h
      revert this
      decide
    simp only [List.mem_cons, List.mem_append, not_or] at h1 h2 ⊢
    exact ⟨h1.1, ⟨h1.2, c3⟩, h2.1, h2.2⟩
  have hlast : ("database/1/".data ++ c.data ++ '/' :: e.String.data).getLast? ≠ some '?' :=
    fun h => hq (List.mem_of_getLast?_eq_some h)
  have hq2 : "/database/1/" ++ c ++ "/" ++ e.String =
      String.mk ('/' :: ("database/1/".data ++ c.data ++ '/' :: e.String.data)) := by
    apply String.ext
    have h3 : ("/database/1/" : String).data = '/' :: "database/1/".data := by decide
    have h4 : ("/" : String).data = ['/'] := by decide
    simp only [String.data_append, h3, h4]
    simp
  rw [NewClient_parse L hL, parse_api _ true hctl hlast, cut_of_not_mem _ _ hq,
    setPath_plain _ _ hpct, hq2]
  rfl

/-- What `newRequest` hands to `signRequest` when the base URL is on the API
host, base path and endpoint are rooted paths of elements that `path.Clean` and
`resolvePath` keep, without control byte, question mark and percent sign, and
the method is `POST`: the error of encoding the body, or a request to the API
host whose path has the elements of the base path and then those of the
endpoint, with some raw path. -/
theorem newRequestUnsigned_api {β : Type} (L : Lib) (hL : L.NetURL) (cl : Client L)
    (e1 e2 : List Char) (es1 es2 : List (List Char))
    (h1 : ∀ e ∈ e1 :: es1, Segment e = true) (h2 : ∀ e ∈ e2 :: es2, Segment e = true)
    (hpl : Plain (joinElems (e1 :: es1 ++ e2 :: es2)) = true)
    (hs : cl.baseURL.Scheme = "https") (hh : cl.baseURL.Host = "api.apple-cloudkit.com")
    (hu : cl.baseURL.User = none) (hp : cl.baseURL.Path = String.mk (joinElems (e1 :: es1)))
    (marshal : β → Except Err Json) (body : Option β) :
    ∃ raw : String,
      cl.newRequestUnsigned L marshal "POST" (String.mk (joinElems (e2 :: es2))) body =
        match newRequestBody marshal body with
        | .error err => .error err
        | .ok (buf, h) =>
          .ok ({ Method := "POST",
                 URL := { apiURL (String.mk (joinElems (e1 :: es1 ++ e2 :: es2))) with
                          RawPath := raw },
                 Header := Header.Set (Header.Set (Header.Set [] "content-type" "application/json")
                   "accept" "application/json") "user-agent" cl.userAgent,
                 Body := buf }, h) := by
  refine ⟨if wirePath (joinElems (e1 :: es1 ++ e2 :: es2)) =
      escape (joinElems (e1 :: es1 ++ e2 :: es2)) .encodePath then ""
    else String.mk (wirePath (joinElems (e1 :: es1 ++ e2 :: es2))), ?_⟩
  have hall : ∀ e ∈ e1 :: (es1 ++ e2 :: es2), Segment e = true := by
    intro e he
    rcases List.mem_cons.mp he with rfl | he
    · exact h1 _ (by simp)
    · rcases List.mem_append.mp he with he | he
      · exact h1 e (by simp [he])
      · exact h2 e he
  have hcons : e1 :: es1 ++ e2 :: es2 = e1 :: (es1 ++ e2 :: es2) := rfl
  rw [hcons] at hpl ⊢
  obtain ⟨p1, p2, p3⟩ := Plain_spec _ hpl
  have hq : joinElems (e1 :: (es1 ++ e2 :: es2)) = '/' :: (e1 ++ joinElems (es1 ++ e2 :: es2)) :=
    joinElems_cons _ _
  have hparse : parse (joinElems (e1 :: (es1 ++ e2 :: es2))) true =
      .ok { URL.zero with Path := String.mk (joinElems (e1 :: (es1 ++ e2 :: es2))),
                          RawPath := rawOf (joinElems (e1 :: (es1 ++ e2 :: es2))) } := by
    rw [hq] at p1 p2 p3 ⊢
    rw [parse_rooted _ p1 p2, setPath_plain _ _ p3]
  have hres := ResolveReference_rooted cl.baseURL e1 (es1 ++ e2 :: es2) hall p3
  rw [hs, hh, hu] at hres
  have hv := validEncoded_wirePath (joinElems (e1 :: (es1 ++ e2 :: es2)))
  have hstr : URL.String
      { URL.zero with Scheme := "https", Host := "api.apple-cloudkit.com", User := none,
                      Path := String.mk (joinElems (e1 :: (es1 ++ e2 :: es2))),
                      RawPath := if wirePath (joinElems (e1 :: (es1 ++ e2 :: es2))) =
                          escape (joinElems (e1 :: (es1 ++ e2 :: es2))) .encodePath then ""
                        else String.mk (wirePath (joinElems (e1 :: (es1 ++ e2 :: es2)))) } =
      String.mk (baseURL.data ++ wirePath (joinElems (e1 :: (es1 ++ e2 :: es2)))) := by
    rw [hq] at p3 ⊢
    have hep := EscapedPath_wirePath
      { URL.zero with Scheme := "https", Host := "api.apple-cloudkit.com", User := none } _ p3
    rw [wirePath_slash] at hep ⊢
    rw [String_api _ _ rfl rfl rfl rfl rfl rfl hep]
    simp [URL.zero]
  have hpar : Parse (String.mk (baseURL.data ++ wirePath (joinElems (e1 :: (es1 ++ e2 :: es2))))) =
      .ok { apiURL "" with
            Path := String.mk (joinElems (e1 :: (es1 ++ e2 :: es2))),
            RawPath := if wirePath (joinElems (e1 :: (es1 ++ e2 :: es2))) =
                escape (joinElems (e1 :: (es1 ++ e2 :: es2))) .encodePath then ""
              else String.mk (wirePath (joinElems (e1 :: (es1 ++ e2 :: es2)))) } := by
    have hsp := setPath_wirePath (apiURL "") _ p3
    rw [hq] at hv hsp ⊢
    rw [wirePath_slash] at hv hsp ⊢
    exact Parse_api _ _ hv hsp
  have hm : ((if ("POST" : String) = "" then "GET" else "POST").data.all isTokenChar) = true := by
    decide
  have hhost : ¬ ("api.apple-cloudkit.com" : String).data.getLast? = some ':' := by decide
  obtain ⟨g1, g2, g3, g4, g5⟩ := hL
  unfold Client.newRequestUnsigned
  simp only [g1, g2, g3, g4, g5, hp, Join_joinElems e1 e2 es1 es2 h1 h2, ParseRequestURI, hcons,
    hparse, hres, hstr]
  cases newRequestBody marshal body with
  | error err => rfl
  | ok bh =>
    obtain ⟨buf, h⟩ := bh
    simp only [NewRequestWithContext, g5, hpar, hm, apiURL, hhost]
    simp

/-! ### Client construction and the records service -/

/-- The URL and path functions of `urlLib` are those of the model. -/
theorem urlLib_netURL : urlLib.NetURL := ⟨rfl, rfl, rfl, rfl, rfl⟩


/-- The signature scheme of `urlLib` is correct. -/
theorem urlLib_signatureCorrect : urlLib.SignatureCorrect := by
  intro k r digest sig h
  have h1 : sig = k :: digest := by
    have h2 : (Except.ok (k :: digest) : Except Err (List Nat)) = .ok sig := h
    exact (Except.ok.inj h2).symm
  subst h1
  show ((k :: digest : List Nat) == k :: digest) = true
  exact beq_self_eq_true _


/-- C14, as the code has it: for each of the two environments, and for a
container identifier that has no control byte and in which the text before the
first question mark has only bytes that `validEncoded` accepts in a path (ASCII
letters and digits, the marks `- _ . ~ $ & + , / : ; = @ ! ( ) * [ ]` and the apostrophe and the
percent sign) with every percent sign followed by two hexadecimal digits,
`NewClient` without options succeeds; the base URL of the client renders as
`https://api.apple-cloudkit.com/database/1/<c>/<e>` with the container as it is
and the environment as `development` or `production`; the client has a Records
service, the user agent `icloud-go`, strict decoding off, and the key
identifier and key it was given.  For every other container identifier
`NewClient` does not return a client whose base URL renders as this text. -/
theorem newClient_baseURL (L : Lib) (hL : L.NetURL) (t : Request → Except Err Response)
    (c keyID : String) (key : Option L.PrivateKey) (e : Environment)
    (he : e = Environment.Development ∨ e = Environment.Production) :
    (VerbatimContainer c = true →
      ∃ client : Client L,
        NewClient L t c keyID key e [] = .ok client ∧
        L.urlString client.baseURL =
          "https://api.apple-cloudkit.com/database/1/" ++ c ++ "/" ++ e.String ∧
        (Environment.Development.String = "development" ∧
          Environment.Production.String = "production") ∧
        client.Records.isSome = true ∧ client.userAgent = "icloud-go" ∧
        client.strictDecoding = false ∧ client.keyID = keyID ∧ client.privateKey = key) ∧
    (VerbatimContainer c = false →
      ∀ client : Client L, NewClient L t c keyID key e [] = .ok client →
        L.urlString client.baseURL ≠
          "https://api.apple-cloudkit.com/database/1/" ++ c ++ "/" ++ e.String) := by
  obtain ⟨hes, -⟩ := environment_pathText e he
  have hse : PathText ('/' :: e.String.data) = true :=
    (PathText_cons '/' e.String.data).2 ⟨by decide, hes⟩
  have hctl : stringContainsCTLByte ("database/1/".data ++ c.data ++ '/' :: e.String.data) =
      stringContainsCTLByte c.data := by
    have h1 : stringContainsCTLByte "database/1/".data = false := by decide
    rw [ctl_append, ctl_append, h1, ctl_pathText _ hse]
    simp
  have hlast : ("database/1/".data ++ c.data ++ '/' :: e.String.data).getLast? ≠ some '?' := by
    rw [List.getLast?_append_of_ne_nil _ (by simp)]
    intro h
    exact (not_mem_pathText _ hse).1 (List.mem_of_getLast?_eq_some h)
  have htext : "https://api.apple-cloudkit.com/database/1/" ++ c ++ "/" ++ e.String =
      String.mk (baseURL.data ++
        '/' :: ("database/1/".data ++ c.data ++ '/' :: e.String.data)) := by
    apply String.ext
    have h3 : ("https://api.apple-cloudkit.com/database/1/" : String).data =
        baseURL.data ++ '/' :: "database/1/".data := by decide
    have h4 : ("/" : String).data = ['/'] := by decide
    simp only [String.data_append, h3, h4]
    simp
    rfl
  have hw := wellEscaped_container c.data _ hes
  have hv := validEncoded_container c.data _ hes
  have hnew := NewClient_parse L hL t c keyID key e
  have hr := cut_render _ hlast
  rw [htext, hL.2.2.2.1]
  generalize "database/1/".data ++ c.data ++ '/' :: e.String.data = Q at hctl hlast hw hv hnew hr
  have hrender : ∀ (u1 : URL) (q1 : List Char),
      URL.setPath { apiURL "" with RawQuery := String.mk (cut Q '?').2 }
        ('/' :: (cut Q '?').1) = .ok u1 →
      u1.EscapedPath = '/' :: q1 →
      (u1.String = String.mk (baseURL.data ++ '/' :: Q) ↔ q1 = (cut Q '?').1) := by
    intro u1 q1 hu1 hp
    obtain ⟨f1, f2, f3, f4, f5, f6, f7, -⟩ := setPath_fields _ _ _ hu1
    rw [String_api u1 _ f1 f2 f3 f4 f5 f7 hp, f6]
    show String.mk (baseURL.data ++ '/' :: q1 ++
      (if String.mk (cut Q '?').2 = "" then [] else '?' :: (cut Q '?').2)) = _ ↔ _
    generalize (if String.mk (cut Q '?').2 = "" then [] else '?' :: (cut Q '?').2) = X at hr
    generalize (cut Q '?').1 = Y at hr
    subst hr
    constructor
    · intro heq
      have h3 := congrArg String.data heq
      simp only [List.append_assoc, List.cons_append] at h3
      have h4 := List.append_cancel_left h3
      exact List.append_cancel_right (List.cons.inj h4).2
    · intro heq
      rw [heq]
      simp
  constructor
  · intro hc
    simp only [VerbatimContainer, Bool.and_eq_true, Bool.not_eq_true'] at hc
    obtain ⟨⟨hc1, hc2⟩, hc3⟩ := hc
    rw [← hctl] at hc1
    rw [← hv] at hc2
    rw [← hw] at hc3
    obtain ⟨u1, hu1⟩ := setPath_ok { apiURL "" with RawQuery := String.mk (cut Q '?').2 } _ hc3
    rw [parse_api _ true hc1 hlast, hu1] at hnew
    refine ⟨_, hnew, ?_, ⟨rfl, rfl⟩, rfl, rfl, rfl, rfl, rfl⟩
    exact (hrender u1 _ hu1 (EscapedPath_setPath _ _ _ hu1 hc2)).2 rfl
  · intro hc client hcl
    rw [hcl] at hnew
    by_cases hc1 : stringContainsCTLByte c.data = true
    · rw [← hctl] at hc1
      have h2 : stringContainsCTLByte (baseURL.data ++ '/' :: Q) = true := by
        rw [ctl_append]
        have : stringContainsCTLByte ('/' :: Q) = true := by
          unfold stringContainsCTLByte at hc1 ⊢
          simp only [List.any_cons, hc1, Bool.or_true]
        rw [this, Bool.or_true]
      rw [parse_ctl _ _ h2] at hnew
      cases hnew
    · simp only [Bool.not_eq_true] at hc1
      by_cases hc3 : wellEscaped (cut c.data '?').1 = true
      · have hc2 : validEncoded (cut c.data '?').1 .encodePath = false := by
          simp only [VerbatimContainer, hc1, hc3, Bool.not_false, Bool.true_and, Bool.and_true]
            at hc
          exact hc
        rw [← hctl] at hc1
        rw [← hv] at hc2
        rw [← hw] at hc3
        obtain ⟨u1, hu1⟩ := setPath_ok { apiURL "" with RawQuery := String.mk (cut Q '?').2 } _ hc3
        rw [parse_api _ true hc1 hlast, hu1] at hnew
        have hcl2 : client.baseURL = u1 := by
          have := Except.ok.inj hnew
          rw [this]
        obtain ⟨hp, hpne⟩ := EscapedPath_setPath_invalid _ _ _ hu1 hc2
        obtain ⟨t1, ht1⟩ := unescape_slash _ _ (setPath_fields _ _ _ hu1).2.2.2.2.2.2.2
        have hp2 : u1.EscapedPath = '/' :: escape t1 .encodePath := by
          rw [hp, ht1, escape_cons]
          rfl
        rw [hcl2]
        intro heq
        apply hpne
        rw [hp2, (hrender u1 _ hu1 hp2).1 heq]
      · simp only [Bool.not_eq_true] at hc3
        rw [← hctl] at hc1
        rw [← hw] at hc3
        obtain ⟨err, herr⟩ :=
          setPath_error { apiURL "" with RawQuery := String.mk (cut Q '?').2 } _ hc3
        rw [parse_api _ true hc1 hlast, herr] at hnew
        cases hnew

/-- Witness for C14: the container and environment of the package tests; a
container identifier with a question mark, an exclamation mark and brackets,
which the base URL renders as it is; and a container identifier with a space,
which it does not. -/
theorem newClient_baseURL_witness :
    (VerbatimContainer "iCloud.com.lukasmalkmus.Example-App" = true ∧
      ∃ client : Client urlLib,
        NewClient urlLib (answer noResponse) "iCloud.com.lukasmalkmus.Example-App" "6459b5a4"
          (some (7 : Nat)) Environment.Development [] = .ok client ∧
        urlLib.urlString client.baseURL =
          "https://api.apple-cloudkit.com/database/1/iCloud.com.lukasmalkmus.Example-App/development" ∧
        client.Records.isSome = true ∧ client.userAgent = "icloud-go" ∧
        client.strictDecoding = false) ∧
    (VerbatimContainer "iCloud.a!b[c]?x y" = true ∧
      ∃ client : Client urlLib,
        NewClient urlLib (answer noResponse) "iCloud.a!b[c]?x y" "6459b5a4"
          (some (7 : Nat)) Environment.Production [] = .ok client ∧
        urlLib.urlString client.baseURL =
          "https://api.apple-cloudkit.com/database/1/iCloud.a!b[c]?x y/production") ∧
    (VerbatimContainer "iCloud.my app" = false ∧
      ∀ client : Client urlLib,
        NewClient urlLib (answer noResponse) "iCloud.my app" "6459b5a4"
          (some (7 : Nat)) Environment.Development [] = .ok client →
        urlLib.urlString client.baseURL ≠
          "https://api.apple-cloudkit.com/database/1/iCloud.my app/development") := by
  refine ⟨⟨by decide, ?_⟩, ⟨by decide, ?_⟩, ⟨by decide, ?_⟩⟩
  · obtain ⟨client, h1, h2, -, h3, h4, h5, -⟩ :=
      (newClient_baseURL urlLib urlLib_netURL (answer noResponse)
        "iCloud.com.lukasmalkmus.Example-App" "6459b5a4" (some (7 : Nat))
        Environment.Development (Or.inl rfl)).1 (by decide)
    exact ⟨client, h1, h2, h3, h4, h5⟩
  · obtain ⟨client, h1, h2, -⟩ :=
      (newClient_baseURL urlLib urlLib_netURL (answer noResponse)
        "iCloud.a!b[c]?x y" "6459b5a4" (some (7 : Nat))
        Environment.Production (Or.inr rfl)).1 (by decide)
    exact ⟨client, h1, h2⟩
  · exact (newClient_baseURL urlLib urlLib_netURL (answer noResponse)
      "iCloud.my app" "6459b5a4" (some (7 : Nat))
      Environment.Development (Or.inl rfl)).2 (by decide)

/-- C14 fails as stated: a container identifier with a space is accepted by
`IsICloudContainer` and by `NewClient`, but the base URL renders with `%20` in
the place of the space; a container identifier that ends in a percent sign is
accepted by `IsICloudContainer` and makes `NewClient` fail. -/
theorem newClient_baseURL_not_verbatim :
    IsICloudContainer "iCloud.my app" = true ∧
    (∃ client : Client urlLib,
      NewClient urlLib (answer noResponse) "iCloud.my app" "6459b5a4" (some (7 : Nat))
        Environment.Development [] = .ok client ∧
      urlLib.urlString client.baseURL =
        "https://api.apple-cloudkit.com/database/1/iCloud.my%20app/development" ∧
      urlLib.urlString client.baseURL ≠
        "https://api.apple-cloudkit.com/database/1/iCloud.my app/development") ∧
    IsICloudContainer "iCloud.100%" = true ∧
    NewClient urlLib (answer noResponse) "iCloud.100%" "6459b5a4" (some (7 : Nat))
        Environment.Development [] =
      .error (.url "parse" "https://api.apple-cloudkit.com/database/1/iCloud.100%/development"
        (.escape "%/d")) := by
  refine ⟨by decide, ⟨_, rfl, by decide, by decide⟩, by decide, rfl⟩

/-- C12, as the code has it: for a container identifier that has no control
byte, no question mark and no percent sign and whose parts between slashes are
not empty and not `.` or `..`, each of the two environments and each of the
three databases, `NewClient` returns a client, and `Modify` on it does this.
When the request body marshals and signing succeeds, it hands the transport a
`POST` request whose URL has the path `/database/1/<c>/<e>/<d>/records/modify`
on the API host and no query; the signature of the request verifies over the
canonical message whose `PATH` is this same path.  When the request body
marshals and signing fails, `Modify` returns the error of signing.  When the
request body does not marshal, `Modify` returns the error of marshalling. -/
theorem modify_request_path (L : Lib) (hU : L.NetURL) (hS : L.SignatureCorrect)
    (t : Request → Except Err Response) (c keyID : String) (key : L.PrivateKey)
    (e : Environment) (he : e = Environment.Development ∨ e = Environment.Production)
    (d : Database) (hd : d = Database.Public ∨ d = Database.Private ∨ d = Database.Shared)
    (hc : PathContainer c = true) (now : L.Time) (rnd : L.Entropy)
    (decode : Bool → Json → RecordsResponse → RecordsResponse × Option Err) (ahead : Nat)
    (r : RecordsRequest) (path : String)
    (hpath : path = "/database/1/" ++ c ++ "/" ++ e.String ++ "/" ++ d.String ++ "/records/modify") :
    ∃ (client : Client L) (s : RecordsService),
      NewClient L t c keyID (some key) e [] = .ok client ∧ client.Records = some s ∧
      (∀ j, RecordsRequest.toJson r = .ok j →
        (∀ sig, L.sign key rnd (L.sha256 (L.formatRFC3339 now ++ ":" ++
              L.base64 (L.sha256 (j.render ++ "\n")) ++ ":" ++ path)) = .ok sig →
          ∃ req : Request,
            client.newRequest L now rnd RecordsRequest.toJson "POST"
              ("/" ++ d.String ++ s.basePath) (some r) = .ok req ∧
            req.Method = "POST" ∧ req.URL.Path = path ∧ req.URL.Scheme = "https" ∧
            req.URL.Host = "api.apple-cloudkit.com" ∧ req.URL.RawQuery = "" ∧
            req.Body = j.render ++ "\n" ∧
            req.Header.Get "x-apple-cloudkit-request-iso8601date" = L.formatRFC3339 now ∧
            req.Header.Get "x-apple-cloudkit-request-signaturev1" = L.base64 sig ∧
            L.verify (L.publicKey key) (L.sha256 (L.formatRFC3339 now ++ ":" ++
              L.base64 (L.sha256 req.Body) ++ ":" ++ path)) sig = true ∧
            s.Modify L client now rnd decode ahead d r =
              (match client.do_ L decode ahead req (.value { Records := [] }) with
               | (_, some err) => .error err
               | (.value res1, none) => .ok res1
               | (_, none) => .ok { Records := [] })) ∧
        (∀ err, L.sign key rnd (L.sha256 (L.formatRFC3339 now ++ ":" ++
              L.base64 (L.sha256 (j.render ++ "\n")) ++ ":" ++ path)) = .error err →
          s.Modify L client now rnd decode ahead d r = .error err)) ∧
      (∀ err, RecordsRequest.toJson r = .error err →
        client.newRequest L now rnd RecordsRequest.toJson "POST"
          ("/" ++ d.String ++ s.basePath) (some r) = .error err ∧
        s.Modify L client now rnd decode ahead d r = .error err) := by
  have hc1 : Plain c.data = true ∧ (splitSlash c.data).all Segment = true := by
    simpa [PathContainer] using hc
  obtain ⟨hcp, hcs⟩ := hc1
  have hee : Segment e.String.data = true ∧ Plain e.String.data = true := by
    rcases he with rfl | rfl <;> exact ⟨by decide, by decide⟩
  have hde : Segment d.String.data = true ∧ Plain d.String.data = true := by
    rcases hd with rfl | rfl | rfl <;> exact ⟨by decide, by decide⟩
  have h1 : ∀ x ∈ "database".data :: "1".data :: (splitSlash c.data ++ [e.String.data]),
      Segment x = true := by
    intro x hx
    simp only [List.mem_cons, List.mem_append, List.mem_singleton, List.not_mem_nil,
      or_false] at hx
    rcases hx with rfl | rfl | hx | rfl
    · decide
    · decide
    · exact List.all_eq_true.1 hcs x hx
    · exact hee.1
  have h2 : ∀ x ∈ d.String.data :: ["records".data, "modify".data], Segment x = true := by
    intro x hx
    simp only [List.mem_cons, List.mem_singleton, List.not_mem_nil, or_false] at hx
    rcases hx with rfl | rfl | rfl
    · exact hde.1
    · decide
    · decide
  have hbase : "/database/1/" ++ c ++ "/" ++ e.String =
      String.mk (joinElems ("database".data :: "1".data ::
        (splitSlash c.data ++ [e.String.data]))) := by
    apply String.ext
    simp only [String.data_append, joinElems_cons, joinElems_append, joinElems_splitSlash]
    simp [joinElems]
  have hend : "/" ++ d.String ++ "/records/modify" =
      String.mk (joinElems (d.String.data :: ["records".data, "modify".data])) := by
    apply String.ext
    simp only [String.data_append]
    simp [joinElems]
  have hfull : path = String.mk (joinElems ("database".data :: "1".data ::
      (splitSlash c.data ++ [e.String.data]) ++
      d.String.data :: ["records".data, "modify".data])) := by
    rw [hpath]
    apply String.ext
    simp only [String.data_append, List.cons_append, joinElems_cons, joinElems_append,
      joinElems_splitSlash]
    simp [joinElems]
  have hplain : Plain (joinElems ("database".data :: "1".data ::
      (splitSlash c.data ++ [e.String.data]) ++
      d.String.data :: ["records".data, "modify".data])) = true := by
    have e1 : joinElems ("database".data :: "1".data ::
        (splitSlash c.data ++ [e.String.data]) ++
        d.String.data :: ["records".data, "modify".data]) =
        "/database/1/".data ++ (c.data ++ (['/'] ++ (e.String.data ++ (['/'] ++
          (d.String.data ++ "/records/modify".data))))) := by
      simp only [List.cons_append, joinElems_cons, joinElems_append, joinElems_splitSlash]
      simp [joinElems]
    rw [e1]
    simp only [Plain_append, hcp, hee.2, hde.2, Bool.and_true, Bool.true_and]
    decide
  have hnew := NewClient_plain L hU t c keyID (some key) e he hcp
  obtain ⟨raw, hun⟩ := newRequestUnsigned_api L hU
    { baseURL := { apiURL ("/database/1/" ++ c ++ "/" ++ e.String) with
                   RawPath := rawOf ("/database/1/" ++ c ++ "/" ++ e.String).data },
      userAgent := "icloud-go", keyID := keyID, privateKey := some key, strictDecoding := false,
      httpClient := t, Records := some { basePath := "/records/modify" } }
    _ _ _ _ h1 h2 hplain rfl rfl rfl hbase RecordsRequest.toJson (some r)
  rw [← hend, ← hfull] at hun
  have hmsg : ∀ x : String, "" ++ x = x := fun x => by
    apply String.ext
    simp
  refine ⟨_, _, hnew, rfl, ?_, ?_⟩
  · intro j hj
    have hbody : newRequestBody RecordsRequest.toJson (some r) =
        .ok (j.render ++ "\n", { written := j.render ++ "\n" }) := by
      simp [newRequestBody, encoderEncode, hj, multiWrite, Hash.Write, sha256New]
    rw [hbody] at hun
    constructor
    · intro sig hsig
      have hd1 : CanonicalMIMEHeaderKey "x-apple-cloudkit-request-signaturev1" ≠
          CanonicalMIMEHeaderKey "x-apple-cloudkit-request-iso8601date" := by decide
      have hnr : Client.newRequest L
          { baseURL := { apiURL ("/database/1/" ++ c ++ "/" ++ e.String) with
                         RawPath := rawOf ("/database/1/" ++ c ++ "/" ++ e.String).data },
            userAgent := "icloud-go", keyID := keyID, privateKey := some key,
            strictDecoding := false, httpClient := t,
            Records := some { basePath := "/records/modify" } }
          now rnd RecordsRequest.toJson "POST" ("/" ++ d.String ++ "/records/modify") (some r) =
          .ok { Method := "POST", URL := { apiURL path with RawPath := raw },
                Header := Header.Set (Header.Set (Header.Set (Header.Set (Header.Set (Header.Set []
                  "content-type" "application/json") "accept" "application/json") "user-agent"
                  "icloud-go") "x-apple-cloudkit-request-keyid" keyID)
                  "x-apple-cloudkit-request-iso8601date" (L.formatRFC3339 now))
                  "x-apple-cloudkit-request-signaturev1" (L.base64 sig),
                Body := j.render ++ "\n" } := by
        unfold Client.newRequest
        rw [hun]
        simp only [Client.signRequest, Hash.Sum, Hash.Write, sha256New, hmsg, apiURL, hsig]
      refine ⟨_, hnr, rfl, rfl, rfl, rfl, rfl, rfl, ?_, ?_, ?_, ?_⟩
      · simp only [Header.get_set_ne _ _ _ _ hd1, Header.get_set_self]
      · exact Header.get_set_self _ _ _
      · exact hS key rnd _ sig hsig
      · simp only [RecordsService.Modify, Client.call, hnr]
        generalize Client.do_ L _ decode ahead _ (Out.value { Records := [] }) = out
        rcases out with ⟨o, _ | err⟩ <;> cases o <;> rfl
    · intro err herr
      simp only [RecordsService.Modify, Client.call, Client.newRequest, hun]
      simp only [Client.signRequest, Hash.Sum, Hash.Write, sha256New, hmsg, apiURL, herr]
  · intro err herr
    have hbody : newRequestBody RecordsRequest.toJson (some r) = .error err := by
      simp [newRequestBody, encoderEncode, herr]
    rw [hbody] at hun
    constructor
    · simp only [Client.newRequest, hun]
    · simp only [RecordsService.Modify, Client.call, Client.newRequest, hun]

/-- Witness for C12: the container and environment of the package tests, the
public database and the request of the package example; and a container
identifier with a space, a slash, a letter outside ASCII, a number sign and an
exclamation mark. -/
theorem modify_request_path_witness :
    (PathContainer "iCloud.com.lukasmalkmus.Example-App" = true ∧
      ∃ (client : Client urlLib) (s : RecordsService),
        NewClient urlLib (answer noResponse) "iCloud.com.lukasmalkmus.Example-App" "6459b5a4"
          (some (7 : Nat)) Environment.Development [] = .ok client ∧
        client.Records = some s ∧
        ∃ req : Request,
          client.newRequest urlLib "2024-01-02T15:04:05Z" () RecordsRequest.toJson "POST"
            ("/" ++ Database.Public.String ++ s.basePath) (some exampleRequest) = .ok req ∧
          req.Method = "POST" ∧
          req.URL.Path =
            "/database/1/iCloud.com.lukasmalkmus.Example-App/development/public/records/modify") ∧
    (PathContainer "iCloud.a b/ü#!" = true ∧
      ∃ (client : Client urlLib) (s : RecordsService),
        NewClient urlLib (answer noResponse) "iCloud.a b/ü#!" "6459b5a4"
          (some (7 : Nat)) Environment.Production [] = .ok client ∧
        client.Records = some s ∧
        ∃ req : Request,
          client.newRequest urlLib "2024-01-02T15:04:05Z" () RecordsRequest.toJson "POST"
            ("/" ++ Database.Shared.String ++ s.basePath) (some exampleRequest) = .ok req ∧
          req.Method = "POST" ∧
          req.URL.Path = "/database/1/iCloud.a b/ü#!/production/shared/records/modify") := by
  refine ⟨⟨by decide, ?_⟩, ⟨by decide, ?_⟩⟩
  · obtain ⟨client, s, h1, h2, h3, -⟩ :=
      modify_request_path urlLib urlLib_netURL urlLib_signatureCorrect (answer noResponse)
        "iCloud.com.lukasmalkmus.Example-App" "6459b5a4" (7 : Nat) Environment.Development
        (Or.inl rfl) Database.Public (Or.inl rfl) (by decide) "2024-01-02T15:04:05Z" () decodeKeep
        0 exampleRequest
        "/database/1/iCloud.com.lukasmalkmus.Example-App/development/public/records/modify" rfl
    obtain ⟨req, h5, h6, h7, -⟩ := (h3 _ rfl).1 _ rfl
    exact ⟨client, s, h1, h2, req, h5, h6, h7⟩
  · obtain ⟨client, s, h1, h2, h3, -⟩ :=
      modify_request_path urlLib urlLib_netURL urlLib_signatureCorrect (answer noResponse)
        "iCloud.a b/ü#!" "6459b5a4" (7 : Nat) Environment.Production
        (Or.inr rfl) Database.Shared (Or.inr (Or.inr rfl)) (by decide) "2024-01-02T15:04:05Z" ()
        decodeKeep 0 exampleRequest
        "/database/1/iCloud.a b/ü#!/production/shared/records/modify" rfl
    obtain ⟨req, h5, h6, h7, -⟩ := (h3 _ rfl).1 _ rfl
    exact ⟨client, s, h1, h2, req, h5, h6, h7⟩

set_option maxHeartbeats 2000000 in
/-- C12 fails as stated: for a container identifier with a question mark, which
`IsICloudContainer` and `NewClient` accept, the request of `Modify` goes to a
path that ends the container at the question mark and has no environment; for
a container identifier with a percent escape the path has the escape decoded;
for a container identifier with two slashes in a row the path has one slash
there; for a container identifier with a `..` part the path has lost that part
and the one before it; and for a container identifier with a control byte
`NewClient` returns an error. -/
theorem modify_request_path_query :
    IsICloudContainer "iCloud.com.example?beta" = true ∧
    (∃ (client : Client urlLib) (s : RecordsService) (req : Request),
      NewClient urlLib (answer noResponse) "iCloud.com.example?beta" "6459b5a4" (some (7 : Nat))
        Environment.Development [] = .ok client ∧
      client.Records = some s ∧
      client.newRequest urlLib "2024-01-02T15:04:05Z" () RecordsRequest.toJson "POST"
        ("/" ++ Database.Private.String ++ s.basePath) (some exampleRequest) = .ok req ∧
      req.URL.Path = "/database/1/iCloud.com.example/private/records/modify" ∧
      req.URL.Path ≠
        "/database/1/iCloud.com.example?beta/development/private/records/modify") ∧
    IsICloudContainer "iCloud.%41pp" = true ∧
    (∃ (client : Client urlLib) (s : RecordsService) (req : Request),
      NewClient urlLib (answer noResponse) "iCloud.%41pp" "6459b5a4" (some (7 : Nat))
        Environment.Production [] = .ok client ∧
      client.Records = some s ∧
      client.newRequest urlLib "2024-01-02T15:04:05Z" () RecordsRequest.toJson "POST"
        ("/" ++ Database.Shared.String ++ s.basePath) (some exampleRequest) = .ok req ∧
      req.URL.Path = "/database/1/iCloud.App/production/shared/records/modify" ∧
      req.URL.Path ≠ "/database/1/iCloud.%41pp/production/shared/records/modify") ∧
    IsICloudContainer "iCloud.a//b" = true ∧
    (∃ (client : Client urlLib) (s : RecordsService) (req : Request),
      NewClient urlLib (answer noResponse) "iCloud.a//b" "6459b5a4" (some (7 : Nat))
        Environment.Development [] = .ok client ∧
      client.Records = some s ∧
      client.newRequest urlLib "2024-01-02T15:04:05Z" () RecordsRequest.toJson "POST"
        ("/" ++ Database.Public.String ++ s.basePath) (some exampleRequest) = .ok req ∧
      req.URL.Path = "/database/1/iCloud.a/b/development/public/records/modify" ∧
      req.URL.Path ≠ "/database/1/iCloud.a//b/development/public/records/modify") ∧
    IsICloudContainer "iCloud.x/../y" = true ∧
    (∃ (client : Client urlLib) (s : RecordsService) (req : Request),
      NewClient urlLib (answer noResponse) "iCloud.x/../y" "6459b5a4" (some (7 : Nat))
        Environment.Development [] = .ok client ∧
      client.Records = some s ∧
      client.newRequest urlLib "2024-01-02T15:04:05Z" () RecordsRequest.toJson "POST"
        ("/" ++ Database.Public.String ++ s.basePath) (some exampleRequest) = .ok req ∧
      req.URL.Path = "/database/1/y/development/public/records/modify" ∧
      req.URL.Path ≠ "/database/1/iCloud.x/../y/development/public/records/modify") ∧
    IsICloudContainer "iCloud.a\tb" = true ∧
    NewClient urlLib (answer noResponse) "iCloud.a\tb" "6459b5a4" (some (7 : Nat))
        Environment.Development [] =
      .error (.url "parse" "https://api.apple-cloudkit.com/database/1/iCloud.a\tb/development"
        .controlCharacter) := by
  refine ⟨by decide, ⟨?_, ⟨"/records/modify"⟩, ?_⟩, by decide, ⟨?_, ⟨"/records/modify"⟩, ?_⟩,
    by decide, ⟨?_, ⟨"/records/modify"⟩, ?_⟩, by decide, ⟨?_, ⟨"/records/modify"⟩, ?_⟩,
    by decide, rfl⟩
  · exact { baseURL := { Scheme := "https", Host := "api.apple-cloudkit.com",
                         Path := "/database/1/iCloud.com.example",
                         RawQuery := "beta/development" },
            userAgent := "icloud-go", keyID := "6459b5a4", privateKey := some (7 : Nat),
            strictDecoding := false, httpClient := answer noResponse,
            Records := some { basePath := "/records/modify" } }
  · exact ⟨_, rfl, rfl, rfl, by decide, by decide⟩
  · exact { baseURL := { Scheme := "https", Host := "api.apple-cloudkit.com",
                         Path := "/database/1/iCloud.App/production",
                         RawPath := "/database/1/iCloud.%41pp/production", RawQuery := "" },
            userAgent := "icloud-go", keyID := "6459b5a4", privateKey := some (7 : Nat),
            strictDecoding := false, httpClient := answer noResponse,
            Records := some { basePath := "/records/modify" } }
  · exact ⟨_, rfl, rfl, rfl, by decide, by decide⟩
  · exact { baseURL := { Scheme := "https", Host := "api.apple-cloudkit.com",
                         Path := "/database/1/iCloud.a//b/development", RawQuery := "" },
            userAgent := "icloud-go", keyID := "6459b5a4", privateKey := some (7 : Nat),
            strictDecoding := false, httpClient := answer noResponse,
            Records := some { basePath := "/records/modify" } }
  · exact ⟨_, rfl, rfl, rfl, by decide, by decide⟩
  · exact { baseURL := { Scheme := "https", Host := "api.apple-cloudkit.com",
                         Path := "/database/1/iCloud.x/../y/development", RawQuery := "" },
            userAgent := "icloud-go", keyID := "6459b5a4", privateKey := some (7 : Nat),
            strictDecoding := false, httpClient := answer noResponse,
            Records := some { basePath := "/records/modify" } }
  · exact ⟨_, rfl, rfl, rfl, by decide, by decide⟩

/-- C11 fails on the code: `Client.do` takes every response with a status code
below 400 for a success.  A `304 Not Modified` with `v` nil returns nil, the body
of a `300 Multiple Choices` is decoded into `v` or copied to it and nil is
returned, and so for every response below 400 when `v` is nil. -/
theorem do_below_400_is_success :
    (testClient ⟨304, [], ""⟩).do_ testLib decodeUnit 0 testRequest (.nil : Out Unit) =
      (.nil, none) ∧
    (testClient ⟨300, [("Content-Type", ["application/json"])],
        "\x7b\"records\":[]\x7d"⟩).do_ testLib decodeAny 0 testRequest (.value .null) =
      (.value (.obj [("records", .arr [])]), none) ∧
    (testClient ⟨300, [("Content-Type", ["application/json"])],
        "\x7b\"records\":[]\x7d"⟩).do_ testLib decodeUnit 0 testRequest (.writer "") =
      (.writer "\x7b\"records\":[]\x7d", none) ∧
    (∀ (L : Lib) (c : Client L) (decode : Bool → Json → Unit → Unit × Option Err) (ahead : Nat)
        (req : Request) (resp : Response),
      c.httpClient req = .ok resp → resp.StatusCode < 400 →
      c.do_ L decode ahead req (.nil : Out Unit) = (.nil, none)) := by
  refine ⟨rfl, rfl, rfl, ?_⟩
  intro L c decode ahead req resp hresp hlt
  have h : ¬ resp.StatusCode ≥ 400 := by omega
  unfold Client.do_
  rw [hresp]
  simp only [h, ↓reduceIte]

/-- C13 fails on the code: the client that `NewClient` builds with a nil key
panics in `newRequest`, and so in `call` and `Modify`, instead of returning an
error; every `newRequest` of a client with a nil key that gets as far as
signing panics. -/
theorem newRequest_nil_key_panics :
    (∃ (client : Client urlLib) (s : RecordsService),
      NewClient urlLib (answer noResponse) "iCloud.com.lukasmalkmus.Example-App" "6459b5a4" none
        Environment.Development [] = .ok client ∧
      client.Records = some s ∧
      client.newRequest urlLib "2024-01-02T15:04:05Z" () (fun j : Json => Except.ok j) "GET" "/"
        none = .crash ∧
      client.call urlLib "2024-01-02T15:04:05Z" () (fun j : Json => Except.ok j) decodeUnit 0
        "GET" "/" none (.value ()) = .crash ∧
      s.Modify urlLib client "2024-01-02T15:04:05Z" () decodeKeep 0 Database.Public
        exampleRequest = .crash) ∧
    (∀ (L : Lib) (c : Client L) (now : L.Time) (rnd : L.Entropy)
        (marshal : Json → Except Err Json) (method endpoint : String) (body : Option Json)
        (req : Request) (h : Hash),
      c.privateKey = none →
      c.newRequestUnsigned L marshal method endpoint body = .ok (req, h) →
      c.newRequest L now rnd marshal method endpoint body = .crash) := by
  have hnew := NewClient_spec urlLib urlLib_netURL (answer noResponse)
    "iCloud.com.lukasmalkmus.Example-App" "6459b5a4" none Environment.Development (Or.inl rfl)
    (by decide)
  refine ⟨⟨_, ⟨"/records/modify"⟩, hnew, rfl, rfl, rfl, rfl⟩, ?_⟩
  intro L c now rnd marshal method endpoint body req h hkey hun
  unfold Client.newRequest
  rw [hun]
  simp only [Client.signRequest, hkey]

/-- C15 fails on the code: the JSON text `{"a":null}` is an object whose member
`a` is `null`, and `Fields.UnmarshalJSON` panics on it, whatever the order of
`range` and whatever the receiver holds. -/
theorem fields_unmarshal_null_panics :
    Json.parse "\x7b\"a\":null\x7d" = .ok (.obj [("a", .null)], "") ∧
    (∀ (ord : RangeOrder) (f : Fields),
      Fields.UnmarshalJSON ord (.obj [("a", .null)]) f = .crash) := by
  refine ⟨rfl, ?_⟩
  intro ord f
  have hm : unmarshalFieldMap (.obj [("a", .null)]) = ([("a", none)], none) := rfl
  have hp : ord.pick [("a", none)] = [("a", none)] :=
    List.perm_singleton.mp (ord.perm [("a", none)])
  unfold Fields.UnmarshalJSON
  rw [hm]
  simp only [hp]
  rfl

end Icloud
